import Mathlib

/-!
# minx: virtual paths, wildcard matching and listings over a flat object store

A verification development for `uk0/minx`, a command-line client that shows an
S3-compatible bucket as a directory tree.  The Go functions are embedded as
Lean functions of the same name: strings are byte sequences, maps are
functions to `Option`, and the storage backend, the file system and the
configuration file are explicit arguments.
-/

namespace Minx

/-- A Go `string`: a sequence of bytes.  Bytes are the naturals below 256; no
function here depends on that bound, so the theorems cover every byte string. -/
abbrev GoString := List Nat

/-- The bytes of an ASCII literal. -/
def ascii (s : String) : GoString := s.toList.map Char.toNat

/-- The byte `'/'`. -/
def slash : Nat := 47

/-- The byte `':'`. -/
def colon : Nat := 58

/-! ## The parts of Go's `strings` package the program calls -/

namespace strings

/-- `strings.HasPrefix(s, pre)`. -/
def HasPrefix (s pre : GoString) : Bool := pre.isPrefixOf s

/-- `strings.HasSuffix(s, suf)`. -/
def HasSuffix (s suf : GoString) : Bool := suf.isSuffixOf s

/-- `strings.TrimPrefix(s, pre)`: `s` without the leading `pre`, or `s` itself. -/
def TrimPrefix (s pre : GoString) : GoString :=
  if HasPrefix s pre then s.drop pre.length else s

/-- `strings.TrimSuffix(s, suf)`: `s` without the trailing `suf`, or `s` itself. -/
def TrimSuffix (s suf : GoString) : GoString :=
  if HasSuffix s suf then s.take (s.length - suf.length) else s

/-- `strings.Contains(s, sep)` for a one-byte `sep` (the only use in the program). -/
def Contains (s : GoString) (sep : Nat) : Bool := s.contains sep

/-- `strings.Split(s, sep)` for a one-byte `sep` (the only use in the program):
the pieces between the occurrences of `sep`; never empty, `Split "" = [""]`. -/
def Split : GoString → Nat → List GoString
  | [], _ => [[]]
  | c :: s, sep =>
    if c = sep then [] :: Split s sep
    else
      match Split s sep with
      | [] => [[c]]
      | p :: ps => (c :: p) :: ps

/-- `strings.Join(elems, sep)`. -/
def Join : List GoString → GoString → GoString
  | [], _ => []
  | [a], _ => a
  | a :: b :: rest, sep => a ++ sep ++ Join (b :: rest) sep

end strings

/-! ## `wildcard/wildcard.go` -/

namespace wildcard

/-- The byte `'*'`. -/
def star : Nat := 42

/-- The byte `'?'`. -/
def qmark : Nat := 63

/-- The grid `dp` of `Match`, addressed by row and column. -/
abbrev Table := Nat → Nat → Bool

/-- `make([][]bool, ...)`: every cell is `false`. -/
def Table.make : Table := fun _ _ => false

/-- The assignment `dp[i][j] = v`. -/
def Table.set (dp : Table) (i j : Nat) (v : Bool) : Table :=
  fun a b => if a = i ∧ b = j then v else dp a b

/-- The loop `for k := lo; k <= hi; k++ \x7b s = body k s \x7d`. -/
def forLoop {σ : Type} (lo hi : Nat) (body : Nat → σ → σ) (s : σ) : σ :=
  (List.range' lo (hi + 1 - lo)).foldl (fun acc k => body k acc) s

/-- `wildcard.Match(pattern, text)`, statement by statement: the two early
returns, the first row of the grid, then the grid row by row. -/
def Match (pattern text : GoString) : Bool :=
  if pattern.length = 0 then decide (text.length = 0)
  else if pattern = [star] then true
  else
    let dp := Table.make
    let dp := dp.set 0 0 true
    let dp := forLoop 1 pattern.length (fun j dp =>
      if pattern.getD (j - 1) 0 = star then dp.set 0 j (dp 0 (j - 1)) else dp) dp
    let dp := forLoop 1 text.length (fun i dp =>
      forLoop 1 pattern.length (fun j dp =>
        if pattern.getD (j - 1) 0 = star then
          dp.set i j (dp i (j - 1) || dp (i - 1) j)
        else if pattern.getD (j - 1) 0 = qmark ∨ pattern.getD (j - 1) 0 = text.getD (i - 1) 0 then
          dp.set i j (dp (i - 1) (j - 1))
        else dp) dp) dp
    dp text.length pattern.length

/-- Glob semantics in the words of the specification: `*` stands for any
sequence of bytes, `?` for exactly one byte, any other byte for itself, and the
whole text is consumed. -/
def GlobMatches : GoString → GoString → Prop
  | [], t => t = []
  | c :: p, t =>
    if c = star then ∃ s r, t = s ++ r ∧ GlobMatches p r
    else if c = qmark then ∃ b r, t = b :: r ∧ GlobMatches p r
    else ∃ r, t = c :: r ∧ GlobMatches p r

/-- The value the grid holds at row `i`, column `j` once it is filled: a proof
device, the recurrence of `Match` read as a function. -/
def cellSpec (pattern text : GoString) : Nat → Nat → Bool
  | 0, 0 => true
  | 0, j + 1 => if pattern.getD j 0 = star then cellSpec pattern text 0 j else false
  | _ + 1, 0 => false
  | i + 1, j + 1 =>
    if pattern.getD j 0 = star then
      cellSpec pattern text (i + 1) j || cellSpec pattern text i (j + 1)
    else if pattern.getD j 0 = qmark ∨ pattern.getD j 0 = text.getD i 0 then
      cellSpec pattern text i j
    else false
termination_by i j => (i, j)

/-- The grid after rows `0 .. i-1` and the cells `0 .. j` of row `i` are
filled, over `m` columns: a proof device. -/
def filled (pattern text : GoString) (m i j : Nat) : Table :=
  fun a b => if b ≤ m ∧ (a < i ∨ (a = i ∧ b ≤ j)) then cellSpec pattern text a b else false

end wildcard

/-! ## `session.go` -/

/-- A Go `error` value of the program, by the place that makes it. -/
inductive Error where
  | missingArgument
  | noActiveSession
  | sessionMissing (name : GoString)
  | clientFailed
  | saveFailed
  | bucketCheckFailed
  | bucketMissing (name : GoString)
  | dirNotFound (path : GoString)
  | listingFailed
  | invalidAuthString
  | mkdirFailed
  | statFailed
  | openFailed
  | createFailed
  | getObjectFailed
  | copyFailed
  | sourceMissing (path : GoString)
  | destExists (path : GoString)
  | copyObjectFailed
  | removeFailed
  | noMatch (path : GoString)
  | notFound (path : GoString)
  | notDirectory (path : GoString)
  | needDirFlag (path : GoString)
  | walkFailed
  | putObjectFailed
  deriving DecidableEq, Repr

deriving instance DecidableEq for Except

/-- The struct `Session`. -/
structure Session where
  Endpoint : GoString
  AccessKey : GoString
  SecretKey : GoString
  BucketName : GoString
  CurrentPath : GoString
  deriving DecidableEq, Repr

/-- The zero value of `Session`, which a Go map read yields for an absent key. -/
def Session.zero : Session := ⟨[], [], [], [], []⟩

/-- The struct `SessionManager`: `Sessions` is the Go map, `currentClient`
says whether a client is cached.  `ConfigPath` plays no part here. -/
structure SessionManager where
  Sessions : GoString → Option Session
  CurrentName : GoString
  currentClient : Bool

/-- An item received from the channel of `client.ListObjects`: an object, or
an error report (`Err != nil`). -/
structure ObjectInfo where
  Key : GoString
  Size : Int
  LastModified : Int
  Err : Bool
  deriving DecidableEq, Repr

/-- What the program asks of its surroundings: the configuration file, the
client library and the storage backend. -/
structure World where
  /-- Whether `os.WriteFile` of the configuration succeeds. -/
  saveOk : SessionManager → Bool
  /-- Whether `minio.New` succeeds for an endpoint. -/
  newClientOk : GoString → Bool
  /-- The result of `client.BucketExists`: `none` is an error. -/
  BucketExists : GoString → Option Bool
  /-- The items `client.ListObjects(bucket, Prefix, Recursive)` sends, in order. -/
  ListObjects : GoString → GoString → Bool → List ObjectInfo

/-- `SessionManager.Save`: `none` is the nil error. -/
def SessionManager.Save (w : World) (m : SessionManager) : Option Error :=
  if w.saveOk m then none else some Error.saveFailed

/-- The map assignment `m.Sessions[name] = session`. -/
def SessionManager.setSession (m : SessionManager) (name : GoString) (session : Session) :
    SessionManager :=
  { m with Sessions := fun k => if k = name then some session else m.Sessions k }

/-- `SessionManager.AddSession`. -/
def SessionManager.AddSession (w : World) (m : SessionManager) (name : GoString)
    (session : Session) : Option Error × SessionManager :=
  let m := m.setSession name session
  let m := if m.CurrentName = [] then { m with CurrentName := name } else m
  (m.Save w, m)

/-- `SessionManager.SwitchSession`. -/
def SessionManager.SwitchSession (w : World) (m : SessionManager) (name : GoString) :
    Option Error × SessionManager :=
  match m.Sessions name with
  | none => (some (Error.sessionMissing name), m)
  | some _ =>
    let m := { m with CurrentName := name, currentClient := false }
    (m.Save w, m)

/-- `SessionManager.CurrentSession`. -/
def SessionManager.CurrentSession (m : SessionManager) : Except Error Session :=
  if m.CurrentName = [] then Except.error Error.noActiveSession
  else
    match m.Sessions m.CurrentName with
    | none => Except.error (Error.sessionMissing m.CurrentName)
    | some session => Except.ok session

/-- The endpoint without its scheme, as `GetClient` and `loginAction` strip it. -/
def stripScheme (endpoint : GoString) : GoString :=
  if strings.HasPrefix endpoint (ascii "http://") then
    strings.TrimPrefix endpoint (ascii "http://")
  else if strings.HasPrefix endpoint (ascii "https://") then
    strings.TrimPrefix endpoint (ascii "https://")
  else endpoint

/-- `SessionManager.GetClient`: the manager with the client cached, or the error. -/
def SessionManager.GetClient (w : World) (m : SessionManager) : Except Error SessionManager :=
  if m.currentClient then Except.ok m
  else
    match m.CurrentSession with
    | Except.error e => Except.error e
    | Except.ok session =>
      if w.newClientOk (stripScheme session.Endpoint) then
        Except.ok { m with currentClient := true }
      else Except.error Error.clientFailed

/-- `SessionManager.UpdateCurrentPath`. -/
def SessionManager.UpdateCurrentPath (w : World) (m : SessionManager) (path : GoString) :
    Option Error × SessionManager :=
  if m.CurrentName = [] then (some Error.noActiveSession, m)
  else
    let session := (m.Sessions m.CurrentName).getD Session.zero
    let session := { session with CurrentPath := path }
    let m := m.setSession m.CurrentName session
    (m.Save w, m)

/-- `SessionManager.FormatPath`. -/
def SessionManager.FormatPath (m : SessionManager) (path : GoString) : Except Error GoString :=
  match m.CurrentSession with
  | Except.error e => Except.error e
  | Except.ok session =>
    if path = [] then Except.ok session.CurrentPath
    else if path.getD 0 0 = slash then Except.ok path
    else if session.CurrentPath = ascii "/" then Except.ok (ascii "/" ++ path)
    else Except.ok (session.CurrentPath ++ ascii "/" ++ path)

/-- `ParseAuthString`. -/
def ParseAuthString (authStr : GoString) : Except Error Session :=
  let parts := strings.Split authStr colon
  if parts.length ≠ 4 then Except.error Error.invalidAuthString
  else
    Except.ok
      { Endpoint := parts.getD 0 [], AccessKey := parts.getD 1 [], SecretKey := parts.getD 2 [],
        BucketName := parts.getD 3 [], CurrentPath := ascii "/" }

/-! ## `commands.go`: login, cd -/

/-- `loginAction`, from the four lines read from standard input (already
trimmed): the scheme decides `secure`, the bucket is checked, the session is
stored under `bucket/endpoint` and made current. -/
def loginAction (w : World) (m : SessionManager)
    (endpointIn accessKey secretKey bucketName : GoString) : Option Error × SessionManager :=
  let secure := !strings.HasPrefix endpointIn (ascii "http://")
  let endpoint := stripScheme endpointIn
  if !w.newClientOk endpoint then (some Error.clientFailed, m)
  else
    match w.BucketExists bucketName with
    | none => (some Error.bucketCheckFailed, m)
    | some false => (some (Error.bucketMissing bucketName), m)
    | some true =>
      let displayEndpoint :=
        if secure then ascii "https://" ++ endpoint else ascii "http://" ++ endpoint
      let sessionName := bucketName ++ ascii "/" ++ displayEndpoint
      let session : Session :=
        { Endpoint := displayEndpoint, AccessKey := accessKey, SecretKey := secretKey,
          BucketName := bucketName, CurrentPath := ascii "/" }
      match m.AddSession w sessionName session with
      | (some e, m1) => (some e, m1)
      | (none, m1) =>
        match m1.SwitchSession w sessionName with
        | (some e, m2) => (some e, m2)
        | (none, m2) => (none, m2)

/-- The listing prefix of a directory path, as `ls`, `cd`, `mkdir`, `tree` and
`sync` derive it: the leading `/` is trimmed and a non-empty result is made to
end in `/`. -/
def dirPrefix (path : GoString) : GoString :=
  let pfx := strings.TrimPrefix path (ascii "/")
  if pfx ≠ [] ∧ ¬ strings.HasSuffix pfx (ascii "/") then pfx ++ ascii "/" else pfx

/-- The object key of a path, as `get`, `put`, `rm`, `mv` and `cp` derive it. -/
def objectKey (formattedPath : GoString) : GoString :=
  strings.TrimPrefix formattedPath (ascii "/")

/-- The first half of `cdAction`: the path `newPath` that `cd path` aims at.
`none` is the early `return nil` of `cd ..` at the root. -/
def cdNewPath (m : SessionManager) (session : Session) (path : GoString) :
    Except Error (Option GoString) :=
  if path = ascii ".." then
    if session.CurrentPath = ascii "/" then Except.ok none
    else
      let parts := strings.Split (strings.TrimSuffix session.CurrentPath (ascii "/")) slash
      if parts.length ≤ 1 then Except.ok (some (ascii "/"))
      else Except.ok (some (ascii "/" ++ strings.Join (parts.take (parts.length - 1)) (ascii "/")))
  else
    match m.FormatPath path with
    | Except.error e => Except.error e
    | Except.ok formattedPath => Except.ok (some formattedPath)

/-- `cdAction` on the command's arguments: the returned error (`none` is nil)
and the manager it leaves. -/
def cdAction (w : World) (m : SessionManager) (args : List GoString) :
    Option Error × SessionManager :=
  if args.length < 1 then (some Error.missingArgument, m)
  else
    match m.CurrentSession with
    | Except.error e => (some e, m)
    | Except.ok session =>
      let path := args.headD []
      match cdNewPath m session path with
      | Except.error e => (some e, m)
      | Except.ok none => (none, m)
      | Except.ok (some newPath) =>
        if newPath ≠ ascii "/" then
          match m.GetClient w with
          | Except.error e => (some e, m)
          | Except.ok m1 =>
            let objectCh := w.ListObjects session.BucketName (dirPrefix newPath) false
            let found := !objectCh.isEmpty
            if !found then (some (Error.dirNotFound newPath), m1)
            else m1.UpdateCurrentPath w newPath
        else m.UpdateCurrentPath w newPath

/-! ## `commands.go`: ls, tree -/

/-- The helper `contains` (and its copy `containsStr`): linear search. -/
def contains : List GoString → GoString → Bool
  | [], _ => false
  | s :: rest, item => if s = item then true else contains rest item

/-- The copy `containsStr` of `contains`. -/
def containsStr (slice : List GoString) (item : GoString) : Bool := contains slice item

/-- The two slices `lsAction` collects. -/
structure LsState where
  directories : List GoString
  files : List ObjectInfo
  deriving DecidableEq, Repr

/-- One pass of the collecting loop of `lsAction`: an error item ends the
command; a name with a `/` adds its first segment as a directory, unless it is
there already; a non-empty name without `/` adds the object as a file. -/
def lsStep (pfx : GoString) (st : LsState) (object : ObjectInfo) : Except Error LsState :=
  if object.Err then Except.error Error.listingFailed
  else
    let name := strings.TrimPrefix object.Key pfx
    if strings.Contains name slash then
      let dirName := (strings.Split name slash).headD [] ++ ascii "/"
      if !contains st.directories dirName then
        Except.ok { st with directories := st.directories ++ [dirName] }
      else Except.ok st
    else if name ≠ [] then Except.ok { st with files := st.files ++ [object] }
    else Except.ok st

/-- The collecting loop of `lsAction` over the items the listing sends. -/
def lsLoop (pfx : GoString) : List ObjectInfo → LsState → Except Error LsState
  | [], st => Except.ok st
  | object :: rest, st =>
    match lsStep pfx st object with
    | Except.error e => Except.error e
    | Except.ok st1 => lsLoop pfx rest st1

/-- The directories and files `lsAction` has collected when the listing ends. -/
def lsCollect (pfx : GoString) (objectCh : List ObjectInfo) : Except Error LsState :=
  lsLoop pfx objectCh ⟨[], []⟩

/-- The segment of a name before its first `/`, in the words of the
specification. -/
def firstSegment (name : GoString) : GoString := name.takeWhile (fun c => decide (c ≠ slash))

/-- The map `tree` of `treeAction`, from a directory path to its children. -/
abbrev Tree := GoString → Option (List GoString)

/-- The read `tree[k]`: the nil slice for an absent key. -/
def Tree.get (t : Tree) (k : GoString) : List GoString := (t k).getD []

/-- The assignment `tree[k] = v`. -/
def Tree.set (t : Tree) (k : GoString) (v : List GoString) : Tree :=
  fun k1 => if k1 = k then some v else t k1

/-- The body of the loop over `parts` in `treeAction`, at index `i`. -/
def treeAddPart (path : GoString) (parts : List GoString) (tree : Tree) (i : Nat) : Tree :=
  if i = parts.length - 1 ∧ ¬ strings.HasSuffix path (ascii "/") then
    let parent := strings.Join (parts.take i) (ascii "/")
    let parent := if parent = [] then ascii "/" else parent
    tree.set parent (tree.get parent ++ [parts.getD i []])
  else
    let dirPath := strings.Join (parts.take (i + 1)) (ascii "/")
    let parentPath := if i > 0 then strings.Join (parts.take i) (ascii "/") else ascii "/"
    let tree := if (tree dirPath).isNone then tree.set dirPath [] else tree
    let dirName := parts.getD i [] ++ ascii "/"
    if !containsStr (tree.get parentPath) dirName then
      tree.set parentPath (tree.get parentPath ++ [dirName])
    else tree

/-- What `treeAction` does with one non-empty prefix-stripped path. -/
def treeAddPath (tree : Tree) (path : GoString) : Tree :=
  let parts := strings.Split path slash
  (List.range parts.length).foldl (treeAddPart path parts) tree

/-- The building loop of `treeAction` over the items the listing sends. -/
def treeLoop (pfx : GoString) : List ObjectInfo → Tree → Except Error Tree
  | [], tree => Except.ok tree
  | object :: rest, tree =>
    if object.Err then Except.error Error.listingFailed
    else
      let path := strings.TrimPrefix object.Key pfx
      if path = [] then treeLoop pfx rest tree
      else treeLoop pfx rest (treeAddPath tree path)

/-- The map `treeAction` has built when the listing ends. -/
def treeBuild (pfx : GoString) (objectCh : List ObjectInfo) : Except Error Tree :=
  treeLoop pfx objectCh (fun _ => none)

/-- The map key under which `treeAction` files the directory `d1/.../dn`:
the joined segments, and `/` for the root. -/
def dirKey (ds : List GoString) : GoString :=
  if ds = [] then ascii "/" else strings.Join ds (ascii "/")

/-! ## `commands.go`: the workers of the directory download, the remote map of sync -/

/-- Go's `<` on strings: lexicographic on bytes. -/
def strLess : GoString → GoString → Bool
  | _, [] => false
  | [], _ :: _ => true
  | a :: s, b :: t => if a < b then true else if b < a then false else strLess s t

/-- The local file system and the object reads, as a download worker meets them. -/
structure GetEnv where
  /-- The function `filepath.Join` on two elements. -/
  joinPath : GoString → GoString → GoString
  /-- The function `filepath.Dir`. -/
  dirOf : GoString → GoString
  /-- Whether `os.MkdirAll` succeeds. -/
  mkdirAllOk : GoString → Bool
  /-- The helper `fileExists`. -/
  fileExists : GoString → Bool
  /-- The size `os.Stat` reports; `none` is an error. -/
  statSize : GoString → Option Int
  /-- Whether `os.OpenFile` for appending succeeds. -/
  openAppendOk : GoString → Bool
  /-- Whether `os.Create` succeeds. -/
  createOk : GoString → Bool
  /-- Whether `client.GetObject` succeeds for a key. -/
  getObjectOk : GoString → Bool
  /-- Whether `io.Copy` into a file ends without error. -/
  copyOk : GoString → Bool

/-- The flags of `get` a worker reads: `-c`, `--start`, `--end`. -/
structure GetFlags where
  resume : Bool
  start : GoString
  stop : GoString

/-- What a download worker does that can be seen from outside. -/
inductive GetEvent where
  | mkdirAll (dir : GoString)
  | logError (subject : GoString)
  | alreadyComplete (filePath : GoString)
  | openAppend (filePath : GoString)
  | create (filePath : GoString)
  | getRange (key : GoString) (first last : Int)
  | getWhole (key : GoString)
  | copy (filePath : GoString)
  | progress (total current : Int)
  deriving DecidableEq, Repr

/-- The body of the worker loop of the directory download, for one received
object: the events it causes, in order. -/
def getWorkerJob (env : GetEnv) (flags : GetFlags) (localPath pfx : GoString)
    (obj : ObjectInfo) : List GetEvent :=
  if strings.HasSuffix obj.Key (ascii "/") then []
  else
    let relPath := strings.TrimPrefix obj.Key pfx
    let filePath := env.joinPath localPath relPath
    if !env.mkdirAllOk (env.dirOf filePath) then
      [GetEvent.mkdirAll (env.dirOf filePath), GetEvent.logError (env.dirOf filePath)]
    else
      GetEvent.mkdirAll (env.dirOf filePath) ::
      (if flags.start ≠ [] ∧ strLess relPath flags.start then []
      else if flags.stop ≠ [] ∧ ¬ strLess relPath flags.stop then []
      else if flags.resume ∧ env.fileExists filePath then
        match env.statSize filePath with
        | none => [GetEvent.logError filePath]
        | some size =>
          if size ≥ obj.Size then [GetEvent.alreadyComplete filePath]
          else if !env.openAppendOk filePath then [GetEvent.logError filePath]
          else if !env.getObjectOk obj.Key then
            [GetEvent.openAppend filePath, GetEvent.logError obj.Key]
          else if !env.copyOk filePath then
            [GetEvent.openAppend filePath, GetEvent.getRange obj.Key size (obj.Size - 1),
              GetEvent.copy filePath, GetEvent.logError filePath]
          else
            [GetEvent.openAppend filePath, GetEvent.getRange obj.Key size (obj.Size - 1),
              GetEvent.copy filePath]
      else
        if !env.createOk filePath then [GetEvent.logError filePath]
        else if !env.getObjectOk obj.Key then
          [GetEvent.create filePath, GetEvent.logError obj.Key]
        else if !env.copyOk filePath then
          [GetEvent.create filePath, GetEvent.getWhole obj.Key, GetEvent.copy filePath,
            GetEvent.logError filePath]
        else
          [GetEvent.create filePath, GetEvent.getWhole obj.Key, GetEvent.copy filePath])

/-- The map `remoteFiles` of `syncAction`, from a relative path to its object. -/
abbrev RemoteFiles := GoString → Option ObjectInfo

/-- The loop of `syncAction` that fills `remoteFiles` from the listing. -/
def syncRemoteLoop (objectPrefix : GoString) :
    List ObjectInfo → RemoteFiles → Except Error RemoteFiles
  | [], remoteFiles => Except.ok remoteFiles
  | object :: rest, remoteFiles =>
    if object.Err then Except.error Error.listingFailed
    else if strings.HasSuffix object.Key (ascii "/") then
      syncRemoteLoop objectPrefix rest remoteFiles
    else
      let relPath := strings.TrimPrefix object.Key objectPrefix
      syncRemoteLoop objectPrefix rest
        (fun k => if k = relPath then some object else remoteFiles k)

/-- The map `remoteFiles` when the listing ends. -/
def syncRemoteFiles (objectPrefix : GoString) (objectCh : List ObjectInfo) :
    Except Error RemoteFiles :=
  syncRemoteLoop objectPrefix objectCh (fun _ => none)

/-! ## `commands.go`: printTree -/

/-- The bytes of the connector `"└── "` printed before the last child. -/
def connLast : GoString := [226, 148, 148, 226, 148, 128, 226, 148, 128, 32]

/-- The bytes of the connector `"├── "` printed before every other child. -/
def connMid : GoString := [226, 148, 156, 226, 148, 128, 226, 148, 128, 32]

/-- The bytes of the indentation unit `"│   "`. -/
def indentUnit : GoString := [226, 148, 130, 32, 32, 32]

/-- The function `sort.Strings`: the ascending arrangement under Go's `<`. -/
def sortStrings (items : List GoString) : List GoString :=
  items.insertionSort (fun a b => strLess b a = false)

/-- The string `prefix` of `printTree`: `depth` copies of the indentation unit. -/
def treeIndent : Nat → GoString
  | 0 => []
  | depth + 1 => treeIndent depth ++ indentUnit

/-- The path `nextPath` under which `printTree` looks a child directory up. -/
def treeNextPath (currentPath item : GoString) : GoString :=
  let nextPath := currentPath
  let nextPath := if nextPath ≠ ascii "/" then nextPath ++ ascii "/" else nextPath
  nextPath ++ strings.TrimSuffix item (ascii "/")

/-- The line `printTree` prints for the child at index `i` of `n`. -/
def treeLine (depth i n : Nat) (item : GoString) : GoString :=
  treeIndent depth ++ (if i = n - 1 then connLast else connMid) ++ item

/-- `printTree(tree, currentPath, depth)`: the lines it prints, in order.  The
first argument bounds the depth of the recursion; `none` says the bound was
reached. -/
def printTree : Nat → Tree → GoString → Nat → Option (List GoString)
  | 0, _, _, _ => none
  | fuel + 1, tree, currentPath, depth =>
    let items := sortStrings (tree.get currentPath)
    ((List.range items.length).mapM (fun i =>
      let item := items.getD i []
      if strings.HasSuffix item (ascii "/") then
        (printTree fuel tree (treeNextPath currentPath item) (depth + 1)).map
          (fun sub => treeLine depth i items.length item :: sub)
      else some [treeLine depth i items.length item])).map List.flatten

/-! ## `commands.go`: the download of a single file -/

/-- The branch of `getAction` for an object that `StatObject` found
(`objInfo`): the returned error (`none` is nil) and the events, in order.
The progress bar is made with `Total` the remote size and `Current` the
local size on resume, zero otherwise. -/
def getSingleFile (env : GetEnv) (resume : Bool) (localPath objectName : GoString)
    (objInfo : ObjectInfo) : Option Error × List GetEvent :=
  let localDir := env.dirOf localPath
  if localDir ≠ ascii "." ∧ !env.mkdirAllOk localDir then
    (some Error.mkdirFailed, [GetEvent.mkdirAll localDir])
  else
    let made := if localDir ≠ ascii "." then [GetEvent.mkdirAll localDir] else []
    if resume ∧ env.fileExists localPath then
      match env.statSize localPath with
      | none => (some Error.statFailed, made)
      | some size =>
        if size ≥ objInfo.Size then (none, made ++ [GetEvent.alreadyComplete localPath])
        else if !env.openAppendOk localPath then (some Error.openFailed, made)
        else if !env.getObjectOk objectName then
          (some Error.getObjectFailed, made ++ [GetEvent.openAppend localPath])
        else if !env.copyOk localPath then
          (some Error.copyFailed,
            made ++ [GetEvent.openAppend localPath,
              GetEvent.getRange objectName size (objInfo.Size - 1),
              GetEvent.progress objInfo.Size size, GetEvent.copy localPath])
        else
          (none,
            made ++ [GetEvent.openAppend localPath,
              GetEvent.getRange objectName size (objInfo.Size - 1),
              GetEvent.progress objInfo.Size size, GetEvent.copy localPath])
    else
      if !env.createOk localPath then (some Error.createFailed, made)
      else if !env.getObjectOk objectName then
        (some Error.getObjectFailed,
          made ++ [GetEvent.create localPath, GetEvent.progress objInfo.Size 0])
      else if !env.copyOk localPath then
        (some Error.copyFailed,
          made ++ [GetEvent.create localPath, GetEvent.progress objInfo.Size 0,
            GetEvent.getWhole objectName, GetEvent.copy localPath])
      else
        (none,
          made ++ [GetEvent.create localPath, GetEvent.progress objInfo.Size 0,
            GetEvent.getWhole objectName, GetEvent.copy localPath])

/-- Whether an event asks the backend for object data. -/
def GetEvent.isRequest : GetEvent → Bool
  | GetEvent.getRange _ _ _ => true
  | GetEvent.getWhole _ => true
  | _ => false

/-- Whether an event opens or makes a local file. -/
def GetEvent.isFileOpen : GetEvent → Bool
  | GetEvent.openAppend _ => true
  | GetEvent.create _ => true
  | _ => false

/-- What one event does to the local file, as the pair of its size and the
number of bytes a request has made ready, for a backend that sends exactly
the bytes asked for and a copy that writes all it receives: `create` empties
the file, opening for append leaves it, a request for the range
`[first, last]` makes `last - first + 1` bytes ready and a request for the
whole object `remoteSize` bytes, and `copy` writes the ready bytes at the
end. -/
def GetEvent.apply (remoteSize : Int) : Int × Int → GetEvent → Int × Int
  | (_, ready), GetEvent.create _ => (0, ready)
  | (size, _), GetEvent.getRange _ first last => (size, last - first + 1)
  | (size, _), GetEvent.getWhole _ => (size, remoteSize)
  | (size, ready), GetEvent.copy _ => (size + ready, 0)
  | state, _ => state

/-- The size of a local file of `size` bytes after the events of a download,
for such a backend. -/
def localSizeAfter (remoteSize size : Int) (events : List GetEvent) : Int :=
  (events.foldl (GetEvent.apply remoteSize) (size, 0)).1

/-! ## `commands.go`: the workers and the delete pass of sync -/

/-- What `os.Stat` reports of a local path. -/
structure FileInfo where
  IsDir : Bool
  Size : Int
  ModTime : Int
  deriving DecidableEq, Repr

/-- The local file system and the uploads, as a sync worker meets them. -/
structure SyncEnv where
  /-- The function `filepath.Join` on two elements. -/
  joinPath : GoString → GoString → GoString
  /-- The result of `os.Stat`; `none` is an error. -/
  stat : GoString → Option FileInfo
  /-- Whether `os.Open` succeeds. -/
  openOk : GoString → Bool
  /-- Whether `client.PutObject` succeeds for an object name. -/
  putObjectOk : GoString → Bool
  /-- Whether `client.RemoveObject` succeeds for a key. -/
  removeObjectOk : GoString → Bool

/-- What sync does that can be seen from outside. -/
inductive SyncEvent where
  | logError (subject : GoString)
  | markProcessed (relPath : GoString)
  | openFile (path : GoString)
  | putObject (objectName : GoString) (size : Int)
  | removeObject (key : GoString)
  deriving DecidableEq, Repr

/-- The flag `needUpload` of the sync worker: the remote map has no entry for
the relative path, or the sizes differ, or the local file is newer
(`ModTime().After(LastModified)`). -/
def needUpload (remoteFiles : RemoteFiles) (relPath : GoString) (localFileInfo : FileInfo) :
    Bool :=
  match remoteFiles relPath with
  | none => true
  | some remoteObj =>
    if localFileInfo.Size ≠ remoteObj.Size then true
    else if localFileInfo.ModTime > remoteObj.LastModified then true
    else false

/-- The body of the worker loop of `syncAction`, for one received relative
path: the events it causes, in order. -/
def syncWorkerJob (env : SyncEnv) (localPath objectPrefix : GoString)
    (remoteFiles : RemoteFiles) (relPath : GoString) : List SyncEvent :=
  let fullLocalPath := env.joinPath localPath relPath
  match env.stat fullLocalPath with
  | none => [SyncEvent.logError fullLocalPath]
  | some localFileInfo =>
    if localFileInfo.IsDir then []
    else
      SyncEvent.markProcessed relPath ::
      (if needUpload remoteFiles relPath localFileInfo then
        if !env.openOk fullLocalPath then
          [SyncEvent.openFile fullLocalPath, SyncEvent.logError fullLocalPath]
        else
          let objectName := objectPrefix ++ relPath
          if !env.putObjectOk objectName then
            [SyncEvent.openFile fullLocalPath, SyncEvent.putObject objectName localFileInfo.Size,
              SyncEvent.logError fullLocalPath]
          else
            [SyncEvent.openFile fullLocalPath, SyncEvent.putObject objectName localFileInfo.Size]
      else [])

/-- The delete pass of `syncAction`.  `order` is the order in which Go's
`range` visits the keys of `remoteFiles`; `processedFiles` is the set of
visited relative paths. A remote path not visited has `RemoveObject` called
on the key of its object, and a failure is logged. -/
def syncDeletePass (env : SyncEnv) (deleteFlag : Bool) (remoteFiles : RemoteFiles)
    (order : List GoString) (processedFiles : GoString → Bool) : List SyncEvent :=
  if deleteFlag then
    order.flatMap (fun remotePath =>
      match remoteFiles remotePath with
      | none => []
      | some info =>
        if !processedFiles remotePath then
          if !env.removeObjectOk info.Key then
            [SyncEvent.removeObject info.Key, SyncEvent.logError remotePath]
          else [SyncEvent.removeObject info.Key]
        else [])
  else []

/-- The keys for which an event list calls `RemoveObject`, in order. -/
def removedKeys : List SyncEvent → List GoString
  | [] => []
  | SyncEvent.removeObject key :: rest => key :: removedKeys rest
  | _ :: rest => removedKeys rest

/-- The object the remote map ends up holding for a relative path: the last
file object of the listing that strips to it. A proof device. -/
def lastMatch (objectPrefix : GoString) : List ObjectInfo → GoString → Option ObjectInfo
  | [], _ => none
  | o :: rest, rel =>
    match lastMatch objectPrefix rest rel with
    | some x => some x
    | none =>
      if strings.HasSuffix o.Key (ascii "/") = false ∧
          strings.TrimPrefix o.Key objectPrefix = rel then some o
      else none

/-! ## `commands.go`: mv, cp -/

/-- The bucket as a map from object key to content. -/
abbrev Store := GoString → Option GoString

/-- Which calls of the backend fail in a run of `mv` or `cp`, whatever the
bucket holds: a failing call returns an error and changes nothing.
`statFails key` says that `StatObject` on `key` returns an error although the
object may be there (access denied, a network error). -/
structure StoreFaults where
  statFails : GoString → Bool
  copyFails : Bool
  removeFails : Bool

/-- A call that changes the bucket. -/
inductive StoreOp where
  | copyObject (src dst : GoString)
  | removeObject (key : GoString)
  deriving DecidableEq, Repr

/-- Whether `client.StatObject(key)` returns without error: the object is
there and the call does not fail. -/
def Store.statOk (store : Store) (faults : StoreFaults) (key : GoString) : Bool :=
  (store key).isSome && !faults.statFails key

/-- The call `client.CopyObject(dst <- src)`: the bucket after it, or `none`
for an error. Besides a fault, the backend refuses the copy of an absent
source and the copy of an object onto itself (S3 and MinIO answer 400 to a
copy that changes neither key nor metadata). -/
def Store.copy (store : Store) (faults : StoreFaults) (src dst : GoString) : Option Store :=
  if faults.copyFails ∨ src = dst ∨ (store src).isNone then none
  else some (fun k => if k = dst then store src else store k)

/-- The call `client.RemoveObject(key)`: the bucket after it, or `none` for an
error. -/
def Store.remove (store : Store) (faults : StoreFaults) (key : GoString) : Option Store :=
  if faults.removeFails then none else some (fun k => if k = key then none else store k)

/-- `mvAction` on its arguments and the `-f` flag: the returned error (`none`
is nil), the bucket it leaves and the changing calls it made, in order. The
source is taken as missing on any error of `StatObject`, and the destination
as present only when `StatObject` returns without error. -/
def mvAction (w : World) (m : SessionManager) (faults : StoreFaults) (force : Bool)
    (args : List GoString) (store : Store) : Option Error × Store × List StoreOp :=
  if args.length < 2 then (some Error.missingArgument, store, [])
  else
    match m.GetClient w with
    | Except.error e => (some e, store, [])
    | Except.ok _ =>
      match m.CurrentSession with
      | Except.error e => (some e, store, [])
      | Except.ok _ =>
        let sourcePath := args.getD 0 []
        let destPath := args.getD 1 []
        match m.FormatPath sourcePath with
        | Except.error e => (some e, store, [])
        | Except.ok sourceFormatted =>
          match m.FormatPath destPath with
          | Except.error e => (some e, store, [])
          | Except.ok destFormatted =>
            let sourceObject := strings.TrimPrefix sourceFormatted (ascii "/")
            let destObject := strings.TrimPrefix destFormatted (ascii "/")
            if !store.statOk faults sourceObject then
              (some (Error.sourceMissing sourceFormatted), store, [])
            else
              let destExists := store.statOk faults destObject
              if destExists ∧ !force then
                (some (Error.destExists destFormatted), store, [])
              else
                match store.copy faults sourceObject destObject with
                | none =>
                  (some Error.copyObjectFailed, store,
                    [StoreOp.copyObject sourceObject destObject])
                | some store1 =>
                  match store1.remove faults sourceObject with
                  | none =>
                    (some Error.removeFailed, store1,
                      [StoreOp.copyObject sourceObject destObject,
                        StoreOp.removeObject sourceObject])
                  | some store2 =>
                    (none, store2,
                      [StoreOp.copyObject sourceObject destObject,
                        StoreOp.removeObject sourceObject])

/-- `cpAction`, as `mvAction` without the removal of the source. -/
def cpAction (w : World) (m : SessionManager) (faults : StoreFaults) (force : Bool)
    (args : List GoString) (store : Store) : Option Error × Store × List StoreOp :=
  if args.length < 2 then (some Error.missingArgument, store, [])
  else
    match m.GetClient w with
    | Except.error e => (some e, store, [])
    | Except.ok _ =>
      match m.CurrentSession with
      | Except.error e => (some e, store, [])
      | Except.ok _ =>
        let sourcePath := args.getD 0 []
        let destPath := args.getD 1 []
        match m.FormatPath sourcePath with
        | Except.error e => (some e, store, [])
        | Except.ok sourceFormatted =>
          match m.FormatPath destPath with
          | Except.error e => (some e, store, [])
          | Except.ok destFormatted =>
            let sourceObject := strings.TrimPrefix sourceFormatted (ascii "/")
            let destObject := strings.TrimPrefix destFormatted (ascii "/")
            if !store.statOk faults sourceObject then
              (some (Error.sourceMissing sourceFormatted), store, [])
            else
              let destExists := store.statOk faults destObject
              if destExists ∧ !force then
                (some (Error.destExists destFormatted), store, [])
              else
                match store.copy faults sourceObject destObject with
                | none =>
                  (some Error.copyObjectFailed, store,
                    [StoreOp.copyObject sourceObject destObject])
                | some store1 =>
                  (none, store1, [StoreOp.copyObject sourceObject destObject])

/-! ## `commands.go`: rm -/

/-- The flags of `rm`: `-d` (directories only), `-a` (files and directories),
`--async`. -/
structure RmFlags where
  d : Bool
  a : Bool
  async : Bool

/-- The backend calls of `rm` that can fail. -/
structure RmEnv where
  /-- Whether `client.StatObject` succeeds for a key. -/
  statOk : GoString → Bool
  /-- Whether `client.RemoveObject` succeeds for a key. -/
  removeOk : GoString → Bool

/-- What `rm` does that can be seen from outside. `asyncStart` is the start of
the goroutine that removes the given keys in the background. -/
inductive RmEvent where
  | removeObject (key : GoString)
  | logError (key : GoString)
  | asyncStart (keys : List GoString)
  deriving DecidableEq, Repr

/-- The loop of `rmAction` that collects `objectsToDelete` under a wildcard. -/
def rmSelectLoop (flags : RmFlags) (pattern : GoString) :
    List ObjectInfo → List GoString → Except Error (List GoString)
  | [], objectsToDelete => Except.ok objectsToDelete
  | object :: rest, objectsToDelete =>
    if object.Err then Except.error Error.listingFailed
    else if wildcard.Match pattern object.Key then
      if flags.d ∧ !strings.HasSuffix object.Key (ascii "/") then
        rmSelectLoop flags pattern rest objectsToDelete
      else if !flags.a ∧ !flags.d ∧ strings.HasSuffix object.Key (ascii "/") then
        rmSelectLoop flags pattern rest objectsToDelete
      else rmSelectLoop flags pattern rest (objectsToDelete ++ [object.Key])
    else rmSelectLoop flags pattern rest objectsToDelete

/-- The loop of `rmAction` that collects every key of a directory listing. -/
def rmCollectLoop : List ObjectInfo → List GoString → Except Error (List GoString)
  | [], objectsToDelete => Except.ok objectsToDelete
  | object :: rest, objectsToDelete =>
    if object.Err then Except.error Error.listingFailed
    else rmCollectLoop rest (objectsToDelete ++ [object.Key])

/-- The synchronous delete loop of `rmAction`: `RemoveObject` on every key in
turn, a failure being logged. -/
def rmDeleteSync (env : RmEnv) : List GoString → List RmEvent
  | [] => []
  | obj :: rest =>
    if !env.removeOk obj then
      RmEvent.removeObject obj :: RmEvent.logError obj :: rmDeleteSync env rest
    else RmEvent.removeObject obj :: rmDeleteSync env rest

/-- The wildcard branch of `rmAction`, from the object name on. -/
def rmWildcard (w : World) (env : RmEnv) (flags : RmFlags) (session : Session)
    (objectName formattedPath : GoString) : Option Error × List RmEvent :=
  let pfx := objectName.takeWhile (fun c => decide (c ≠ wildcard.star))
  let pattern := objectName
  let objectCh := w.ListObjects session.BucketName pfx true
  match rmSelectLoop flags pattern objectCh [] with
  | Except.error e => (some e, [])
  | Except.ok objectsToDelete =>
    if objectsToDelete.length = 0 then (some (Error.noMatch formattedPath), [])
    else if flags.async then (none, [RmEvent.asyncStart objectsToDelete])
    else (none, rmDeleteSync env objectsToDelete)

/-- The branch of `rmAction` without wildcard, from the object name on. -/
def rmPlain (w : World) (env : RmEnv) (flags : RmFlags) (session : Session)
    (objectName formattedPath : GoString) : Option Error × List RmEvent :=
  let isDir := strings.HasSuffix objectName (ascii "/")
  let decided : Except Error (Bool × GoString) :=
    if !isDir then
      if !env.statOk objectName then
        let hasObjects :=
          !(w.ListObjects session.BucketName (objectName ++ ascii "/") false).isEmpty
        if hasObjects then Except.ok (true, objectName ++ ascii "/")
        else Except.error (Error.notFound formattedPath)
      else if flags.d then Except.error (Error.notDirectory formattedPath)
      else Except.ok (isDir, objectName)
    else if !flags.a ∧ !flags.d then Except.error (Error.needDirFlag formattedPath)
    else Except.ok (isDir, objectName)
  match decided with
  | Except.error e => (some e, [])
  | Except.ok (isDir, objectName) =>
    if isDir then
      if flags.d ∨ flags.a then
        match rmCollectLoop (w.ListObjects session.BucketName objectName true) [] with
        | Except.error e => (some e, [])
        | Except.ok objectsToDelete =>
          if objectsToDelete.length = 0 then (none, [])
          else if flags.async then (none, [RmEvent.asyncStart objectsToDelete])
          else (none, rmDeleteSync env objectsToDelete)
      else (some (Error.needDirFlag formattedPath), [])
    else
      if !env.removeOk objectName then (some Error.removeFailed, [RmEvent.removeObject objectName])
      else (none, [RmEvent.removeObject objectName])

/-- `rmAction` on its arguments and flags. -/
def rmAction (w : World) (env : RmEnv) (m : SessionManager) (flags : RmFlags)
    (args : List GoString) : Option Error × List RmEvent :=
  if args.length < 1 then (some Error.missingArgument, [])
  else
    match m.GetClient w with
    | Except.error e => (some e, [])
    | Except.ok _ =>
      match m.CurrentSession with
      | Except.error e => (some e, [])
      | Except.ok session =>
        let remotePath := args.headD []
        match m.FormatPath remotePath with
        | Except.error e => (some e, [])
        | Except.ok formattedPath =>
          let objectName := strings.TrimPrefix formattedPath (ascii "/")
          if strings.Contains objectName wildcard.star then
            rmWildcard w env flags session objectName formattedPath
          else rmPlain w env flags session objectName formattedPath

/-- The keys on which an event list calls `RemoveObject`, in order. -/
def rmRemoved : List RmEvent → List GoString
  | [] => []
  | RmEvent.removeObject key :: rest => key :: rmRemoved rest
  | _ :: rest => rmRemoved rest

/-- Which matching keys `rm` keeps, in the words of the claim: with `-d` the
keys that end in `/`, with `-a` alone every key, with neither the keys that
do not end in `/`. -/
def rmKeeps (flags : RmFlags) (key : GoString) : Bool :=
  if flags.d then strings.HasSuffix key (ascii "/")
  else if flags.a then true
  else !strings.HasSuffix key (ascii "/")

/-! ## `commands.go`: the bounds of the directory download, the batches -/

/-- The download step of the worker of the directory download: what follows
the bounds check for an object of file path `filePath`. -/
def getWorkerDownload (env : GetEnv) (flags : GetFlags) (filePath : GoString)
    (obj : ObjectInfo) : List GetEvent :=
  if flags.resume ∧ env.fileExists filePath then
    match env.statSize filePath with
    | none => [GetEvent.logError filePath]
    | some size =>
      if size ≥ obj.Size then [GetEvent.alreadyComplete filePath]
      else if !env.openAppendOk filePath then [GetEvent.logError filePath]
      else if !env.getObjectOk obj.Key then
        [GetEvent.openAppend filePath, GetEvent.logError obj.Key]
      else if !env.copyOk filePath then
        [GetEvent.openAppend filePath, GetEvent.getRange obj.Key size (obj.Size - 1),
          GetEvent.copy filePath, GetEvent.logError filePath]
      else
        [GetEvent.openAppend filePath, GetEvent.getRange obj.Key size (obj.Size - 1),
          GetEvent.copy filePath]
  else
    if !env.createOk filePath then [GetEvent.logError filePath]
    else if !env.getObjectOk obj.Key then
      [GetEvent.create filePath, GetEvent.logError obj.Key]
    else if !env.copyOk filePath then
      [GetEvent.create filePath, GetEvent.getWhole obj.Key, GetEvent.copy filePath,
        GetEvent.logError filePath]
    else
      [GetEvent.create filePath, GetEvent.getWhole obj.Key, GetEvent.copy filePath]

/-- The bounds of the claim on a relative path: `start` is empty or
`r >= start`, and `end` is empty or `r < end`, under Go's string order. -/
def inBounds (flags : GetFlags) (r : GoString) : Prop :=
  (flags.start = [] ∨ strLess r flags.start = false) ∧
    (flags.stop = [] ∨ strLess r flags.stop = true)

/-- The directory branch of `getAction` over the items the listing sends: the
local root is made, then every item is handed to a worker, an error item being
logged instead. The jobs are laid out in the order they are sent. -/
def getDirectory (env : GetEnv) (flags : GetFlags) (localPath pfx : GoString)
    (objects : List ObjectInfo) : Option Error × List GetEvent :=
  if !env.mkdirAllOk localPath then (some Error.mkdirFailed, [GetEvent.mkdirAll localPath])
  else
    (none, GetEvent.mkdirAll localPath ::
      objects.flatMap (fun obj =>
        if obj.Err then [GetEvent.logError obj.Key]
        else getWorkerJob env flags localPath pfx obj))

/-- An entry as `filepath.Walk` presents it to its callback: the path, the
path relative to the root (`filepath.Rel`, which does not fail below the
root), what `Lstat` reports, whether the base name begins with a dot, and
whether `Walk` passes an error for it. -/
structure WalkEntry where
  path : GoString
  relPath : GoString
  info : FileInfo
  hidden : Bool
  err : Bool
  deriving DecidableEq, Repr

/-- What a walk callback returns: nil, `filepath.SkipDir`, or an error. -/
inductive WalkReturn where
  | next
  | skipDir
  | fail
  deriving DecidableEq, Repr

/-- The local files and the uploads, as the directory upload meets them. -/
structure PutEnv where
  /-- Whether `os.Open` succeeds. -/
  openOk : GoString → Bool
  /-- Whether `client.PutObject` succeeds for an object name. -/
  putObjectOk : GoString → Bool

/-- What the directory upload does that can be seen from outside. -/
inductive PutEvent where
  | openFile (path : GoString)
  | putObject (objectName : GoString) (size : Int)
  | logError (subject : GoString)
  deriving DecidableEq, Repr

/-- The callback `putAction` gives to `filepath.Walk`, with `all` the flag
`--all` and `objectName` the remote directory. -/
def putWalkFn (env : PutEnv) (all : Bool) (objectName : GoString) (entry : WalkEntry) :
    WalkReturn × List PutEvent :=
  if entry.err then (WalkReturn.fail, [])
  else if !all ∧ entry.hidden then
    if entry.info.IsDir then (WalkReturn.skipDir, []) else (WalkReturn.next, [])
  else if entry.info.IsDir then
    let dirObjectName :=
      if entry.relPath ≠ ascii "." then objectName ++ (entry.relPath ++ ascii "/")
      else objectName
    if !env.putObjectOk dirObjectName then
      (WalkReturn.next, [PutEvent.putObject dirObjectName 0, PutEvent.logError dirObjectName])
    else (WalkReturn.next, [PutEvent.putObject dirObjectName 0])
  else
    let fileObjectName := objectName ++ entry.relPath
    if !env.openOk entry.path then
      (WalkReturn.next, [PutEvent.openFile entry.path, PutEvent.logError entry.path])
    else if !env.putObjectOk fileObjectName then
      (WalkReturn.next,
        [PutEvent.openFile entry.path, PutEvent.putObject fileObjectName entry.info.Size,
          PutEvent.logError entry.path])
    else
      (WalkReturn.next,
        [PutEvent.openFile entry.path, PutEvent.putObject fileObjectName entry.info.Size])

/-- The function `filepath.Walk` over the entries of a tree in walking order,
with the directories skipped so far: the callback is called on each entry
that is not below a skipped directory, an error ends the walk, and `SkipDir`
adds the directory it was returned for to the skipped ones. -/
def putWalkFrom (env : PutEnv) (all : Bool) (objectName : GoString) :
    List GoString → List WalkEntry → Option Error × List PutEvent
  | _, [] => (none, [])
  | skipped, entry :: rest =>
    if skipped.any (fun d => strings.HasPrefix entry.path (d ++ ascii "/")) then
      putWalkFrom env all objectName skipped rest
    else
      match putWalkFn env all objectName entry with
      | (WalkReturn.fail, evs) => (some Error.walkFailed, evs)
      | (WalkReturn.skipDir, evs) =>
        let r := putWalkFrom env all objectName (entry.path :: skipped) rest
        (r.1, evs ++ r.2)
      | (WalkReturn.next, evs) =>
        let r := putWalkFrom env all objectName skipped rest
        (r.1, evs ++ r.2)

/-- The call `filepath.Walk(localPath, fn)` of `putAction`. -/
def putWalk (env : PutEnv) (all : Bool) (objectName : GoString) (entries : List WalkEntry) :
    Option Error × List PutEvent :=
  putWalkFrom env all objectName [] entries

/-- The directory branch of `putAction`: the remote directory is made to end
in `/` and created, then the local tree is walked. -/
def putDirectory (env : PutEnv) (all : Bool) (objectName : GoString)
    (entries : List WalkEntry) : Option Error × List PutEvent :=
  let objectName :=
    if !strings.HasSuffix objectName (ascii "/") then objectName ++ ascii "/" else objectName
  if !env.putObjectOk objectName then
    (some Error.putObjectFailed, [PutEvent.putObject objectName 0])
  else
    let r := putWalk env all objectName entries
    (r.1, PutEvent.putObject objectName 0 :: r.2)

/-- The first thing done for a walked entry: the marker put for a directory,
the opening of the file otherwise. -/
def putAttempt (objectName : GoString) (entry : WalkEntry) : PutEvent :=
  if entry.info.IsDir then
    PutEvent.putObject
      (if entry.relPath ≠ ascii "." then objectName ++ (entry.relPath ++ ascii "/")
       else objectName) 0
  else PutEvent.openFile entry.path

/-! ## `commands.go`: the worker pool of get, upload and sync -/

/-- The clamp of the flag `-w`, the same five lines in `getAction`,
`uploadAction` and `syncAction`: below one it is one, above ten it is ten. -/
def clampWorkers (workers : Int) : Int :=
  if workers < 1 then 1 else if workers > 10 then 10 else workers

/-- The indices `i` for which the loop `for i := 0; i < workers; i++` starts a
goroutine. -/
def workerIndices (workers : Int) : List Nat := List.range workers.toNat

/-- The number of goroutines started for a value of the flag `-w`. -/
def workersStarted (w : Int) : Nat := (workerIndices (clampWorkers w)).length

/-- A worker goroutine: blocked in `for job := range jobCh`, inside the loop
body with the job it received, or returned (its deferred `wg.Done()` ran). -/
inductive Worker (J : Type) where
  | waiting
  | busy (job : J)
  | done
  deriving DecidableEq, Repr

/-- Whether a worker has returned. -/
def Worker.isDone {J : Type} : Worker J → Bool
  | Worker.done => true
  | _ => false

/-- The pool at one moment. `pending` are the jobs the command has still to
send, `sent` the jobs it has sent, `processed` the jobs whose loop body has
ended, in that order; `closed` says `close(jobCh)` ran, `waited` that
`wg.Wait()` returned (the completion message follows it), `failed` that the
walk of `syncAction` returned an error and the command returned it, which it
does without closing the channel or waiting. -/
structure Pool (J : Type) where
  pending : List J
  sent : List J
  workers : List (Worker J)
  processed : List J
  closed : Bool
  waited : Bool
  failed : Bool
  deriving DecidableEq, Repr

/-- What can happen next in the pool. The channel is unbuffered
(`make(chan T)`), so a send and the receive of worker `i` are one step. -/
inductive PoolAction where
  | send (i : Nat)
  | finish (i : Nat)
  | close
  | exit (i : Nat)
  | wait
  | abort
  deriving DecidableEq, Repr

/-- The pool when the workers have been started and nothing is sent yet. -/
def poolStart {J : Type} (workers : Nat) (jobs : List J) : Pool J :=
  { pending := jobs, sent := [], workers := (List.range workers).map (fun _ => Worker.waiting),
    processed := [], closed := false, waited := false, failed := false }

/-- One step of the pool; `none` says the action cannot happen in this state.
* `send i`: `jobCh <- job` meets the receive of the waiting worker `i`;
* `finish i`: the loop body of worker `i` ends and it waits again;
* `close`: `close(jobCh)`, reached when every job is sent;
* `exit i`: the `range` of the waiting worker `i` ends on the closed channel;
* `wait`: `wg.Wait()` returns, every worker having returned;
* `abort`: the command returns the error of the walk (sync only). -/
def poolStep {J : Type} (s : Pool J) : PoolAction → Option (Pool J)
  | PoolAction.send i =>
    match s.pending, s.workers.get? i with
    | job :: rest, some Worker.waiting =>
      if s.closed ∨ s.failed then none
      else some { s with pending := rest, sent := s.sent ++ [job],
                         workers := s.workers.set i (Worker.busy job) }
    | _, _ => none
  | PoolAction.finish i =>
    match s.workers.get? i with
    | some (Worker.busy job) =>
      some { s with workers := s.workers.set i Worker.waiting,
                    processed := s.processed ++ [job] }
    | _ => none
  | PoolAction.close =>
    if s.pending.isEmpty ∧ ¬ s.closed ∧ ¬ s.failed then some { s with closed := true } else none
  | PoolAction.exit i =>
    match s.workers.get? i with
    | some Worker.waiting =>
      if s.closed then some { s with workers := s.workers.set i Worker.done } else none
    | _ => none
  | PoolAction.wait =>
    if s.closed ∧ ¬ s.waited ∧ s.workers.all Worker.isDone then
      some { s with waited := true }
    else none
  | PoolAction.abort =>
    if ¬ s.closed ∧ ¬ s.failed then some { s with failed := true } else none

/-- A run of the pool under a schedule; `none` says the schedule asks for a
step that cannot happen. -/
def poolRun {J : Type} (s : Pool J) : List PoolAction → Option (Pool J)
  | [] => some s
  | a :: rest =>
    match poolStep s a with
    | none => none
    | some s1 => poolRun s1 rest

/-- The jobs the workers hold: received and not yet done with. -/
def poolHeld {J : Type} : List (Worker J) → List J
  | [] => []
  | Worker.busy job :: rest => job :: poolHeld rest
  | _ :: rest => poolHeld rest

/-- The invariant of a pool of `n` workers serving `jobs`: a proof device.
The jobs sent and the jobs still to send make up `jobs`; the jobs sent are,
counted with multiplicity, the jobs held and the jobs processed; the channel
is closed only when nothing is left to send and the command has not failed; a
worker returns only on the closed channel; the wait returns only when the
channel is closed and every worker has returned. -/
def poolInv {J : Type} (n : Nat) (jobs : List J) (s : Pool J) : Prop :=
  s.sent ++ s.pending = jobs ∧
  List.Perm s.sent (poolHeld s.workers ++ s.processed) ∧
  s.workers.length = n ∧
  (s.closed = true → s.pending = [] ∧ s.failed = false) ∧
  (∀ w ∈ s.workers, w = Worker.done → s.closed = true) ∧
  (s.waited = true → s.closed = true ∧ ∀ w ∈ s.workers, w = Worker.done)

/-- The number of workers that have not returned. -/
def poolLive {J : Type} : List (Worker J) → Nat
  | [] => 0
  | Worker.done :: rest => poolLive rest
  | _ :: rest => poolLive rest + 1

/-- A bound on the number of steps a pool can still take: a proof device. -/
def poolMeasure {J : Type} (s : Pool J) : Nat :=
  2 * s.pending.length + (poolHeld s.workers).length + poolLive s.workers +
    (if s.closed then 0 else 1) + (if s.waited then 0 else 1) + (if s.failed then 0 else 1)

/-! ## `progress.go` -/

/-- A `float64` as far as `Draw` computes with it: not a number, an infinity
with its sign, or a finite value, given as the rational it stands for. Zero
is the positive zero, which is what the conversion of an integer gives. -/
inductive F64 where
  | nan
  | inf (negative : Bool)
  | fin (q : ℚ)
  deriving DecidableEq

/-- The integer nearest to a rational, the even one of the two when it lies
half-way. -/
def roundHalfEven (x : ℚ) : Int :=
  let f := ⌊x⌋
  let r := x - f
  if r < 1 / 2 then f else if 1 / 2 < r then f + 1 else if f % 2 = 0 then f else f + 1

/-- The `float64` nearest to a positive rational `a`, overflow apart: with
`e` the binary exponent of `a` (not below -1022, where the format becomes
evenly spaced), the multiple of `2 ^ (e - 52)` nearest to `a`, ties to
even: 53 significant bits. -/
def F64.roundAbs (a : ℚ) : ℚ :=
  let e := max (Int.log 2 a) (-1022)
  let ulp : ℚ := 2 ^ (e - 52)
  (roundHalfEven (a / ulp) : ℚ) * ulp

/-- The rounding every `float64` operation applies to its exact result: to
the nearest value of the format, ties to even, and to an infinity from
`2 ^ 1024` on. -/
def F64.round (q : ℚ) : F64 :=
  if q = 0 then F64.fin 0
  else
    let v := F64.roundAbs |q|
    if (2 : ℚ) ^ (1024 : ℤ) ≤ v then F64.inf (decide (q < 0))
    else F64.fin (if q < 0 then -v else v)

/-- The conversion `float64(n)`. -/
def F64.ofInt (n : Int) : F64 := F64.round n

/-- The quotient `a / b` of two `float64`: a division by zero does not fail,
it gives an infinity, and zero by zero gives not-a-number. -/
def F64.div : F64 → F64 → F64
  | F64.nan, _ => F64.nan
  | _, F64.nan => F64.nan
  | F64.inf _, F64.inf _ => F64.nan
  | F64.inf s, F64.fin b => F64.inf (xor s (decide (b < 0)))
  | F64.fin _, F64.inf _ => F64.fin 0
  | F64.fin a, F64.fin b =>
    if b = 0 then (if a = 0 then F64.nan else F64.inf (decide (a < 0))) else F64.round (a / b)

/-- The product `a * b` of two `float64`. -/
def F64.mul : F64 → F64 → F64
  | F64.nan, _ => F64.nan
  | _, F64.nan => F64.nan
  | F64.inf s, F64.inf t => F64.inf (xor s t)
  | F64.inf s, F64.fin b => if b = 0 then F64.nan else F64.inf (xor s (decide (b < 0)))
  | F64.fin a, F64.inf t => if a = 0 then F64.nan else F64.inf (xor (decide (a < 0)) t)
  | F64.fin a, F64.fin b => F64.round (a * b)

/-- The comparison `a > b` of two `float64`: false when either is not a number. -/
def F64.gt : F64 → F64 → Bool
  | F64.nan, _ => false
  | _, F64.nan => false
  | F64.inf s, F64.inf t => !s && t
  | F64.inf s, F64.fin _ => !s
  | F64.fin _, F64.inf t => t
  | F64.fin a, F64.fin b => decide (b < a)

/-- The conversion `int(f)`: the value cut toward zero. For a value that does
not fit, an infinity or not-a-number, Go leaves the result to the
implementation: it is `other`. -/
def F64.toInt (other : Int) : F64 → Int
  | F64.fin q =>
    let t := if 0 ≤ q then ⌊q⌋ else ⌈q⌉
    if -2 ^ 63 ≤ t ∧ t < 2 ^ 63 then t else other
  | _ => other

/-- The unit round-off of `float64`, `2 ^ (-53)`: a proof device. -/
def F64.unitRoundoff : ℚ := 1 / 2 ^ 53

/-- The fields of `ProgressBar` that decide the bar and the percentage
(`FileName` and `StartTime` only label the line and time the speed). -/
structure ProgressBar where
  Total : Int
  Current : Int
  Width : Int
  deriving DecidableEq, Repr

/-- A cell of the drawn bar: `=`, `>` or a blank. -/
inductive BarCell where
  | full
  | head
  | blank
  deriving DecidableEq, Repr

/-- What `Draw` prints of the bar and the percentage. -/
structure Drawn where
  bar : List BarCell
  percent : F64
  deriving DecidableEq

/-- `ProgressBar.Draw`: the percentage `float64(current) / float64(p.Total) *
100`, set to 100 when the comparison `percent > 100` holds, and the cells of
the loop `for i := 0; i < p.Width; i++`, of which the first
`int(float64(p.Width) * (float64(current) / float64(p.Total)))` are full.
The speed and the remaining time, which depend on the clock, are left out. -/
def ProgressBar.Draw (other : Int) (p : ProgressBar) : Drawn :=
  let current := p.Current
  let percent := F64.mul (F64.div (F64.ofInt current) (F64.ofInt p.Total)) (F64.fin 100)
  let percent := if F64.gt percent (F64.fin 100) then F64.fin 100 else percent
  let completed :=
    F64.toInt other (F64.mul (F64.ofInt p.Width) (F64.div (F64.ofInt current) (F64.ofInt p.Total)))
  let bar := (List.range p.Width.toNat).map (fun (i : Nat) =>
    if (i : Int) < completed then BarCell.full
    else if (i : Int) = completed then BarCell.head
    else BarCell.blank)
  ⟨bar, percent⟩

/-- `ProgressBar.Update(n)`: the counter is advanced by `n`, then the bar is
drawn. -/
def ProgressBar.Update (other : Int) (p : ProgressBar) (n : Int) : ProgressBar × Drawn :=
  let p1 : ProgressBar := { p with Current := p.Current + n }
  (p1, p1.Draw other)

/-- `ProgressReader.Read` as far as the bar goes, `n` being the number of
bytes the wrapped reader returned: the bar is advanced and drawn only
`if n > 0`. This is the one call of `Update`, and `Update` holds the one
call of `Draw`. -/
def ProgressReader.Read (other : Int) (p : ProgressBar) (n : Int) :
    ProgressBar × Option Drawn :=
  if n > 0 then ((p.Update other n).1, some (p.Update other n).2) else (p, none)

/-! ## `commands.go`: what ls prints -/

/-- A line `lsAction` prints: a directory name, or a file with its time and
size. -/
inductive LsLine where
  | dir (name : GoString)
  | file (object : ObjectInfo)
  deriving DecidableEq, Repr

/-- The items one of the two printing loops of `lsAction` prints, `count`
lines being printed already: the loop breaks when a positive `limit` is
reached. -/
def lsTake {α : Type} (limit : Int) : Int → List α → List α
  | _, [] => []
  | count, x :: rest =>
    if limit > 0 ∧ count ≥ limit then [] else x :: lsTake limit (count + 1) rest

/-- The output part of `lsAction`, with `d` the flag `-d`, `limit` the flag
`-c`, and `files` the slice as `sort.Slice` has left it. -/
def lsOutput (d : Bool) (limit : Int) (directories : List GoString) (files : List ObjectInfo) :
    List LsLine :=
  let count : Int := 0
  let dirs := if !d ∨ files.length = 0 then lsTake limit count directories else []
  let count := count + dirs.length
  let shown := if !d then lsTake limit count files else []
  dirs.map LsLine.dir ++ shown.map LsLine.file

/-- `lsAction` on its arguments and flags: the lines it prints, or the error.
`sortSlice r files` is the order in which `sort.Slice` leaves the files (by
time, newest first under `-r`); the sort is not stable, so the order among
equal times is the library's. -/
def lsAction (w : World) (sortSlice : Bool → List ObjectInfo → List ObjectInfo)
    (m : SessionManager) (d r : Bool) (limit : Int) (args : List GoString) :
    Except Error (List LsLine) :=
  match m.GetClient w with
  | Except.error e => Except.error e
  | Except.ok _ =>
    match m.CurrentSession with
    | Except.error e => Except.error e
    | Except.ok session =>
      let remotePathArg := if args.length > 0 then args.headD [] else []
      match m.FormatPath remotePathArg with
      | Except.error e => Except.error e
      | Except.ok remotePath =>
        let pfx := dirPrefix remotePath
        match lsCollect pfx (w.ListObjects session.BucketName pfx false) with
        | Except.error e => Except.error e
        | Except.ok st => Except.ok (lsOutput d limit st.directories (sortSlice r st.files))

/-! ## `commands.go`: auth -/

/-- The string `authAction` prints for its four arguments: the endpoint is
given the scheme `https://` unless it has one, and the four are joined by
`:`. -/
def authString (endpoint accessKey secretKey bucketName : GoString) : GoString :=
  let endpoint :=
    if !strings.HasPrefix endpoint (ascii "http://") ∧
        !strings.HasPrefix endpoint (ascii "https://") then
      ascii "https://" ++ endpoint
    else endpoint
  endpoint ++ ascii ":" ++ accessKey ++ ascii ":" ++ secretKey ++ ascii ":" ++ bucketName

/-- `authAction` on its arguments: the printed string, or the error. An
argument that is not given reads as the empty string (`Args().Get`). -/
def authAction (args : List GoString) : Except Error GoString :=
  if args.length < 3 then Except.error Error.missingArgument
  else
    Except.ok (authString (args.getD 0 []) (args.getD 1 []) (args.getD 2 []) (args.getD 3 []))

/-! ## `commands.go`: the walk of sync -/

/-- The callback `syncAction` gives to `filepath.Walk`: what it returns and
the relative paths it sends on the job channel. -/
def syncWalkFn (entry : WalkEntry) : WalkReturn × List GoString :=
  if entry.err then (WalkReturn.fail, [])
  else if entry.hidden then
    if entry.info.IsDir then (WalkReturn.skipDir, []) else (WalkReturn.next, [])
  else if !entry.info.IsDir then (WalkReturn.next, [entry.relPath])
  else (WalkReturn.next, [])

/-- The function `filepath.Walk` with the callback of `syncAction`, over the
entries of a tree in walking order (the root first), with the directories
skipped so far: the error it returns and the relative paths sent. -/
def syncWalkFrom : List GoString → List WalkEntry → Option Error × List GoString
  | _, [] => (none, [])
  | skipped, entry :: rest =>
    if skipped.any (fun d => strings.HasPrefix entry.path (d ++ ascii "/")) then
      syncWalkFrom skipped rest
    else
      match syncWalkFn entry with
      | (WalkReturn.fail, jobs) => (some Error.walkFailed, jobs)
      | (WalkReturn.skipDir, jobs) =>
        let r := syncWalkFrom (entry.path :: skipped) rest
        (r.1, jobs ++ r.2)
      | (WalkReturn.next, jobs) =>
        let r := syncWalkFrom skipped rest
        (r.1, jobs ++ r.2)

/-- The call `filepath.Walk(localPath, fn)` of `syncAction`. -/
def syncWalk (entries : List WalkEntry) : Option Error × List GoString :=
  syncWalkFrom [] entries

/-- `syncAction` from the walk on: the jobs the walk sends are served by the
workers (each job once, here in the order sent), an error of the walk is
returned, and otherwise the delete pass follows with the relative paths the
workers have marked. `order` is the order in which the delete pass visits the
remote map. -/
def syncTransfer (env : SyncEnv) (deleteFlag : Bool) (localPath objectPrefix : GoString)
    (remoteFiles : RemoteFiles) (order : List GoString) (entries : List WalkEntry) :
    Option Error × List SyncEvent :=
  match syncWalk entries with
  | (some e, jobs) =>
    (some e, jobs.flatMap (syncWorkerJob env localPath objectPrefix remoteFiles))
  | (none, jobs) =>
    let events := jobs.flatMap (syncWorkerJob env localPath objectPrefix remoteFiles)
    let processedFiles := fun relPath => decide (SyncEvent.markProcessed relPath ∈ events)
    (none, events ++ syncDeletePass env deleteFlag remoteFiles order processedFiles)

/-- The keys an event list of `rm` has `RemoveObject` called on, now or in
the background goroutine of `--async`. -/
def rmTargets : List RmEvent → List GoString
  | [] => []
  | RmEvent.removeObject key :: rest => key :: rmTargets rest
  | RmEvent.asyncStart keys :: rest => keys ++ rmTargets rest
  | RmEvent.logError _ :: rest => rmTargets rest

/-! ## Concrete sessions and buckets for the witnesses -/

/-- A session of the bucket `b` at `https://h`, standing at `cur`. -/
def exampleSession (cur : GoString) : Session :=
  ⟨ascii "https://h", ascii "k", ascii "s", ascii "b", cur⟩

/-- A manager whose only session, named `n`, is current and stands at `cur`. -/
def exampleManager (cur : GoString) : SessionManager :=
  ⟨fun k => if k = ascii "n" then some (exampleSession cur) else none, ascii "n", false⟩

/-- A backend holding exactly `keys` (every write and client creation
succeeds): a listing sends the keys that begin with the requested prefix. -/
def exampleWorld (keys : List GoString) : World :=
  ⟨fun _ => true, fun _ => true, fun _ => some true,
   fun _ pfx _ => (keys.filter (fun k => strings.HasPrefix k pfx)).map (fun k => ⟨k, 0, 0, false⟩)⟩

/-- An object of the given key, without error. -/
def exampleObject (key : GoString) : ObjectInfo := ⟨key, 1, 0, false⟩

/-- A local file system on which every operation succeeds and no file exists yet. -/
def exampleGetEnv : GetEnv :=
  ⟨fun a b => a ++ ascii "/" ++ b, fun p => p, fun _ => true, fun _ => false, fun _ => none,
   fun _ => true, fun _ => true, fun _ => true, fun _ => true⟩

/-- A listing under `a/`: two files, one of them a level down, a second object
in the same sub-directory, and the marker of `a/` itself. -/
def exampleListing : List ObjectInfo :=
  [exampleObject (ascii "a/b.txt"), exampleObject (ascii "a/c/d.txt"),
   exampleObject (ascii "a/c/e"), exampleObject (ascii "a/")]

/-- The tree map `treeAction` builds from the keys `a/b.txt` and `a/c/d.txt`. -/
def exampleTree : Tree :=
  match treeBuild [] [exampleObject (ascii "a/b.txt"), exampleObject (ascii "a/c/d.txt")] with
  | Except.ok tree => tree
  | Except.error _ => fun _ => none

/-- A local file system on which every operation succeeds and every file
asked for exists with `size` bytes. -/
def examplePartialEnv (size : Int) : GetEnv :=
  ⟨fun a b => a ++ ascii "/" ++ b, fun p => p, fun _ => true, fun _ => true, fun _ => some size,
   fun _ => true, fun _ => true, fun _ => true, fun _ => true⟩

/-- An object of the given key and size, without error. -/
def exampleSized (key : GoString) (size : Int) : ObjectInfo := ⟨key, size, 0, false⟩

/-- A sync worker's surroundings: every local path is a file of `size` bytes
modified at `modTime`, and every operation succeeds. -/
def exampleSyncEnv (size modTime : Int) : SyncEnv :=
  ⟨fun a b => a ++ ascii "/" ++ b, fun _ => some ⟨false, size, modTime⟩, fun _ => true,
   fun _ => true, fun _ => true⟩

/-- A remote map with the one entry `f`, of `size` bytes, last modified at
`lastModified`. -/
def exampleRemote (size lastModified : Int) : RemoteFiles :=
  fun k => if k = ascii "f" then some ⟨ascii "a/f", size, lastModified, false⟩ else none

/-- A listing under `a/`: the files `a/f` and `a/g` and the marker `a/d/`. -/
def exampleRemoteListing : List ObjectInfo :=
  [exampleObject (ascii "a/f"), exampleObject (ascii "a/g"), exampleObject (ascii "a/d/")]

/-- A bucket holding the object `a` with content `xyz`, and `b` with `old`. -/
def exampleStore : Store :=
  fun k => if k = ascii "a" then some (ascii "xyz")
    else if k = ascii "b" then some (ascii "old") else none

/-- No call of the backend fails without cause. -/
def noFaults : StoreFaults := ⟨fun _ => false, false, false⟩

/-- A backend for `rm` on which every call succeeds. -/
def exampleRmEnv : RmEnv := ⟨fun _ => true, fun _ => true⟩

/-- A backend for `rm` on which every removal fails. -/
def failingRmEnv : RmEnv := ⟨fun _ => true, fun _ => false⟩

/-- A local file system on which directories can be made and nothing else
succeeds: no file can be created and no object read. -/
def failingGetEnv : GetEnv :=
  ⟨fun a b => a ++ ascii "/" ++ b, fun p => p, fun _ => true, fun _ => false, fun _ => none,
   fun _ => false, fun _ => false, fun _ => false, fun _ => false⟩

/-- An upload on which only the creation of the remote root `r/` succeeds: no
file opens and no other object can be put. -/
def failingPutEnv : PutEnv := ⟨fun _ => false, fun name => decide (name = ascii "r/")⟩

/-- The walk of a local directory `loc` holding the file `x`, the directory
`s` and the file `s/y`. -/
def exampleWalk : List WalkEntry :=
  [⟨ascii "loc", ascii ".", ⟨true, 0, 0⟩, false, false⟩,
   ⟨ascii "loc/s", ascii "s", ⟨true, 0, 0⟩, false, false⟩,
   ⟨ascii "loc/s/y", ascii "s/y", ⟨false, 3, 0⟩, false, false⟩,
   ⟨ascii "loc/x", ascii "x", ⟨false, 5, 0⟩, false, false⟩]

/-- A walk in which `filepath.Walk` reports an error for the directory `s`
(it cannot be read), between the root and the file `x`. -/
def brokenWalk : List WalkEntry :=
  [⟨ascii "loc", ascii ".", ⟨true, 0, 0⟩, false, false⟩,
   ⟨ascii "loc/s", ascii "s", ⟨true, 0, 0⟩, false, true⟩,
   ⟨ascii "loc/x", ascii "x", ⟨false, 5, 0⟩, false, false⟩]

/-- The walk of a local directory `/w/.cfg`, whose own name begins with a
dot, holding the file `a.txt`. -/
def dotRootWalk : List WalkEntry :=
  [⟨ascii "/w/.cfg", ascii ".", ⟨true, 0, 0⟩, true, false⟩,
   ⟨ascii "/w/.cfg/a.txt", ascii "a.txt", ⟨false, 1, 0⟩, false, false⟩]

/-- The walk of a local directory `/w/cfg` holding the file `a.txt`. -/
def plainRootWalk : List WalkEntry :=
  [⟨ascii "/w/cfg", ascii ".", ⟨true, 0, 0⟩, false, false⟩,
   ⟨ascii "/w/cfg/a.txt", ascii "a.txt", ⟨false, 1, 0⟩, false, false⟩]

/-- The remote map of a listing under `r/` that holds the file `r/a.txt`, of
one byte and last modified at time 0. -/
def dotRootRemote : RemoteFiles :=
  fun k => if k = ascii "a.txt" then some ⟨ascii "r/a.txt", 1, 0, false⟩ else none

/-- The tree map `treeAction` builds from the single key `/x`, whose path
begins with the separator. -/
def slashTree : Tree :=
  match treeBuild [] [exampleObject (ascii "/x")] with
  | Except.ok tree => tree
  | Except.error _ => fun _ => none

/-- A backend for `rm` on which `StatObject` finds no object and every
removal succeeds. -/
def failingStatEnv : RmEnv := ⟨fun _ => false, fun _ => true⟩

/-- The only fault: `StatObject` on the key `b` returns an error. -/
def statFaultOnB : StoreFaults := ⟨fun k => decide (k = ascii "b"), false, false⟩

/-- The only fault: `RemoveObject` returns an error. -/
def removeFault : StoreFaults := ⟨fun _ => false, false, true⟩

/-- An upload on which every file opens and every object can be put. -/
def workingPutEnv : PutEnv := ⟨fun _ => true, fun _ => true⟩

/-- The walk of a local directory `/w/cfg` holding the file `a.txt` and,
after it in walking order, the directory `s`, for which `filepath.Walk`
reports an error (it cannot be read). -/
def brokenSyncWalk : List WalkEntry :=
  [⟨ascii "/w/cfg", ascii ".", ⟨true, 0, 0⟩, false, false⟩,
   ⟨ascii "/w/cfg/a.txt", ascii "a.txt", ⟨false, 1, 0⟩, false, false⟩,
   ⟨ascii "/w/cfg/s", ascii "s", ⟨true, 0, 0⟩, false, true⟩]

/-! ## Wildcard matching -/

namespace wildcard

theorem globMatches_append (p q : GoString) :
    ∀ t, GlobMatches (p ++ q) t ↔ ∃ t1 t2, t = t1 ++ t2 ∧ GlobMatches p t1 ∧ GlobMatches q t2 := by
  induction p with
  | nil =>
    intro t
    constructor
    · intro h; exact ⟨[], t, rfl, rfl, h⟩
    · rintro ⟨t1, t2, rfl, h1, h2⟩
      simp only [GlobMatches] at h1
      subst h1; simpa using h2
  | cons c p ih =>
    intro t
    simp only [List.cons_append, GlobMatches]
    by_cases hs : c = star
    · simp only [hs, if_true]
      constructor
      · rintro ⟨s, r, rfl, h⟩
        obtain ⟨t1, t2, rfl, h1, h2⟩ := (ih r).1 h
        exact ⟨s ++ t1, t2, by simp, ⟨s, t1, rfl, h1⟩, h2⟩
      · rintro ⟨t1, t2, rfl, ⟨s, r, rfl, h1⟩, h2⟩
        exact ⟨s, r ++ t2, by simp, (ih _).2 ⟨r, t2, rfl, h1, h2⟩⟩
    · by_cases hq : c = qmark
      · simp only [hs, hq, if_true, if_false]
        constructor
        · rintro ⟨b, r, rfl, h⟩
          obtain ⟨t1, t2, rfl, h1, h2⟩ := (ih r).1 h
          exact ⟨b :: t1, t2, by simp, ⟨b, t1, rfl, h1⟩, h2⟩
        · rintro ⟨t1, t2, rfl, ⟨b, r, rfl, h1⟩, h2⟩
          exact ⟨b, r ++ t2, by simp, (ih _).2 ⟨r, t2, rfl, h1, h2⟩⟩
      · simp only [hs, hq, if_false]
        constructor
        · rintro ⟨r, rfl, h⟩
          obtain ⟨t1, t2, rfl, h1, h2⟩ := (ih r).1 h
          exact ⟨c :: t1, t2, by simp, ⟨t1, rfl, h1⟩, h2⟩
        · rintro ⟨t1, t2, rfl, ⟨r, rfl, h1⟩, h2⟩
          exact ⟨r ++ t2, by simp, (ih _).2 ⟨r, t2, rfl, h1, h2⟩⟩

theorem globMatches_single (c : Nat) (t : GoString) :
    GlobMatches [c] t ↔
      if c = star then True else if c = qmark then ∃ b, t = [b] else t = [c] := by
  simp only [GlobMatches]
  by_cases hs : c = star
  · simp only [hs, if_true, iff_true]
    exact ⟨t, [], by simp, rfl⟩
  · by_cases hq : c = qmark
    · simp only [hs, hq, if_true, if_false]
      constructor
      · rintro ⟨b, r, rfl, rfl⟩; exact ⟨b, rfl⟩
      · rintro ⟨b, rfl⟩; exact ⟨b, [], rfl, rfl⟩
    · simp only [hs, hq, if_false]
      constructor
      · rintro ⟨r, rfl, rfl⟩; rfl
      · rintro rfl; exact ⟨[], rfl, rfl⟩

theorem globMatches_snoc (p : GoString) (c : Nat) (t : GoString) :
    GlobMatches (p ++ [c]) t ↔
      if c = star then ∃ t1 t2, t = t1 ++ t2 ∧ GlobMatches p t1
      else if c = qmark then ∃ t1 b, t = t1 ++ [b] ∧ GlobMatches p t1
      else ∃ t1, t = t1 ++ [c] ∧ GlobMatches p t1 := by
  rw [globMatches_append]
  simp only [globMatches_single]
  by_cases hs : c = star
  · simp only [hs, if_true, and_true]
  · by_cases hq : c = qmark
    · simp only [hs, hq, if_true, if_false]
      constructor
      · rintro ⟨t1, t2, rfl, h1, b, rfl⟩; exact ⟨t1, b, rfl, h1⟩
      · rintro ⟨t1, b, rfl, h1⟩; exact ⟨t1, [b], rfl, h1, b, rfl⟩
    · simp only [hs, hq, if_false]
      constructor
      · rintro ⟨t1, t2, rfl, h1, rfl⟩; exact ⟨t1, rfl, h1⟩
      · rintro ⟨t1, rfl, h1⟩; exact ⟨t1, [c], rfl, h1, rfl⟩

theorem take_succ_getD (l : GoString) (n : Nat) (h : n < l.length) :
    l.take (n + 1) = l.take n ++ [l.getD n 0] := by
  rw [List.take_succ, List.getD_eq_getElem?_getD, List.getElem?_eq_getElem h]
  rfl

theorem qmark_ne_star : qmark ≠ star := by decide

theorem cellSpec_iff (pattern text : GoString) :
    ∀ i, i ≤ text.length → ∀ j, j ≤ pattern.length →
      (cellSpec pattern text i j = true ↔ GlobMatches (pattern.take j) (text.take i)) := by
  intro i
  induction i with
  | zero =>
    intro _ j
    induction j with
    | zero => intro _; simp [cellSpec, GlobMatches]
    | succ j ih =>
      intro hj
      rw [cellSpec, take_succ_getD pattern j hj, globMatches_snoc]
      have ih := ih (Nat.le_of_succ_le hj)
      rw [List.take_zero] at ih ⊢
      generalize pattern.getD j 0 = c at *
      by_cases hs : c = star
      · simp only [hs, if_true]
        rw [ih]
        constructor
        · intro h; exact ⟨[], [], rfl, h⟩
        · rintro ⟨t1, t2, h, h1⟩
          have : t1 = [] := by
            cases t1 with
            | nil => rfl
            | cons a l => simp at h
          subst this; exact h1
      · by_cases hq : c = qmark
        · subst hq
          simp [qmark_ne_star]
        · simp [hs, hq]
  | succ i ihi =>
    intro hi j
    have hi0 : i ≤ text.length := Nat.le_of_succ_le hi
    induction j with
    | zero =>
      intro _
      rw [cellSpec, take_succ_getD text i hi]
      simp [GlobMatches]
    | succ j ih =>
      intro hj
      have hj0 : j ≤ pattern.length := Nat.le_of_succ_le hj
      have ih := ih hj0
      have h1 := ihi hi0 (j + 1) hj
      have h2 := ihi hi0 j hj0
      rw [take_succ_getD pattern j hj] at h1 ⊢
      rw [take_succ_getD text i hi] at ih ⊢
      rw [cellSpec, globMatches_snoc]
      rw [globMatches_snoc] at h1
      generalize pattern.getD j 0 = c at *
      generalize text.getD i 0 = x at *
      by_cases hs : c = star
      · simp only [hs, if_true, Bool.or_eq_true] at h1 ⊢
        rw [ih, h1]
        constructor
        · rintro (h | ⟨t1, t2, h, hg⟩)
          · exact ⟨_, [], (List.append_nil _).symm, h⟩
          · exact ⟨t1, t2 ++ [x], by rw [h, List.append_assoc], hg⟩
        · rintro ⟨t1, t2, h, hg⟩
          rcases List.eq_nil_or_concat t2 with rfl | ⟨t2', y, rfl⟩
          · left
            rw [List.append_nil] at h
            rw [h]; exact hg
          · right
            rw [List.concat_eq_append, ← List.append_assoc] at h
            have := List.append_inj_left' h (by simp)
            exact ⟨t1, t2', this, hg⟩
      · by_cases hq : c = qmark
        · subst hq
          simp only [qmark_ne_star, if_true, if_false, true_or]
          rw [h2]
          constructor
          · intro h; exact ⟨_, _, rfl, h⟩
          · rintro ⟨t1, b, h, hg⟩
            have := List.append_inj_left' h (by simp)
            rw [this]; exact hg
        · simp only [hs, hq, if_false, false_or]
          by_cases hx : c = x
          · simp only [hx, if_true]
            rw [h2]
            constructor
            · intro h; exact ⟨_, rfl, h⟩
            · rintro ⟨t1, h, hg⟩
              have := List.append_inj_left' h (by simp)
              rw [this]; exact hg
          · simp only [hx, if_false]
            constructor
            · intro h; cases h
            · rintro ⟨t1, h, hg⟩
              have := List.append_inj_right' h (by simp)
              exact absurd (List.singleton_inj.1 this).symm hx

theorem forLoop_of_lt {σ : Type} (lo hi : Nat) (body : Nat → σ → σ) (s : σ) (h : hi < lo) :
    forLoop lo hi body s = s := by
  unfold forLoop
  have : hi + 1 - lo = 0 := by omega
  rw [this]; rfl

theorem forLoop_succ {σ : Type} (lo hi : Nat) (body : Nat → σ → σ) (s : σ) (h : lo ≤ hi + 1) :
    forLoop lo (hi + 1) body s = body (hi + 1) (forLoop lo hi body s) := by
  unfold forLoop
  have h1 : hi + 1 + 1 - lo = (hi + 1 - lo) + 1 := by omega
  have h2 : lo + (hi + 1 - lo) = hi + 1 := by omega
  rw [h1, List.range'_1_concat, List.foldl_append, h2]
  rfl

theorem filled_init (pattern text : GoString) (m : Nat) :
    Table.set Table.make 0 0 true = filled pattern text m 0 0 := by
  funext a b
  simp only [Table.set, Table.make, filled]
  by_cases h : a = 0 ∧ b = 0
  · obtain ⟨rfl, rfl⟩ := h
    simp [cellSpec]
  · rw [if_neg h, if_neg]
    omega

theorem filled_set (pattern text : GoString) (m i j : Nat) (hj : j + 1 ≤ m) :
    Table.set (filled pattern text m i j) i (j + 1) (cellSpec pattern text i (j + 1)) =
      filled pattern text m i (j + 1) := by
  funext a b
  simp only [Table.set, filled]
  by_cases h : a = i ∧ b = j + 1
  · obtain ⟨rfl, rfl⟩ := h
    simp [hj]
  · rw [if_neg h]
    have : (b ≤ m ∧ (a < i ∨ a = i ∧ b ≤ j)) ↔ (b ≤ m ∧ (a < i ∨ a = i ∧ b ≤ j + 1)) := by
      constructor
      · rintro ⟨h1, h2⟩; exact ⟨h1, by omega⟩
      · rintro ⟨h1, h2⟩; exact ⟨h1, by omega⟩
    simp only [this]

theorem filled_skip (pattern text : GoString) (m i j : Nat)
    (hv : cellSpec pattern text i (j + 1) = false) :
    filled pattern text m i j = filled pattern text m i (j + 1) := by
  funext a b
  simp only [filled]
  by_cases h : a = i ∧ b = j + 1
  · obtain ⟨rfl, rfl⟩ := h
    simp [hv]
  · have : (b ≤ m ∧ (a < i ∨ a = i ∧ b ≤ j)) ↔ (b ≤ m ∧ (a < i ∨ a = i ∧ b ≤ j + 1)) := by
      constructor
      · rintro ⟨h1, h2⟩; exact ⟨h1, by omega⟩
      · rintro ⟨h1, h2⟩; exact ⟨h1, by omega⟩
    simp only [this]

theorem filled_next_row (pattern text : GoString) (m i : Nat) :
    filled pattern text m i m = filled pattern text m (i + 1) 0 := by
  funext a b
  simp only [filled]
  by_cases h : a = i + 1 ∧ b = 0
  · obtain ⟨rfl, rfl⟩ := h
    simp [cellSpec]
  · have : (b ≤ m ∧ (a < i ∨ a = i ∧ b ≤ m)) ↔ (b ≤ m ∧ (a < i + 1 ∨ a = i + 1 ∧ b ≤ 0)) := by
      constructor
      · rintro ⟨h1, h2⟩; exact ⟨h1, by omega⟩
      · rintro ⟨h1, h2⟩; exact ⟨h1, by omega⟩
    simp only [this]

theorem filled_apply (pattern text : GoString) (m i j a b : Nat) (hb : b ≤ m)
    (h : a < i ∨ (a = i ∧ b ≤ j)) :
    filled pattern text m i j a b = cellSpec pattern text a b := by
  simp only [filled]
  rw [if_pos ⟨hb, h⟩]

end wildcard

namespace wildcard

theorem row0_loop (pattern text : GoString) (m : Nat) :
    ∀ j, j ≤ m →
      forLoop 1 j (fun j dp =>
        if pattern.getD (j - 1) 0 = star then Table.set dp 0 j (dp 0 (j - 1)) else dp)
        (filled pattern text m 0 0) = filled pattern text m 0 j := by
  intro j
  induction j with
  | zero => intro _; exact forLoop_of_lt _ _ _ _ (by omega)
  | succ j ih =>
    intro hj
    rw [forLoop_succ _ _ _ _ (by omega), ih (by omega)]
    simp only [Nat.add_sub_cancel]
    have hc : cellSpec pattern text 0 (j + 1) =
        if pattern.getD j 0 = star then cellSpec pattern text 0 j else false := by
      rw [cellSpec]
    by_cases hs : pattern.getD j 0 = star
    · rw [if_pos hs, filled_apply pattern text m 0 j 0 j (by omega) (Or.inr ⟨rfl, le_refl _⟩)]
      rw [if_pos hs] at hc
      rw [← hc]
      exact filled_set pattern text m 0 j hj
    · rw [if_neg hs]
      rw [if_neg hs] at hc
      exact filled_skip pattern text m 0 j hc

theorem inner_loop (pattern text : GoString) (m i : Nat) :
    ∀ j, j ≤ m →
      forLoop 1 j (fun j dp =>
        if pattern.getD (j - 1) 0 = star then
          Table.set dp (i + 1) j (dp (i + 1) (j - 1) || dp (i + 1 - 1) j)
        else if pattern.getD (j - 1) 0 = qmark ∨
            pattern.getD (j - 1) 0 = text.getD (i + 1 - 1) 0 then
          Table.set dp (i + 1) j (dp (i + 1 - 1) (j - 1))
        else dp)
        (filled pattern text m (i + 1) 0) = filled pattern text m (i + 1) j := by
  intro j
  induction j with
  | zero => intro _; exact forLoop_of_lt _ _ _ _ (by omega)
  | succ j ih =>
    intro hj
    rw [forLoop_succ _ _ _ _ (by omega), ih (by omega)]
    simp only [Nat.add_sub_cancel]
    have hc : cellSpec pattern text (i + 1) (j + 1) =
        if pattern.getD j 0 = star then
          cellSpec pattern text (i + 1) j || cellSpec pattern text i (j + 1)
        else if pattern.getD j 0 = qmark ∨ pattern.getD j 0 = text.getD i 0 then
          cellSpec pattern text i j
        else false := by
      rw [cellSpec]
    have e1 := filled_apply pattern text m (i + 1) j (i + 1) j (by omega) (Or.inr ⟨rfl, le_refl _⟩)
    have e2 := filled_apply pattern text m (i + 1) j i (j + 1) hj (Or.inl (Nat.lt_succ_self i))
    have e3 := filled_apply pattern text m (i + 1) j i j (by omega) (Or.inl (Nat.lt_succ_self i))
    by_cases hs : pattern.getD j 0 = star
    · rw [if_pos hs, e1, e2]
      rw [if_pos hs] at hc
      rw [← hc]
      exact filled_set pattern text m (i + 1) j hj
    · rw [if_neg hs]
      rw [if_neg hs] at hc
      by_cases hq : pattern.getD j 0 = qmark ∨ pattern.getD j 0 = text.getD i 0
      · rw [if_pos hq, e3]
        rw [if_pos hq] at hc
        rw [← hc]
        exact filled_set pattern text m (i + 1) j hj
      · rw [if_neg hq]
        rw [if_neg hq] at hc
        exact filled_skip pattern text m (i + 1) j hc

theorem outer_loop (pattern text : GoString) (m : Nat) :
    ∀ i,
      forLoop 1 i (fun i dp =>
        forLoop 1 m (fun j dp =>
          if pattern.getD (j - 1) 0 = star then
            Table.set dp i j (dp i (j - 1) || dp (i - 1) j)
          else if pattern.getD (j - 1) 0 = qmark ∨
              pattern.getD (j - 1) 0 = text.getD (i - 1) 0 then
            Table.set dp i j (dp (i - 1) (j - 1))
          else dp) dp)
        (filled pattern text m 1 0) = filled pattern text m (i + 1) 0 := by
  intro i
  induction i with
  | zero => exact forLoop_of_lt _ _ _ _ (by omega)
  | succ i ih =>
    rw [forLoop_succ _ _ _ _ (by omega), ih]
    have := inner_loop pattern text m i m (le_refl _)
    rw [this]
    exact filled_next_row pattern text m (i + 1)

/-- After both early returns are passed, `Match` returns the last cell of the
filled grid. -/
theorem match_eq_cellSpec (pattern text : GoString) (h0 : pattern.length ≠ 0)
    (h1 : pattern ≠ [star]) :
    Match pattern text = cellSpec pattern text text.length pattern.length := by
  unfold Match
  rw [if_neg h0, if_neg h1]
  simp only
  rw [filled_init pattern text pattern.length,
    row0_loop pattern text pattern.length pattern.length (le_refl _),
    filled_next_row pattern text pattern.length 0,
    outer_loop pattern text pattern.length text.length]
  exact filled_apply pattern text _ _ _ _ _ (le_refl _) (Or.inl (Nat.lt_succ_self _))

theorem match_iff_globMatches (pattern text : GoString) :
    Match pattern text = true ↔ GlobMatches pattern text := by
  by_cases h0 : pattern.length = 0
  · have hp : pattern = [] := List.length_eq_zero.1 h0
    subst hp
    simp [Match, GlobMatches]
  · by_cases h1 : pattern = [star]
    · subst h1
      have : GlobMatches [star] text := by
        simp only [GlobMatches, if_true]
        exact ⟨text, [], (List.append_nil _).symm, rfl⟩
      simp [Match, this]
    · rw [match_eq_cellSpec pattern text h0 h1,
        cellSpec_iff pattern text text.length (le_refl _) pattern.length (le_refl _),
        List.take_length, List.take_length]

/-- C1. `Match(p, t)` is true exactly when `t` matches `p` under glob semantics
(`*` any run of bytes, `/` included; `?` exactly one byte; any other byte
itself; the whole text consumed); `Match("a?c","abc")` holds and
`Match("a?c","ac")` does not. -/
theorem Match_correct :
    (∀ p t : GoString, Match p t = true ↔ GlobMatches p t) ∧
      Match (ascii "a?c") (ascii "abc") = true ∧
      Match (ascii "a?c") (ascii "ac") = false ∧
      Match (ascii "a*") (ascii "a/b/c") = true :=
  ⟨match_iff_globMatches, by decide, by decide, by decide⟩

/-- C2. The empty pattern matches the empty text only, and the pattern `"*"`
matches every text. -/
theorem Match_empty_and_star (t : GoString) :
    (Match [] t = true ↔ t = []) ∧ Match (ascii "*") t = true := by
  constructor
  · simp [Match]
  · have : ascii "*" = [star] := by decide
    rw [this]
    simp [Match]

end wildcard

/-! ## Virtual paths -/

theorem currentSession_ok_iff (m : SessionManager) (session : Session) :
    m.CurrentSession = Except.ok session ↔
      m.CurrentName ≠ [] ∧ m.Sessions m.CurrentName = some session := by
  unfold SessionManager.CurrentSession
  by_cases h : m.CurrentName = []
  · simp [h]
  · rw [if_neg h]
    cases hs : m.Sessions m.CurrentName with
    | none => simp [h]
    | some s => simp [h]

theorem currentSession_error_iff (m : SessionManager) :
    (∃ e, m.CurrentSession = Except.error e) ↔
      m.CurrentName = [] ∨ m.Sessions m.CurrentName = none := by
  unfold SessionManager.CurrentSession
  by_cases h : m.CurrentName = []
  · simp [h]
  · rw [if_neg h]
    cases hs : m.Sessions m.CurrentName with
    | none => simp [h]
    | some s => simp [h]

theorem hasPrefix_slash_iff (s : GoString) :
    strings.HasPrefix s (ascii "/") = true ↔ ∃ r, s = slash :: r := by
  have : ascii "/" = [slash] := by decide
  rw [this]
  cases s with
  | nil => simp [strings.HasPrefix]
  | cons c r =>
    simp only [strings.HasPrefix, List.isPrefixOf, Bool.and_true, beq_iff_eq]
    constructor
    · intro h; exact ⟨r, by rw [h]⟩
    · rintro ⟨r', h⟩; exact (List.cons.inj h).1.symm

theorem first_byte_slash_iff (s : GoString) (h : s ≠ []) :
    s.getD 0 0 = slash ↔ strings.HasPrefix s (ascii "/") = true := by
  rw [hasPrefix_slash_iff]
  cases s with
  | nil => exact absurd rfl h
  | cons c r => simp

/-- The four cases of `FormatPath` under a current session. -/
theorem formatPath_of_session (m : SessionManager) (session : Session) (input : GoString)
    (hs : m.CurrentSession = Except.ok session) :
    m.FormatPath input = Except.ok
      (if input = [] then session.CurrentPath
       else if strings.HasPrefix input (ascii "/") = true then input
       else if session.CurrentPath = ascii "/" then ascii "/" ++ input
       else session.CurrentPath ++ ascii "/" ++ input) := by
  unfold SessionManager.FormatPath
  rw [hs]
  by_cases h0 : input = []
  · simp [h0]
  · simp only [if_neg h0, first_byte_slash_iff input h0]
    split_ifs <;> rfl

/-- C3. `FormatPath` fails exactly when there is no current session; under a
current session standing at `c` it returns `c` for the empty input, an input
that starts with `/` unchanged, `"/" ++ input` when `c = "/"`, and
`c ++ "/" ++ input` otherwise. -/
theorem FormatPath_spec (m : SessionManager) (input : GoString) :
    ((∃ e, m.FormatPath input = Except.error e) ↔
        (m.CurrentName = [] ∨ m.Sessions m.CurrentName = none)) ∧
      (∀ session, m.CurrentName ≠ [] → m.Sessions m.CurrentName = some session →
        m.FormatPath input = Except.ok
          (if input = [] then session.CurrentPath
           else if strings.HasPrefix input (ascii "/") = true then input
           else if session.CurrentPath = ascii "/" then ascii "/" ++ input
           else session.CurrentPath ++ ascii "/" ++ input)) := by
  constructor
  · rw [← currentSession_error_iff]
    cases hs : m.CurrentSession with
    | error e =>
      unfold SessionManager.FormatPath
      rw [hs]
      simp
    | ok session =>
      rw [formatPath_of_session m session input hs]
      constructor
      · rintro ⟨e, h⟩
        cases h
      · rintro ⟨e, h⟩
        cases h
  · intro session h1 h2
    exact formatPath_of_session m session input ((currentSession_ok_iff m session).2 ⟨h1, h2⟩)

/-- Witness of C3 at the current path `/a/b`: `c` gives `/a/b/c`, `/x` gives
`/x`, the empty input gives `/a/b`; and at the root `c` gives `/c`. -/
theorem FormatPath_spec_witness :
    (exampleManager (ascii "/a/b")).FormatPath (ascii "c") = Except.ok (ascii "/a/b/c") ∧
      (exampleManager (ascii "/a/b")).FormatPath (ascii "/x") = Except.ok (ascii "/x") ∧
      (exampleManager (ascii "/a/b")).FormatPath [] = Except.ok (ascii "/a/b") ∧
      (exampleManager (ascii "/")).FormatPath (ascii "c") = Except.ok (ascii "/c") :=
  ⟨(FormatPath_spec (exampleManager (ascii "/a/b")) (ascii "c")).2
      (exampleSession (ascii "/a/b")) (by decide) (by decide),
   (FormatPath_spec (exampleManager (ascii "/a/b")) (ascii "/x")).2
      (exampleSession (ascii "/a/b")) (by decide) (by decide),
   (FormatPath_spec (exampleManager (ascii "/a/b")) []).2
      (exampleSession (ascii "/a/b")) (by decide) (by decide),
   (FormatPath_spec (exampleManager (ascii "/")) (ascii "c")).2
      (exampleSession (ascii "/")) (by decide) (by decide)⟩

/-- C4. `cd ..` from `/a/b` aims at `//a`, not `/a`: the empty first piece that
`Split` yields for the leading `/` is joined back behind the `/` the code
prepends, so on a bucket holding `a/b/x` and `a/y` the command fails with
"directory `//a` does not exist" and the current path stays `/a/b`.  From a
one-segment path and from the root the target is right. -/
theorem cd_dotdot_doubles_slash :
    cdNewPath (exampleManager (ascii "/a/b")) (exampleSession (ascii "/a/b")) (ascii "..")
        = Except.ok (some (ascii "//a")) ∧
      (cdAction (exampleWorld [ascii "a/b/x", ascii "a/y"]) (exampleManager (ascii "/a/b"))
          [ascii ".."]).1 = some (Error.dirNotFound (ascii "//a")) ∧
      (cdAction (exampleWorld [ascii "a/b/x", ascii "a/y"]) (exampleManager (ascii "/a/b"))
          [ascii ".."]).2.CurrentSession = Except.ok (exampleSession (ascii "/a/b")) ∧
      cdNewPath (exampleManager (ascii "/a")) (exampleSession (ascii "/a")) (ascii "..")
        = Except.ok (some (ascii "/")) ∧
      (cdAction (exampleWorld [ascii "a/b/x", ascii "a/y"]) (exampleManager (ascii "/"))
          [ascii ".."]).1 = none ∧
      (cdAction (exampleWorld [ascii "a/b/x", ascii "a/y"]) (exampleManager (ascii "/"))
          [ascii ".."]).2.CurrentSession = Except.ok (exampleSession (ascii "/")) := by
  refine ⟨by decide, by decide, by decide, by decide, by decide, by decide⟩

theorem getClient_ok (w : World) (m m1 : SessionManager) (h : m.GetClient w = Except.ok m1) :
    m1.Sessions = m.Sessions ∧ m1.CurrentName = m.CurrentName := by
  unfold SessionManager.GetClient at h
  by_cases hc : m.currentClient = true
  · rw [if_pos hc] at h
    cases h
    exact ⟨rfl, rfl⟩
  · rw [if_neg hc] at h
    cases hs : m.CurrentSession with
    | error e => rw [hs] at h; cases h
    | ok session =>
      rw [hs] at h
      dsimp only at h
      by_cases hn : w.newClientOk (stripScheme session.Endpoint) = true
      · rw [if_pos hn] at h
        cases h
        exact ⟨rfl, rfl⟩
      · rw [if_neg hn] at h
        cases h

theorem currentSession_congr (m m1 : SessionManager) (h1 : m1.Sessions = m.Sessions)
    (h2 : m1.CurrentName = m.CurrentName) : m1.CurrentSession = m.CurrentSession := by
  unfold SessionManager.CurrentSession
  rw [h1, h2]

/-- After `UpdateCurrentPath` under a current session, the current session is
the old one with the new path, whatever `Save` returns. -/
theorem updateCurrentPath_currentSession (w : World) (m : SessionManager) (session : Session)
    (path : GoString) (hs : m.CurrentSession = Except.ok session) :
    (m.UpdateCurrentPath w path).2.CurrentSession =
      Except.ok { session with CurrentPath := path } := by
  obtain ⟨hn, hm⟩ := (currentSession_ok_iff m session).1 hs
  unfold SessionManager.UpdateCurrentPath
  rw [if_neg hn]
  simp only [hm, Option.getD_some]
  rw [currentSession_ok_iff]
  exact ⟨hn, by simp [SessionManager.setSession]⟩

/-- The shape of `cdAction` once the target is known. -/
theorem cdAction_of_target (w : World) (m : SessionManager) (session : Session)
    (path : GoString) (rest : List GoString) (newPath : GoString)
    (hs : m.CurrentSession = Except.ok session)
    (ht : cdNewPath m session path = Except.ok (some newPath)) :
    cdAction w m (path :: rest) =
      if newPath ≠ ascii "/" then
        match m.GetClient w with
        | Except.error e => (some e, m)
        | Except.ok m1 =>
          if (w.ListObjects session.BucketName (dirPrefix newPath) false).isEmpty then
            (some (Error.dirNotFound newPath), m1)
          else m1.UpdateCurrentPath w newPath
      else m.UpdateCurrentPath w newPath := by
  unfold cdAction
  simp only [List.length_cons, hs, List.headD_cons, ht]
  rw [if_neg (by omega)]
  by_cases hr : newPath = ascii "/"
  · simp [hr]
  · simp only [ne_eq, hr, not_false_eq_true, if_true]
    cases hg : m.GetClient w with
    | error e => rfl
    | ok m1 =>
      simp only
      cases (w.ListObjects session.BucketName (dirPrefix newPath) false).isEmpty <;> rfl

/-- C5. `cd` validates before committing.  With `newPath` the target of
`cd path`: if `newPath` is not `/` and the listing under its prefix sends no
item, `cdAction` returns an error and leaves the sessions as they were; the
current session changes only when `newPath` is `/` or the listing sends an
item; and when `newPath` is `/`, or a client is available and the listing
sends an item, the current path becomes `newPath`. -/
theorem cd_validates_before_commit (w : World) (m : SessionManager) (session : Session)
    (path : GoString) (rest : List GoString) (newPath : GoString)
    (hs : m.CurrentSession = Except.ok session)
    (ht : cdNewPath m session path = Except.ok (some newPath)) :
    (newPath ≠ ascii "/" →
        w.ListObjects session.BucketName (dirPrefix newPath) false = [] →
        (cdAction w m (path :: rest)).1 ≠ none ∧
          (cdAction w m (path :: rest)).2.Sessions = m.Sessions ∧
          (cdAction w m (path :: rest)).2.CurrentName = m.CurrentName ∧
          (cdAction w m (path :: rest)).2.CurrentSession = Except.ok session) ∧
      ((cdAction w m (path :: rest)).2.CurrentSession ≠ Except.ok session →
        newPath = ascii "/" ∨
          w.ListObjects session.BucketName (dirPrefix newPath) false ≠ []) ∧
      ((newPath = ascii "/" ∨
          ((∃ m1, m.GetClient w = Except.ok m1) ∧
            w.ListObjects session.BucketName (dirPrefix newPath) false ≠ [])) →
        (cdAction w m (path :: rest)).2.CurrentSession =
          Except.ok { session with CurrentPath := newPath }) := by
  have key : newPath ≠ ascii "/" →
      w.ListObjects session.BucketName (dirPrefix newPath) false = [] →
      (cdAction w m (path :: rest)).1 ≠ none ∧
        (cdAction w m (path :: rest)).2.Sessions = m.Sessions ∧
        (cdAction w m (path :: rest)).2.CurrentName = m.CurrentName ∧
        (cdAction w m (path :: rest)).2.CurrentSession = Except.ok session := by
    intro hr hl
    rw [cdAction_of_target w m session path rest newPath hs ht, if_pos hr, hl]
    cases hg : m.GetClient w with
    | error e => exact ⟨by simp, rfl, rfl, hs⟩
    | ok m1 =>
      obtain ⟨h1, h2⟩ := getClient_ok w m m1 hg
      refine ⟨by simp, h1, h2, ?_⟩
      simp only [List.isEmpty_nil, if_true]
      rw [currentSession_congr m m1 h1 h2, hs]
  refine ⟨key, ?_, ?_⟩
  · intro hne
    by_contra hcon
    rw [not_or, not_not] at hcon
    exact hne (key hcon.1 hcon.2).2.2.2
  · intro h
    rw [cdAction_of_target w m session path rest newPath hs ht]
    rcases h with hr | ⟨⟨m1, hg⟩, hl⟩
    · rw [if_neg (by simpa using hr)]
      exact updateCurrentPath_currentSession w m session newPath hs
    · by_cases hr : newPath = ascii "/"
      · rw [if_neg (by simpa using hr)]
        exact updateCurrentPath_currentSession w m session newPath hs
      · rw [if_pos hr, hg]
        obtain ⟨h1, h2⟩ := getClient_ok w m m1 hg
        have he : (w.ListObjects session.BucketName (dirPrefix newPath) false).isEmpty = false := by
          cases hx : w.ListObjects session.BucketName (dirPrefix newPath) false with
          | nil => exact absurd hx hl
          | cons a l => rfl
        simp only [he]
        exact updateCurrentPath_currentSession w m1 session newPath
          (by rw [currentSession_congr m m1 h1 h2, hs])

/-- Witness of C5: on a bucket holding `a/b/x` and `a/y`, from `/a`, the
target `/a/zz` of `cd zz` has an empty listing and is refused, and the target
`/a/b` of `cd b` is committed. -/
theorem cd_validates_before_commit_witness :
    ((cdAction (exampleWorld [ascii "a/b/x", ascii "a/y"]) (exampleManager (ascii "/a"))
          [ascii "zz"]).1 ≠ none ∧
        (cdAction (exampleWorld [ascii "a/b/x", ascii "a/y"]) (exampleManager (ascii "/a"))
          [ascii "zz"]).2.CurrentSession = Except.ok (exampleSession (ascii "/a"))) ∧
      (cdAction (exampleWorld [ascii "a/b/x", ascii "a/y"]) (exampleManager (ascii "/a"))
          [ascii "b"]).2.CurrentSession = Except.ok (exampleSession (ascii "/a/b")) := by
  have h1 := (cd_validates_before_commit (exampleWorld [ascii "a/b/x", ascii "a/y"])
    (exampleManager (ascii "/a")) (exampleSession (ascii "/a")) (ascii "zz") []
    (ascii "/a/zz") (by decide) (by decide)).1 (by decide) (by decide)
  have h2 := (cd_validates_before_commit (exampleWorld [ascii "a/b/x", ascii "a/y"])
    (exampleManager (ascii "/a")) (exampleSession (ascii "/a")) (ascii "b") []
    (ascii "/a/b") (by decide) (by decide)).2.2 (Or.inr ⟨⟨_, rfl⟩, by decide⟩)
  exact ⟨⟨h1.1, h1.2.2.2⟩, h2⟩

theorem hasPrefix_slash_cons (r : GoString) :
    strings.HasPrefix (ascii "/" ++ r) (ascii "/") = true :=
  (hasPrefix_slash_iff _).2 ⟨r, rfl⟩

theorem hasPrefix_slash_append (s r : GoString) (h : strings.HasPrefix s (ascii "/") = true) :
    strings.HasPrefix (s ++ r) (ascii "/") = true := by
  obtain ⟨t, rfl⟩ := (hasPrefix_slash_iff s).1 h
  exact (hasPrefix_slash_iff _).2 ⟨t ++ r, rfl⟩

theorem parseAuthString_currentPath (authStr : GoString) (s : Session)
    (h : ParseAuthString authStr = Except.ok s) : s.CurrentPath = ascii "/" := by
  unfold ParseAuthString at h
  dsimp only at h
  split_ifs at h
  cases h
  rfl

theorem formatPath_starts_with_slash (m : SessionManager) (session : Session) (input : GoString)
    (hs : m.CurrentSession = Except.ok session)
    (hp : strings.HasPrefix session.CurrentPath (ascii "/") = true) :
    ∃ p, m.FormatPath input = Except.ok p ∧ strings.HasPrefix p (ascii "/") = true := by
  refine ⟨_, formatPath_of_session m session input hs, ?_⟩
  split_ifs with h0 h1 h2
  · exact hp
  · exact h1
  · exact hasPrefix_slash_cons input
  · rw [List.append_assoc]
    exact hasPrefix_slash_append _ _ hp

theorem cdNewPath_starts_with_slash (m : SessionManager) (session : Session)
    (path newPath : GoString) (hs : m.CurrentSession = Except.ok session)
    (hp : strings.HasPrefix session.CurrentPath (ascii "/") = true)
    (ht : cdNewPath m session path = Except.ok (some newPath)) :
    strings.HasPrefix newPath (ascii "/") = true := by
  unfold cdNewPath at ht
  by_cases hd : path = ascii ".."
  · rw [if_pos hd] at ht
    dsimp only at ht
    split_ifs at ht <;> cases ht
    · rfl
    · exact hasPrefix_slash_cons _
  · rw [if_neg hd] at ht
    obtain ⟨p, h1, h2⟩ := formatPath_starts_with_slash m session path hs hp
    rw [h1] at ht
    cases ht
    exact h2

/-- The manager `cdAction` leaves has the old current session, or the old one
moved to the target of the command. -/
theorem cdAction_currentSession (w : World) (m : SessionManager) (session : Session)
    (args : List GoString) (hs : m.CurrentSession = Except.ok session) :
    (cdAction w m args).2.CurrentSession = Except.ok session ∨
      ∃ newPath, cdNewPath m session (args.headD []) = Except.ok (some newPath) ∧
        (cdAction w m args).2.CurrentSession =
          Except.ok { session with CurrentPath := newPath } := by
  cases args with
  | nil => left; simp [cdAction, hs]
  | cons path rest =>
    cases ht : cdNewPath m session path with
    | error e => left; simp [cdAction, hs, ht]
    | ok t =>
      cases t with
      | none => left; simp [cdAction, hs, ht]
      | some newPath =>
        rw [cdAction_of_target w m session path rest newPath hs ht]
        by_cases hr : newPath = ascii "/"
        · right
          rw [if_neg (by simpa using hr)]
          exact ⟨newPath, ht, updateCurrentPath_currentSession w m session newPath hs⟩
        · rw [if_pos hr]
          cases hg : m.GetClient w with
          | error e => left; exact hs
          | ok m1 =>
            obtain ⟨h1, h2⟩ := getClient_ok w m m1 hg
            have hs1 : m1.CurrentSession = Except.ok session := by
              rw [currentSession_congr m m1 h1 h2, hs]
            dsimp only
            split_ifs
            · left; exact hs1
            · right
              exact ⟨newPath, ht, updateCurrentPath_currentSession w m1 session newPath hs1⟩

theorem addSession_sessions (w : World) (m : SessionManager) (name : GoString)
    (session : Session) : (m.AddSession w name session).2.Sessions name = some session := by
  unfold SessionManager.AddSession
  dsimp only
  split_ifs <;> simp [SessionManager.setSession]

theorem switchSession_currentSession (w : World) (m : SessionManager) (name : GoString)
    (session : Session) (hn : name ≠ []) (hm : m.Sessions name = some session) :
    (m.SwitchSession w name).2.CurrentSession = Except.ok session := by
  unfold SessionManager.SwitchSession
  rw [hm]
  rw [currentSession_ok_iff]
  exact ⟨hn, hm⟩

/-- A successful `login` leaves a current session standing at `/`. -/
theorem loginAction_currentPath (w : World) (m : SessionManager)
    (endpointIn accessKey secretKey bucketName : GoString)
    (h : (loginAction w m endpointIn accessKey secretKey bucketName).1 = none) :
    ∃ s, (loginAction w m endpointIn accessKey secretKey bucketName).2.CurrentSession =
        Except.ok s ∧ s.CurrentPath = ascii "/" := by
  unfold loginAction at h ⊢
  dsimp only at h ⊢
  by_cases hc : w.newClientOk (stripScheme endpointIn) = true
  · simp only [hc, Bool.not_true, Bool.false_eq_true, if_false] at h ⊢
    cases hb : w.BucketExists bucketName with
    | none => rw [hb] at h; cases h
    | some b =>
      cases b with
      | false => rw [hb] at h; cases h
      | true =>
        rw [hb] at h
        dsimp only at h ⊢
        generalize hdisp : (if (!strings.HasPrefix endpointIn (ascii "http://")) = true then
            ascii "https://" ++ stripScheme endpointIn
          else ascii "http://" ++ stripScheme endpointIn) = disp at h ⊢
        have hname : bucketName ++ ascii "/" ++ disp ≠ [] := by
          intro hn
          have := congrArg List.length hn
          simp [ascii] at this
        generalize bucketName ++ ascii "/" ++ disp = name at h hname ⊢
        generalize hsess : Session.mk disp accessKey secretKey bucketName (ascii "/") = sess at h ⊢
        have hA := addSession_sessions w m name sess
        cases hadd : m.AddSession w name sess with
        | mk e1 m1 =>
          rw [hadd] at h hA
          dsimp only at hA
          cases e1 with
          | some e => cases h
          | none =>
            dsimp only at h ⊢
            have hS := switchSession_currentSession w m1 name sess hname hA
            cases hsw : m1.SwitchSession w name with
            | mk e2 m2 =>
              rw [hsw] at h hS
              cases e2 with
              | some e => cases h
              | none => exact ⟨sess, hS, by rw [← hsess]⟩
  · simp [hc] at h

/-- C6. The current path always starts with `/`: a session made by
`ParseAuthString` or by a successful `login` stands at `/`; and under a
current session whose path starts with `/`, the target of every `cd` argument
starts with `/`, the current path that `cd` leaves starts with `/`, and so does
the result of `FormatPath` for every input. -/
theorem current_path_starts_with_slash (w : World) (m : SessionManager) (session : Session)
    (args : List GoString) (input : GoString)
    (hs : m.CurrentSession = Except.ok session)
    (hp : strings.HasPrefix session.CurrentPath (ascii "/") = true) :
    (∀ authStr s, ParseAuthString authStr = Except.ok s → s.CurrentPath = ascii "/") ∧
      (∀ (m0 : SessionManager) (e a k b : GoString), (loginAction w m0 e a k b).1 = none →
        ∃ s, (loginAction w m0 e a k b).2.CurrentSession = Except.ok s ∧
          s.CurrentPath = ascii "/") ∧
      (∀ newPath, cdNewPath m session (args.headD []) = Except.ok (some newPath) →
        strings.HasPrefix newPath (ascii "/") = true) ∧
      (∃ s, (cdAction w m args).2.CurrentSession = Except.ok s ∧
        strings.HasPrefix s.CurrentPath (ascii "/") = true) ∧
      (∃ p, m.FormatPath input = Except.ok p ∧ strings.HasPrefix p (ascii "/") = true) := by
  refine ⟨parseAuthString_currentPath, loginAction_currentPath w, ?_, ?_, ?_⟩
  · intro newPath ht
    exact cdNewPath_starts_with_slash m session _ newPath hs hp ht
  · rcases cdAction_currentSession w m session args hs with h | ⟨newPath, ht, h⟩
    · exact ⟨session, h, hp⟩
    · exact ⟨_, h, cdNewPath_starts_with_slash m session _ newPath hs hp ht⟩
  · exact formatPath_starts_with_slash m session input hs hp

/-- Witness of C6: on a bucket holding `a/b/x` and `a/y`, from `/a`, the
commands `cd b` and `cd ..` leave a current path that starts with `/`, a
login leaves the path `/`, and `h:k:s:b` parses to a session at `/`. -/
theorem current_path_starts_with_slash_witness :
    (∃ s, (cdAction (exampleWorld [ascii "a/b/x", ascii "a/y"]) (exampleManager (ascii "/a"))
          [ascii "b"]).2.CurrentSession = Except.ok s ∧
        strings.HasPrefix s.CurrentPath (ascii "/") = true) ∧
      (∃ s, (cdAction (exampleWorld [ascii "a/b/x", ascii "a/y"]) (exampleManager (ascii "/a"))
          [ascii ".."]).2.CurrentSession = Except.ok s ∧
        strings.HasPrefix s.CurrentPath (ascii "/") = true) ∧
      (∃ s, (loginAction (exampleWorld []) (exampleManager (ascii "/a")) (ascii "http://h2")
          (ascii "k") (ascii "s") (ascii "b2")).2.CurrentSession = Except.ok s ∧
        s.CurrentPath = ascii "/") ∧
      (∀ s, ParseAuthString (ascii "h:k:s:b") = Except.ok s → s.CurrentPath = ascii "/") :=
  ⟨(current_path_starts_with_slash (exampleWorld [ascii "a/b/x", ascii "a/y"])
      (exampleManager (ascii "/a")) (exampleSession (ascii "/a")) [ascii "b"] []
      (by decide) (by decide)).2.2.2.1,
   (current_path_starts_with_slash (exampleWorld [ascii "a/b/x", ascii "a/y"])
      (exampleManager (ascii "/a")) (exampleSession (ascii "/a")) [ascii ".."] []
      (by decide) (by decide)).2.2.2.1,
   (current_path_starts_with_slash (exampleWorld [])
      (exampleManager (ascii "/a")) (exampleSession (ascii "/a")) [] []
      (by decide) (by decide)).2.1 (exampleManager (ascii "/a")) (ascii "http://h2")
      (ascii "k") (ascii "s") (ascii "b2") (by decide),
   (current_path_starts_with_slash (exampleWorld [])
      (exampleManager (ascii "/a")) (exampleSession (ascii "/a")) [] []
      (by decide) (by decide)).1 (ascii "h:k:s:b")⟩

theorem ascii_slash : ascii "/" = [slash] := by decide

theorem ascii_dslash : ascii "//" = [slash, slash] := by decide

theorem hasPrefix_nil (p : GoString) (c : Nat) : strings.HasPrefix [] (c :: p) = false := rfl

theorem hasPrefix_cons_cons (s p : GoString) (c d : Nat) :
    strings.HasPrefix (c :: s) (d :: p) = (decide (d = c) && strings.HasPrefix s p) := by
  unfold strings.HasPrefix
  rw [List.isPrefixOf]
  by_cases h : d = c <;> simp [h]

theorem hasPrefix_empty (s : GoString) : strings.HasPrefix s [] = true := by
  unfold strings.HasPrefix
  cases s <;> rfl

theorem trimPrefix_slash_cons (r : GoString) : strings.TrimPrefix (slash :: r) [slash] = r := by
  unfold strings.TrimPrefix
  rw [hasPrefix_cons_cons, hasPrefix_empty]
  simp

theorem trimPrefix_slash_of_ne (c : Nat) (r : GoString) (h : c ≠ slash) :
    strings.TrimPrefix (c :: r) [slash] = c :: r := by
  unfold strings.TrimPrefix
  rw [hasPrefix_cons_cons]
  simp [Ne.symm h]

theorem trimPrefix_slash_nil : strings.TrimPrefix [] [slash] = [] := rfl

/-- A path with one leading `/`, not two, loses it to `TrimPrefix` and the
rest has none. -/
theorem trimPrefix_no_leading_slash (s : GoString)
    (h1 : strings.HasPrefix s [slash] = true) (h2 : strings.HasPrefix s [slash, slash] = false) :
    strings.HasPrefix (strings.TrimPrefix s [slash]) [slash] = false := by
  cases s with
  | nil => rfl
  | cons c r =>
    rw [hasPrefix_cons_cons, hasPrefix_empty] at h1
    have hc : c = slash := by simpa [eq_comm] using h1
    subst hc
    rw [trimPrefix_slash_cons]
    rw [hasPrefix_cons_cons] at h2
    simpa using h2

theorem hasPrefix_append_of_false (x y : GoString) (hx : x ≠ [])
    (h : strings.HasPrefix x [slash] = false) : strings.HasPrefix (x ++ y) [slash] = false := by
  cases x with
  | nil => exact absurd rfl hx
  | cons c r =>
    rw [hasPrefix_cons_cons, hasPrefix_empty] at h
    rw [List.cons_append, hasPrefix_cons_cons, hasPrefix_empty]
    exact h

/-- The listing prefix begins as the object key does. -/
theorem dirPrefix_no_leading_slash (p : GoString)
    (h : strings.HasPrefix (objectKey p) [slash] = false) :
    strings.HasPrefix (dirPrefix p) [slash] = false := by
  unfold dirPrefix
  unfold objectKey at h
  dsimp only
  split_ifs with hc
  · exact hasPrefix_append_of_false _ _ hc.1 (by rw [ascii_slash]; exact h)
  · rw [ascii_slash]; exact h

/-- C7, as stated, fails: at the root, the argument `//x` is taken as absolute
and returned unchanged, and trimming one `/` leaves the key `/x`. -/
theorem objectKey_leading_slash_counterexample :
    ¬ (∀ (m : SessionManager) (session : Session) (arg p : GoString),
        m.CurrentSession = Except.ok session →
        strings.HasPrefix session.CurrentPath (ascii "/") = true →
        m.FormatPath arg = Except.ok p →
        strings.HasPrefix (strings.TrimPrefix p (ascii "/")) (ascii "/") = false) := by
  intro h
  have := h (exampleManager (ascii "/")) (exampleSession (ascii "/")) (ascii "//x")
    (ascii "//x") (by decide) (by decide) (by decide)
  revert this
  decide

/-- C7, amended. Under a current session whose path starts with `/` but not
with `//`, for every path argument that does not start with `//`, the object
key `TrimPrefix(FormatPath(arg), "/")` and the listing prefix derived from it
do not begin with `/`. -/
theorem objectKey_no_leading_slash (m : SessionManager) (session : Session) (arg : GoString)
    (hs : m.CurrentSession = Except.ok session)
    (hp : strings.HasPrefix session.CurrentPath (ascii "/") = true)
    (hc : strings.HasPrefix session.CurrentPath (ascii "//") = false)
    (ha : strings.HasPrefix arg (ascii "//") = false) :
    ∃ p, m.FormatPath arg = Except.ok p ∧
      strings.HasPrefix (strings.TrimPrefix p (ascii "/")) (ascii "/") = false ∧
      strings.HasPrefix (dirPrefix p) (ascii "/") = false := by
  have key : ∃ p, m.FormatPath arg = Except.ok p ∧
      strings.HasPrefix (strings.TrimPrefix p [slash]) [slash] = false := by
    refine ⟨_, formatPath_of_session m session arg hs, ?_⟩
    rw [ascii_slash] at hp ⊢
    rw [ascii_dslash] at hc ha
    split_ifs with h0 h1 h2
    · exact trimPrefix_no_leading_slash _ hp hc
    · exact trimPrefix_no_leading_slash _ h1 ha
    · rw [List.singleton_append, trimPrefix_slash_cons]
      simpa using h1
    · cases hcur : session.CurrentPath with
      | nil => rw [hcur] at hp; cases hp
      | cons c r =>
        rw [hcur] at hp hc h2
        rw [hasPrefix_cons_cons, hasPrefix_empty] at hp
        have hcs : c = slash := by simpa [eq_comm] using hp
        subst hcs
        cases r with
        | nil => exact absurd rfl h2
        | cons d r2 =>
          rw [hasPrefix_cons_cons, hasPrefix_cons_cons, hasPrefix_empty] at hc
          have hd : ¬ slash = d := by simpa using hc
          rw [List.cons_append, List.cons_append, trimPrefix_slash_cons, List.cons_append,
            List.cons_append, hasPrefix_cons_cons]
          simp [hd]
  obtain ⟨p, h1, h2⟩ := key
  refine ⟨p, h1, ?_, ?_⟩
  · rw [ascii_slash]; exact h2
  · rw [ascii_slash]
    exact dirPrefix_no_leading_slash p h2

/-- Witness of C7, amended: from `/a` the argument `b/c` gives the key
`a/b/c`, which has no leading `/`. -/
theorem objectKey_no_leading_slash_witness :
    ∃ p, (exampleManager (ascii "/a")).FormatPath (ascii "b/c") = Except.ok p ∧
      strings.HasPrefix (strings.TrimPrefix p (ascii "/")) (ascii "/") = false ∧
      strings.HasPrefix (dirPrefix p) (ascii "/") = false :=
  objectKey_no_leading_slash (exampleManager (ascii "/a")) (exampleSession (ascii "/a"))
    (ascii "b/c") (by decide) (by decide) (by decide) (by decide)

/-! ## Single-level listing -/

theorem contains_iff (l : List GoString) (x : GoString) : contains l x = true ↔ x ∈ l := by
  induction l with
  | nil => simp [contains]
  | cons a l ih =>
    unfold contains
    by_cases h : a = x
    · simp [h]
    · rw [if_neg h, ih]
      simp [Ne.symm h]

theorem strings_contains_iff (s : GoString) (c : Nat) : strings.Contains s c = true ↔ c ∈ s := by
  unfold strings.Contains
  simp

theorem split_ne_nil (s : GoString) (sep : Nat) : strings.Split s sep ≠ [] := by
  cases s with
  | nil => simp [strings.Split]
  | cons c s =>
    unfold strings.Split
    by_cases h : c = sep
    · simp [h]
    · rw [if_neg h]
      cases strings.Split s sep <;> simp

theorem split_head (s : GoString) :
    (strings.Split s slash).headD [] = firstSegment s := by
  induction s with
  | nil => rfl
  | cons c s ih =>
    unfold strings.Split firstSegment
    by_cases h : c = slash
    · simp [h]
    · rw [if_neg h, List.takeWhile_cons]
      simp only [ne_eq, h, not_false_eq_true, decide_True, if_true]
      cases hs : strings.Split s slash with
      | nil => exact absurd hs (split_ne_nil s slash)
      | cons p ps =>
        rw [hs] at ih
        simp only [List.headD_cons] at ih ⊢
        rw [ih]
        rfl

/-- One pass of the loop of `lsAction` on an object without error. -/
theorem lsStep_ok (pfx : GoString) (st : LsState) (o : ObjectInfo) (h : o.Err = false) :
    lsStep pfx st o = Except.ok
      (if slash ∈ strings.TrimPrefix o.Key pfx then
        (if firstSegment (strings.TrimPrefix o.Key pfx) ++ ascii "/" ∈ st.directories then st
         else { st with directories := st.directories ++
            [firstSegment (strings.TrimPrefix o.Key pfx) ++ ascii "/"] })
       else if strings.TrimPrefix o.Key pfx ≠ [] then { st with files := st.files ++ [o] }
       else st) := by
  unfold lsStep
  simp only [h, Bool.false_eq_true, if_false, split_head]
  by_cases hc : slash ∈ strings.TrimPrefix o.Key pfx
  · rw [if_pos ((strings_contains_iff _ _).2 hc), if_pos hc]
    by_cases hd : firstSegment (strings.TrimPrefix o.Key pfx) ++ ascii "/" ∈ st.directories
    · rw [if_pos hd, if_neg]
      simp [(contains_iff _ _).2 hd]
    · rw [if_neg hd, if_pos]
      have : contains st.directories (firstSegment (strings.TrimPrefix o.Key pfx) ++ ascii "/")
          = false := by
        rw [← Bool.not_eq_true, contains_iff]; exact hd
      simp [this]
  · rw [if_neg (fun hx => hc ((strings_contains_iff _ _).1 hx)), if_neg hc]
    split_ifs <;> rfl

/-- The state of `lsAction` when the loop ends, from any state it starts in. -/
theorem lsLoop_spec (pfx : GoString) :
    ∀ (objs : List ObjectInfo) (st0 : LsState), (∀ o ∈ objs, o.Err = false) →
      st0.directories.Nodup →
      ∃ st, lsLoop pfx objs st0 = Except.ok st ∧ st.directories.Nodup ∧
        (∀ d ∈ st0.directories, d ∈ st.directories) ∧
        (∀ f ∈ st0.files, f ∈ st.files) ∧
        (∀ o ∈ objs, slash ∈ strings.TrimPrefix o.Key pfx →
          firstSegment (strings.TrimPrefix o.Key pfx) ++ ascii "/" ∈ st.directories) ∧
        (∀ o ∈ objs, strings.TrimPrefix o.Key pfx ≠ [] →
          slash ∉ strings.TrimPrefix o.Key pfx → o ∈ st.files) ∧
        (∀ d ∈ st.directories, d ∈ st0.directories ∨
          ∃ o ∈ objs, slash ∈ strings.TrimPrefix o.Key pfx ∧
            d = firstSegment (strings.TrimPrefix o.Key pfx) ++ ascii "/") ∧
        (∀ f ∈ st.files, f ∈ st0.files ∨
          (f ∈ objs ∧ strings.TrimPrefix f.Key pfx ≠ [] ∧
            slash ∉ strings.TrimPrefix f.Key pfx)) := by
  intro objs
  induction objs with
  | nil =>
    intro st0 _ hnd
    exact ⟨st0, rfl, hnd, fun _ h => h, fun _ h => h, by simp, by simp,
      fun _ h => Or.inl h, fun _ h => Or.inl h⟩
  | cons o rest ih =>
    intro st0 herr hnd
    have ho : o.Err = false := herr o (List.mem_cons_self _ _)
    have hrest : ∀ x ∈ rest, x.Err = false := fun x hx => herr x (List.mem_cons_of_mem _ hx)
    unfold lsLoop
    rw [lsStep_ok pfx st0 o ho]
    dsimp only
    by_cases hc : slash ∈ strings.TrimPrefix o.Key pfx
    · rw [if_pos hc]
      by_cases hd : firstSegment (strings.TrimPrefix o.Key pfx) ++ ascii "/" ∈ st0.directories
      · rw [if_pos hd]
        obtain ⟨st, h1, h2, h3, h4, h5, h6, h7, h8⟩ := ih st0 hrest hnd
        refine ⟨st, h1, h2, h3, h4, ?_, ?_, ?_, ?_⟩
        · intro x hx hxc
          rcases List.mem_cons.1 hx with rfl | hx
          · exact h3 _ hd
          · exact h5 x hx hxc
        · intro x hx hx1 hx2
          rcases List.mem_cons.1 hx with rfl | hx
          · exact absurd hc hx2
          · exact h6 x hx hx1 hx2
        · intro d hdd
          rcases h7 d hdd with h | ⟨x, hx, hx1, hx2⟩
          · exact Or.inl h
          · exact Or.inr ⟨x, List.mem_cons_of_mem _ hx, hx1, hx2⟩
        · intro f hf
          rcases h8 f hf with h | ⟨hx, hx1, hx2⟩
          · exact Or.inl h
          · exact Or.inr ⟨List.mem_cons_of_mem _ hx, hx1, hx2⟩
      · rw [if_neg hd]
        have hnd1 : (st0.directories ++
            [firstSegment (strings.TrimPrefix o.Key pfx) ++ ascii "/"]).Nodup := by
          rw [List.nodup_append]
          refine ⟨hnd, List.nodup_singleton _, ?_⟩
          intro a ha hb
          rw [List.mem_singleton] at hb
          exact hd (hb ▸ ha)
        obtain ⟨st, h1, h2, h3, h4, h5, h6, h7, h8⟩ :=
          ih { st0 with directories := st0.directories ++
            [firstSegment (strings.TrimPrefix o.Key pfx) ++ ascii "/"] } hrest hnd1
        dsimp only at h3 h4 h7 h8
        refine ⟨st, h1, h2, ?_, h4, ?_, ?_, ?_, ?_⟩
        · intro d hdd
          exact h3 d (List.mem_append_left _ hdd)
        · intro x hx hxc
          rcases List.mem_cons.1 hx with rfl | hx
          · exact h3 _ (List.mem_append_right _ (List.mem_singleton_self _))
          · exact h5 x hx hxc
        · intro x hx hx1 hx2
          rcases List.mem_cons.1 hx with rfl | hx
          · exact absurd hc hx2
          · exact h6 x hx hx1 hx2
        · intro d hdd
          rcases h7 d hdd with h | ⟨x, hx, hx1, hx2⟩
          · rcases List.mem_append.1 h with h | h
            · exact Or.inl h
            · rw [List.mem_singleton] at h
              exact Or.inr ⟨o, List.mem_cons_self _ _, hc, h⟩
          · exact Or.inr ⟨x, List.mem_cons_of_mem _ hx, hx1, hx2⟩
        · intro f hf
          rcases h8 f hf with h | ⟨hx, hx1, hx2⟩
          · exact Or.inl h
          · exact Or.inr ⟨List.mem_cons_of_mem _ hx, hx1, hx2⟩
    · rw [if_neg hc]
      by_cases hn : strings.TrimPrefix o.Key pfx = []
      · rw [if_neg (by simpa using hn)]
        obtain ⟨st, h1, h2, h3, h4, h5, h6, h7, h8⟩ := ih st0 hrest hnd
        refine ⟨st, h1, h2, h3, h4, ?_, ?_, ?_, ?_⟩
        · intro x hx hxc
          rcases List.mem_cons.1 hx with rfl | hx
          · exact absurd hxc hc
          · exact h5 x hx hxc
        · intro x hx hx1 hx2
          rcases List.mem_cons.1 hx with rfl | hx
          · exact absurd hn hx1
          · exact h6 x hx hx1 hx2
        · intro d hdd
          rcases h7 d hdd with h | ⟨x, hx, hx1, hx2⟩
          · exact Or.inl h
          · exact Or.inr ⟨x, List.mem_cons_of_mem _ hx, hx1, hx2⟩
        · intro f hf
          rcases h8 f hf with h | ⟨hx, hx1, hx2⟩
          · exact Or.inl h
          · exact Or.inr ⟨List.mem_cons_of_mem _ hx, hx1, hx2⟩
      · rw [if_pos hn]
        obtain ⟨st, h1, h2, h3, h4, h5, h6, h7, h8⟩ :=
          ih { st0 with files := st0.files ++ [o] } hrest hnd
        dsimp only at h4 h8
        refine ⟨st, h1, h2, h3, ?_, ?_, ?_, ?_, ?_⟩
        · intro f hf
          exact h4 f (List.mem_append_left _ hf)
        · intro x hx hxc
          rcases List.mem_cons.1 hx with rfl | hx
          · exact absurd hxc hc
          · exact h5 x hx hxc
        · intro x hx hx1 hx2
          rcases List.mem_cons.1 hx with rfl | hx
          · exact h4 _ (List.mem_append_right _ (List.mem_singleton_self _))
          · exact h6 x hx hx1 hx2
        · intro d hdd
          rcases h7 d hdd with h | ⟨x, hx, hx1, hx2⟩
          · exact Or.inl h
          · exact Or.inr ⟨x, List.mem_cons_of_mem _ hx, hx1, hx2⟩
        · intro f hf
          rcases h8 f hf with h | ⟨hx, hx1, hx2⟩
          · rcases List.mem_append.1 h with h | h
            · exact Or.inl h
            · rw [List.mem_singleton] at h
              subst h
              exact Or.inr ⟨List.mem_cons_self _ _, hn, hc⟩
          · exact Or.inr ⟨List.mem_cons_of_mem _ hx, hx1, hx2⟩

/-- C8. Single-level listing, for a listing without error items and `r` the
key with the prefix stripped: a key whose `r` contains `/` puts the segment
before the first `/`, followed by `/`, into the directory list and is no
file entry; a key whose `r` is non-empty and has no `/` is a file entry; the
directory list has no duplicates and holds nothing but such entries. -/
theorem ls_single_level (pfx : GoString) (objectCh : List ObjectInfo)
    (herr : ∀ o ∈ objectCh, o.Err = false) :
    ∃ st, lsCollect pfx objectCh = Except.ok st ∧
      (∀ o ∈ objectCh, slash ∈ strings.TrimPrefix o.Key pfx →
        firstSegment (strings.TrimPrefix o.Key pfx) ++ ascii "/" ∈ st.directories ∧
          ∀ f ∈ st.files, f.Key ≠ o.Key) ∧
      (∀ o ∈ objectCh, strings.TrimPrefix o.Key pfx ≠ [] →
        slash ∉ strings.TrimPrefix o.Key pfx → o ∈ st.files) ∧
      st.directories.Nodup ∧
      (∀ d ∈ st.directories, ∃ o ∈ objectCh, slash ∈ strings.TrimPrefix o.Key pfx ∧
        d = firstSegment (strings.TrimPrefix o.Key pfx) ++ ascii "/") ∧
      (∀ f ∈ st.files, f ∈ objectCh ∧ strings.TrimPrefix f.Key pfx ≠ [] ∧
        slash ∉ strings.TrimPrefix f.Key pfx) := by
  obtain ⟨st, h1, h2, -, -, h5, h6, h7, h8⟩ :=
    lsLoop_spec pfx objectCh ⟨[], []⟩ herr List.nodup_nil
  have hf : ∀ f ∈ st.files, f ∈ objectCh ∧ strings.TrimPrefix f.Key pfx ≠ [] ∧
      slash ∉ strings.TrimPrefix f.Key pfx := by
    intro f hf
    rcases h8 f hf with h | h
    · cases h
    · exact h
  refine ⟨st, h1, ?_, h6, h2, ?_, hf⟩
  · intro o ho hc
    refine ⟨h5 o ho hc, ?_⟩
    intro f hff hk
    rw [← hk] at hc
    exact (hf f hff).2.2 hc
  · intro d hd
    rcases h7 d hd with h | h
    · cases h
    · exact h

/-- Witness of C8: under the prefix `a/`, the keys `a/b.txt`, `a/c/d.txt`,
`a/c/e` and `a/` give the directory list `c/` and the file list `a/b.txt`. -/
theorem ls_single_level_witness :
    lsCollect (ascii "a/") exampleListing =
        Except.ok ⟨[ascii "c/"], [exampleObject (ascii "a/b.txt")]⟩ ∧
      ∃ st, lsCollect (ascii "a/") exampleListing = Except.ok st ∧
        (∀ o ∈ exampleListing, slash ∈ strings.TrimPrefix o.Key (ascii "a/") →
          firstSegment (strings.TrimPrefix o.Key (ascii "a/")) ++ ascii "/" ∈ st.directories ∧
            ∀ f ∈ st.files, f.Key ≠ o.Key) ∧
        (∀ o ∈ exampleListing, strings.TrimPrefix o.Key (ascii "a/") ≠ [] →
          slash ∉ strings.TrimPrefix o.Key (ascii "a/") → o ∈ st.files) ∧
        st.directories.Nodup ∧
        (∀ d ∈ st.directories, ∃ o ∈ exampleListing,
          slash ∈ strings.TrimPrefix o.Key (ascii "a/") ∧
          d = firstSegment (strings.TrimPrefix o.Key (ascii "a/")) ++ ascii "/") ∧
        (∀ f ∈ st.files, f ∈ exampleListing ∧ strings.TrimPrefix f.Key (ascii "a/") ≠ [] ∧
          slash ∉ strings.TrimPrefix f.Key (ascii "a/")) :=
  ⟨by decide, ls_single_level (ascii "a/") exampleListing (by decide)⟩

/-! ## Directory markers -/

theorem hasSuffix_slash_iff (s : GoString) :
    strings.HasSuffix s (ascii "/") = true ↔ ∃ r, s = r ++ [slash] := by
  rw [ascii_slash]
  unfold strings.HasSuffix
  rw [List.isSuffixOf_iff_suffix]
  constructor
  · rintro ⟨r, h⟩; exact ⟨r, h.symm⟩
  · rintro ⟨r, h⟩; exact ⟨r, h.symm⟩

/-- What is left of a key that ends in `/` once a prefix is stripped is empty
or still contains a `/`. -/
theorem marker_name (key pfx : GoString) (h : strings.HasSuffix key (ascii "/") = true) :
    strings.TrimPrefix key pfx = [] ∨ slash ∈ strings.TrimPrefix key pfx := by
  obtain ⟨r, rfl⟩ := (hasSuffix_slash_iff key).1 h
  unfold strings.TrimPrefix
  split_ifs
  · by_cases hn : pfx.length ≤ r.length
    · right
      rw [List.drop_append_of_le_length hn]
      simp
    · left
      rw [List.drop_eq_nil_iff]
      simp only [List.length_append, List.length_singleton]
      omega
  · right
    simp

theorem syncRemoteLoop_spec (objectPrefix : GoString) :
    ∀ (objs : List ObjectInfo) (mp0 : RemoteFiles),
      (∀ rel o, mp0 rel = some o → strings.HasSuffix o.Key (ascii "/") = false) →
      ((∀ o ∈ objs, o.Err = false) → ∃ mp, syncRemoteLoop objectPrefix objs mp0 = Except.ok mp) ∧
      (∀ mp, syncRemoteLoop objectPrefix objs mp0 = Except.ok mp →
        ∀ rel o, mp rel = some o → strings.HasSuffix o.Key (ascii "/") = false) := by
  intro objs
  induction objs with
  | nil =>
    intro mp0 h0
    refine ⟨fun _ => ⟨mp0, rfl⟩, ?_⟩
    intro mp hmp
    cases hmp
    exact h0
  | cons x rest ih =>
    intro mp0 h0
    unfold syncRemoteLoop
    by_cases he : x.Err = true
    · rw [if_pos he]
      refine ⟨fun h => ?_, fun mp hmp => by cases hmp⟩
      have := h x (List.mem_cons_self _ _)
      rw [he] at this
      cases this
    · rw [if_neg he]
      by_cases hm : strings.HasSuffix x.Key (ascii "/") = true
      · rw [if_pos hm]
        exact ⟨fun h => (ih mp0 h0).1 (fun o ho => h o (List.mem_cons_of_mem _ ho)),
          (ih mp0 h0).2⟩
      · rw [if_neg hm]
        dsimp only
        have h1 : ∀ rel o,
            (fun k => if k = strings.TrimPrefix x.Key objectPrefix then some x else mp0 k) rel
              = some o → strings.HasSuffix o.Key (ascii "/") = false := by
          intro rel o hro
          dsimp only at hro
          split_ifs at hro
          · cases hro
            simpa using hm
          · exact h0 rel o hro
        exact ⟨fun h => (ih _ h1).1 (fun o ho => h o (List.mem_cons_of_mem _ ho)),
          (ih _ h1).2⟩

/-- C9. A key that ends in `/` is never handled as a file: for a listing
without error items, no such object is in the file list of `ls` or in the
remote-file map of `sync`, and a download worker that receives one does
nothing at all. -/
theorem marker_never_a_file (pfx : GoString) (objectCh : List ObjectInfo)
    (herr : ∀ o ∈ objectCh, o.Err = false) :
    (∃ st, lsCollect pfx objectCh = Except.ok st ∧
        ∀ f ∈ st.files, strings.HasSuffix f.Key (ascii "/") = false) ∧
      (∀ (env : GetEnv) (flags : GetFlags) (localPath : GoString) (obj : ObjectInfo),
        strings.HasSuffix obj.Key (ascii "/") = true →
        getWorkerJob env flags localPath pfx obj = []) ∧
      (∃ mp, syncRemoteFiles pfx objectCh = Except.ok mp ∧
        ∀ rel o, mp rel = some o → strings.HasSuffix o.Key (ascii "/") = false) := by
  refine ⟨?_, ?_, ?_⟩
  · obtain ⟨st, h1, -, -, -, -, -, -, h8⟩ :=
      lsLoop_spec pfx objectCh ⟨[], []⟩ herr List.nodup_nil
    refine ⟨st, h1, ?_⟩
    intro f hf
    have h6 : f ∈ objectCh ∧ strings.TrimPrefix f.Key pfx ≠ [] ∧
        slash ∉ strings.TrimPrefix f.Key pfx := by
      rcases h8 f hf with h | h
      · cases h
      · exact h
    obtain ⟨-, hne, hns⟩ := h6
    rw [← Bool.not_eq_true]
    intro hm
    rcases marker_name f.Key pfx hm with h | h
    · exact hne h
    · exact hns h
  · intro env flags localPath obj hm
    unfold getWorkerJob
    rw [if_pos hm]
  · have h := syncRemoteLoop_spec pfx objectCh (fun _ => none) (by intro rel o h; cases h)
    obtain ⟨mp, hmp⟩ := h.1 herr
    exact ⟨mp, hmp, h.2 mp hmp⟩

/-- Witness of C9: the listing `a/b.txt`, `a/c/d.txt`, `a/c/e`, `a/` under the
prefix `a/`; the marker `a/` is in neither the file list nor the map, and the
worker that receives it does nothing. -/
theorem marker_never_a_file_witness :
    ((∃ st, lsCollect (ascii "a/") exampleListing = Except.ok st ∧
        ∀ f ∈ st.files, strings.HasSuffix f.Key (ascii "/") = false) ∧
      (∃ mp, syncRemoteFiles (ascii "a/") exampleListing = Except.ok mp ∧
        ∀ rel o, mp rel = some o → strings.HasSuffix o.Key (ascii "/") = false)) ∧
      getWorkerJob exampleGetEnv ⟨false, [], []⟩ (ascii "out") (ascii "a/")
        (exampleObject (ascii "a/")) = [] :=
  ⟨⟨(marker_never_a_file (ascii "a/") exampleListing (by decide)).1,
    (marker_never_a_file (ascii "a/") exampleListing (by decide)).2.2⟩,
   (marker_never_a_file (ascii "a/") exampleListing (by decide)).2.1 exampleGetEnv
    ⟨false, [], []⟩ (ascii "out") (exampleObject (ascii "a/")) (by decide)⟩

/-! ## Recursive tree build -/

theorem tree_get_set (t : Tree) (k k1 : GoString) (v : List GoString) :
    (Tree.set t k v).get k1 = if k1 = k then v else t.get k1 := by
  unfold Tree.get Tree.set
  split_ifs <;> rfl

theorem tree_get_of_none (t : Tree) (k : GoString) (h : (t k).isNone = true) : t.get k = [] := by
  unfold Tree.get
  cases hk : t k with
  | none => rfl
  | some v => rw [hk] at h; cases h

/-- A step of the tree build removes no child from any directory. -/
theorem treeAddPart_mono (path : GoString) (parts : List GoString) (tree : Tree) (i : Nat)
    (k x : GoString) (h : x ∈ tree.get k) : x ∈ (treeAddPart path parts tree i).get k := by
  have hset : ∀ (t : Tree) (k0 y : GoString), x ∈ t.get k →
      x ∈ (Tree.set t k0 (t.get k0 ++ [y])).get k := by
    intro t k0 y hx
    rw [tree_get_set]
    split_ifs with hk
    · subst hk
      exact List.mem_append_left _ hx
    · exact hx
  have hnew : ∀ (t : Tree) (k0 : GoString), (t k0).isNone = true → x ∈ t.get k →
      x ∈ (Tree.set t k0 []).get k := by
    intro t k0 hn hx
    rw [tree_get_set]
    split_ifs with hk
    · subst hk
      rw [tree_get_of_none t k hn] at hx
      exact hx
    · exact hx
  unfold treeAddPart
  dsimp only
  split_ifs <;>
    first
    | exact h
    | exact hset _ _ _ h
    | exact hnew _ _ (by assumption) h
    | exact hset _ _ _ (hnew _ _ (by assumption) h)

theorem treeFold_mono (path : GoString) (parts : List GoString) (k x : GoString) :
    ∀ (idx : List Nat) (tree : Tree), x ∈ tree.get k →
      x ∈ (idx.foldl (treeAddPart path parts) tree).get k := by
  intro idx
  induction idx with
  | nil => intro tree h; exact h
  | cons j rest ih =>
    intro tree h
    exact ih _ (treeAddPart_mono path parts tree j k x h)

theorem treeFold_mem (path : GoString) (parts : List GoString) (k x : GoString) (i : Nat)
    (hstep : ∀ t, x ∈ (treeAddPart path parts t i).get k) :
    ∀ (idx : List Nat) (tree : Tree), i ∈ idx →
      x ∈ (idx.foldl (treeAddPart path parts) tree).get k := by
  intro idx
  induction idx with
  | nil => intro tree h; cases h
  | cons j rest ih =>
    intro tree h
    rcases List.mem_cons.1 h with rfl | h
    · exact treeFold_mono path parts k x rest _ (hstep tree)
    · exact ih _ h

theorem treeAddPath_mono (tree : Tree) (path k x : GoString) (h : x ∈ tree.get k) :
    x ∈ (treeAddPath tree path).get k :=
  treeFold_mono path _ k x _ tree h

/-- With a listing free of error items the build ends with a tree; it keeps
what the starting tree had and what the pass for any of its paths adds. -/
theorem treeLoop_spec (pfx : GoString) :
    ∀ (objs : List ObjectInfo) (t0 : Tree), (∀ o ∈ objs, o.Err = false) →
      ∃ tree, treeLoop pfx objs t0 = Except.ok tree ∧
        (∀ k x, x ∈ t0.get k → x ∈ tree.get k) ∧
        (∀ o ∈ objs, strings.TrimPrefix o.Key pfx ≠ [] → ∀ k x,
          (∀ t, x ∈ (treeAddPath t (strings.TrimPrefix o.Key pfx)).get k) →
          x ∈ tree.get k) := by
  intro objs
  induction objs with
  | nil =>
    intro t0 _
    exact ⟨t0, rfl, fun _ _ h => h, fun o ho => (List.not_mem_nil o ho).elim⟩
  | cons o rest ih =>
    intro t0 herr
    have ho : o.Err = false := herr o (List.mem_cons_self _ _)
    have hrest : ∀ x ∈ rest, x.Err = false := fun x hx => herr x (List.mem_cons_of_mem _ hx)
    unfold treeLoop
    simp only [ho, Bool.false_eq_true, if_false]
    by_cases hp : strings.TrimPrefix o.Key pfx = []
    · rw [if_pos hp]
      obtain ⟨tree, h1, h2, h3⟩ := ih t0 hrest
      refine ⟨tree, h1, h2, ?_⟩
      intro y hy hne k x hx
      rcases List.mem_cons.1 hy with rfl | hy
      · exact absurd hp hne
      · exact h3 y hy hne k x hx
    · rw [if_neg hp]
      obtain ⟨tree, h1, h2, h3⟩ := ih (treeAddPath t0 (strings.TrimPrefix o.Key pfx)) hrest
      refine ⟨tree, h1, ?_, ?_⟩
      · intro k x hx
        exact h2 k x (treeAddPath_mono t0 _ k x hx)
      · intro y hy hne k x hx
        rcases List.mem_cons.1 hy with rfl | hy
        · exact h2 k x (hx t0)
        · exact h3 y hy hne k x hx

theorem split_no_sep (a : GoString) (sep : Nat) (h : sep ∉ a) : strings.Split a sep = [a] := by
  induction a with
  | nil => rfl
  | cons c a ih =>
    have hc : c ≠ sep := fun e => h (e ▸ List.mem_cons_self _ _)
    have ha : sep ∉ a := fun e => h (List.mem_cons_of_mem _ e)
    unfold strings.Split
    rw [if_neg hc, ih ha]

theorem split_append_sep (a rest : GoString) (sep : Nat) (h : sep ∉ a) :
    strings.Split (a ++ sep :: rest) sep = a :: strings.Split rest sep := by
  induction a with
  | nil =>
    rw [List.nil_append, strings.Split, if_pos rfl]
  | cons c a ih =>
    have hc : c ≠ sep := fun e => h (e ▸ List.mem_cons_self _ _)
    have ha : sep ∉ a := fun e => h (List.mem_cons_of_mem _ e)
    rw [List.cons_append, strings.Split, if_neg hc, ih ha]

theorem join_cons_cons (a b : GoString) (rest : List GoString) (sep : GoString) :
    strings.Join (a :: b :: rest) sep = a ++ sep ++ strings.Join (b :: rest) sep := by
  rw [strings.Join]

/-- Splitting what `Join` made of pieces that have no `/` gives the pieces back. -/
theorem split_join (segs : List GoString) (hne : segs ≠ [])
    (h : ∀ s ∈ segs, slash ∉ s) :
    strings.Split (strings.Join segs [slash]) slash = segs := by
  induction segs with
  | nil => exact absurd rfl hne
  | cons a rest ih =>
    cases rest with
    | nil =>
      rw [strings.Join]
      exact split_no_sep a slash (h a (List.mem_cons_self _ _))
    | cons b rest2 =>
      rw [join_cons_cons, List.append_assoc, List.singleton_append,
        split_append_sep _ _ _ (h a (List.mem_cons_self _ _)),
        ih (List.cons_ne_nil _ _) (fun s hs => h s (List.mem_cons_of_mem _ hs))]

theorem join_ne_nil (segs : List GoString) (sep : GoString) (hne : segs ≠ [])
    (h : ∀ s ∈ segs, s ≠ []) : strings.Join segs sep ≠ [] := by
  cases segs with
  | nil => exact absurd rfl hne
  | cons a rest =>
    have ha : a ≠ [] := h a (List.mem_cons_self _ _)
    cases rest with
    | nil => rw [strings.Join]; exact ha
    | cons b rest2 =>
      rw [join_cons_cons, List.append_assoc]
      intro hcon
      exact ha (List.append_eq_nil.1 hcon).1

theorem join_append_singleton (ds : List GoString) (f sep : GoString) :
    ∃ x, strings.Join (ds ++ [f]) sep = x ++ f := by
  induction ds with
  | nil => exact ⟨[], by rw [List.nil_append, strings.Join]; rfl⟩
  | cons a rest ih =>
    obtain ⟨x, hx⟩ := ih
    cases rest with
    | nil =>
      refine ⟨a ++ sep, ?_⟩
      rw [List.cons_append, List.nil_append, join_cons_cons, strings.Join]
    | cons b rest2 =>
      refine ⟨a ++ sep ++ x, ?_⟩
      rw [List.cons_append, List.cons_append, join_cons_cons, ← List.cons_append, hx,
        List.append_assoc, List.append_assoc, List.append_assoc]

/-- A path whose last segment is non-empty and has no `/` does not end in `/`. -/
theorem join_not_marker (ds : List GoString) (f : GoString) (hf : f ≠ []) (hs : slash ∉ f) :
    strings.HasSuffix (strings.Join (ds ++ [f]) (ascii "/")) (ascii "/") = false := by
  rw [← Bool.not_eq_true, hasSuffix_slash_iff]
  rintro ⟨r, hr⟩
  obtain ⟨x, hx⟩ := join_append_singleton ds f (ascii "/")
  rw [hx] at hr
  rcases List.eq_nil_or_concat f with rfl | ⟨f1, l, rfl⟩
  · exact hf rfl
  · rw [List.concat_eq_append, ← List.append_assoc] at hr
    have := List.append_inj_right' hr rfl
    have hl : l = slash := List.singleton_inj.1 this
    apply hs
    rw [List.concat_eq_append, hl]
    simp

theorem treeAddPart_file (path : GoString) (parts : List GoString) (t : Tree) (i : Nat)
    (hi : i = parts.length - 1) (hs : strings.HasSuffix path (ascii "/") = false) :
    parts.getD i [] ∈ (treeAddPart path parts t i).get
      (if strings.Join (parts.take i) (ascii "/") = [] then ascii "/"
       else strings.Join (parts.take i) (ascii "/")) := by
  unfold treeAddPart
  rw [if_pos ⟨hi, by simp [hs]⟩]
  dsimp only
  rw [tree_get_set, if_pos rfl]
  exact List.mem_append_right _ (List.mem_singleton_self _)

theorem treeAddPart_dir (path : GoString) (parts : List GoString) (t : Tree) (i : Nat)
    (hi : i ≠ parts.length - 1) :
    parts.getD i [] ++ ascii "/" ∈ (treeAddPart path parts t i).get
      (if i > 0 then strings.Join (parts.take i) (ascii "/") else ascii "/") := by
  unfold treeAddPart
  rw [if_neg (fun h => hi h.1)]
  dsimp only
  generalize (if i > 0 then strings.Join (parts.take i) (ascii "/") else ascii "/") = parentPath
  generalize (if (t (strings.Join (List.take (i + 1) parts) (ascii "/"))).isNone = true then
    Tree.set t (strings.Join (List.take (i + 1) parts) (ascii "/")) [] else t) = t1
  by_cases hc : containsStr (t1.get parentPath) (parts.getD i [] ++ ascii "/") = true
  · rw [if_neg (by rw [hc]; decide)]
    exact (contains_iff _ _).1 hc
  · rw [Bool.not_eq_true] at hc
    rw [if_pos (by rw [hc]; decide)]
    rw [tree_get_set, if_pos rfl]
    exact List.mem_append_right _ (List.mem_singleton_self _)

theorem dirKey_take (ds : List GoString) (i : Nat) (hi : i < ds.length) :
    (if i > 0 then strings.Join (ds.take i) (ascii "/") else ascii "/") = dirKey (ds.take i) := by
  unfold dirKey
  by_cases h0 : i > 0
  · rw [if_pos h0, if_neg]
    intro h
    rcases List.take_eq_nil_iff.1 h with h1 | h1
    · omega
    · rw [h1] at hi
      simp at hi
  · have : i = 0 := by omega
    subst this
    simp

theorem dirKey_file (ds : List GoString) (h : ∀ s ∈ ds, s ≠ []) :
    (if strings.Join ds (ascii "/") = [] then ascii "/" else strings.Join ds (ascii "/"))
      = dirKey ds := by
  unfold dirKey
  by_cases hd : ds = []
  · subst hd
    rfl
  · rw [if_neg hd, if_neg (join_ne_nil ds _ hd h)]

/-- What the pass of `treeAction` for the path `d1/.../dn/f` adds, whatever
tree it starts from. -/
theorem treeAddPath_adds (ds : List GoString) (f : GoString)
    (hsegs : ∀ s ∈ ds ++ [f], s ≠ [] ∧ slash ∉ s) (t : Tree) :
    f ∈ (treeAddPath t (strings.Join (ds ++ [f]) (ascii "/"))).get (dirKey ds) ∧
      ∀ i d, ds[i]? = some d →
        d ++ ascii "/" ∈ (treeAddPath t (strings.Join (ds ++ [f]) (ascii "/"))).get
          (dirKey (ds.take i)) := by
  have hf : f ≠ [] ∧ slash ∉ f := hsegs f (by simp)
  have hparts : strings.Split (strings.Join (ds ++ [f]) (ascii "/")) slash = ds ++ [f] := by
    rw [ascii_slash]
    exact split_join _ (by simp) (fun s hs => (hsegs s hs).2)
  have hlen : (ds ++ [f]).length - 1 = ds.length := by simp
  unfold treeAddPath
  dsimp only
  rw [hparts]
  constructor
  · apply treeFold_mem _ _ _ _ ds.length
    · intro t1
      have h := treeAddPart_file (strings.Join (ds ++ [f]) (ascii "/")) (ds ++ [f]) t1 ds.length
        hlen.symm (join_not_marker ds f hf.1 hf.2)
      rw [List.take_left', dirKey_file ds (fun s hs => (hsegs s (by simp [hs])).1)] at h
      · simpa [List.getD_eq_getElem?_getD] using h
      · rfl
    · simp
  · intro i d hid
    have hi : i < ds.length := by
      by_contra hcon
      rw [List.getElem?_eq_none (by omega)] at hid
      cases hid
    apply treeFold_mem _ _ _ _ i
    · intro t1
      have h := treeAddPart_dir (strings.Join (ds ++ [f]) (ascii "/")) (ds ++ [f]) t1 i
        (by rw [hlen]; omega)
      rw [List.take_append_of_le_length (le_of_lt hi), dirKey_take ds i hi] at h
      have hg : (ds ++ [f]).getD i [] = d := by
        rw [List.getD_eq_getElem?_getD, List.getElem?_append_left hi, hid]
        rfl
      rw [hg] at h
      exact h
    · simp
      omega

/-- C10. The recursive tree build attributes every file to its deepest
parent, marker objects or not: for a listing without error items and a key in
it whose prefix-stripped path is `d1/.../dn/f` (segments non-empty, without
`/`), the built tree has `f` among the children of `d1/.../dn` (of the root
`/` when `n = 0`) and `di/` among the children of `d1/.../d(i-1)` for every
`i`: a chain of entries from the root to `f`. -/
theorem tree_attributes_files (pfx : GoString) (objectCh : List ObjectInfo) (o : ObjectInfo)
    (ds : List GoString) (f : GoString)
    (herr : ∀ x ∈ objectCh, x.Err = false) (ho : o ∈ objectCh)
    (hsegs : ∀ s ∈ ds ++ [f], s ≠ [] ∧ slash ∉ s)
    (hpath : strings.TrimPrefix o.Key pfx = strings.Join (ds ++ [f]) (ascii "/")) :
    ∃ tree, treeBuild pfx objectCh = Except.ok tree ∧
      f ∈ tree.get (dirKey ds) ∧
      ∀ i d, ds[i]? = some d → d ++ ascii "/" ∈ tree.get (dirKey (ds.take i)) := by
  obtain ⟨tree, h1, -, h3⟩ := treeLoop_spec pfx objectCh (fun _ => none) herr
  have hne : strings.TrimPrefix o.Key pfx ≠ [] := by
    rw [hpath]
    exact join_ne_nil _ _ (by simp) (fun s hs => (hsegs s hs).1)
  refine ⟨tree, h1, ?_, ?_⟩
  · apply h3 o ho hne
    intro t
    rw [hpath]
    exact (treeAddPath_adds ds f hsegs t).1
  · intro i d hid
    apply h3 o ho hne
    intro t
    rw [hpath]
    exact (treeAddPath_adds ds f hsegs t).2 i d hid

/-- Witness of C10: the keys `a/b.txt` and `a/c/d.txt` under the empty prefix.
The root has exactly `a/`, `a` has `b.txt` and `c/`, `a/c` has `d.txt`. -/
theorem tree_attributes_files_witness :
    (∃ tree, treeBuild [] [exampleObject (ascii "a/b.txt"), exampleObject (ascii "a/c/d.txt")]
        = Except.ok tree ∧
      ascii "d.txt" ∈ tree.get (ascii "a/c") ∧
      ∀ i d, [ascii "a", ascii "c"][i]? = some d →
        d ++ ascii "/" ∈ tree.get (dirKey ([ascii "a", ascii "c"].take i))) ∧
      (∃ tree, treeBuild [] [exampleObject (ascii "a/b.txt"), exampleObject (ascii "a/c/d.txt")]
        = Except.ok tree ∧
      tree.get (ascii "/") = [ascii "a/"] ∧
      tree.get (ascii "a") = [ascii "b.txt", ascii "c/"] ∧
      tree.get (ascii "a/c") = [ascii "d.txt"]) :=
  ⟨tree_attributes_files [] [exampleObject (ascii "a/b.txt"), exampleObject (ascii "a/c/d.txt")]
      (exampleObject (ascii "a/c/d.txt")) [ascii "a", ascii "c"] (ascii "d.txt")
      (by decide) (by decide) (by decide) (by decide),
    ⟨_, rfl, by decide, by decide, by decide⟩⟩

/-! ## The target of `cd ..` in general -/

theorem trimSuffix_of_not_marker (s : GoString)
    (h : strings.HasSuffix s (ascii "/") = false) : strings.TrimSuffix s (ascii "/") = s := by
  unfold strings.TrimSuffix
  rw [h]
  rfl

/-- From the path `/s1/.../sn` (segments non-empty, without `/`) `cd ..` aims
at `/` followed by the join of the empty piece and `s1 .. s(n-1)`: that is `/`
for `n = 1` and `//s1/.../s(n-1)` for `n ≥ 2`. -/
theorem cdNewPath_dotdot (m : SessionManager) (session : Session) (segs : List GoString)
    (hne : segs ≠ []) (hsegs : ∀ s ∈ segs, s ≠ [] ∧ slash ∉ s)
    (hcur : session.CurrentPath = ascii "/" ++ strings.Join segs (ascii "/")) :
    cdNewPath m session (ascii "..") =
      Except.ok (some (ascii "/" ++ strings.Join ([] :: segs.dropLast) (ascii "/"))) := by
  have hjoin : session.CurrentPath = strings.Join ([] :: segs) (ascii "/") := by
    rw [hcur]
    cases segs with
    | nil => exact absurd rfl hne
    | cons a rest => rw [join_cons_cons]; rfl
  obtain ⟨init, last, hlast⟩ : ∃ init last, segs = init ++ [last] := by
    rcases List.eq_nil_or_concat segs with h | ⟨init, last, h⟩
    · exact absurd h hne
    · exact ⟨init, last, by rw [h, List.concat_eq_append]⟩
  have hl : last ≠ [] ∧ slash ∉ last := hsegs last (by rw [hlast]; simp)
  have hmarker : strings.HasSuffix session.CurrentPath (ascii "/") = false := by
    rw [hjoin, hlast, ← List.cons_append]
    exact join_not_marker _ last hl.1 hl.2
  have hroot : session.CurrentPath ≠ ascii "/" := by
    intro h
    rw [h] at hmarker
    revert hmarker
    decide
  have hparts : strings.Split session.CurrentPath slash = [] :: segs := by
    rw [hjoin, ascii_slash]
    apply split_join _ (List.cons_ne_nil _ _)
    intro s hs
    rcases List.mem_cons.1 hs with rfl | hs
    · simp
    · exact (hsegs s hs).2
  unfold cdNewPath
  rw [if_pos rfl, if_neg hroot, trimSuffix_of_not_marker _ hmarker]
  dsimp only
  rw [hparts, if_neg (by rw [hlast]; simp)]
  have htake : List.take (([] :: segs).length - 1) ([] :: segs) = [] :: segs.dropLast := by
    rw [hlast]
    simp [List.dropLast_concat]
  rw [htake]

/-! ## Directory markers in the tree, tree rendering -/

/-- C11. The key `a/` alone: the root gets the entry `a/` as claimed, but the
marker also adds a child to `a`. `Split("a/", "/")` ends in an empty piece,
which the loop files as a directory of its own: `a` gets the child `/` and the
map gets the key `a/`. The same happens one level down for `a/b/`. -/
theorem tree_marker_adds_child :
    (∃ tree, treeBuild [] [exampleObject (ascii "a/")] = Except.ok tree ∧
      tree.get (ascii "/") = [ascii "a/"] ∧
      tree.get (ascii "a") = [ascii "/"] ∧
      tree (ascii "a/") = some []) ∧
    (∃ tree, treeBuild [] [exampleObject (ascii "a/b/")] = Except.ok tree ∧
      tree.get (ascii "/") = [ascii "a/"] ∧
      tree.get (ascii "a") = [ascii "b/"] ∧
      tree.get (ascii "a/b") = [ascii "/"]) :=
  ⟨⟨_, rfl, by decide, by decide, by decide⟩, ⟨_, rfl, by decide, by decide, by decide⟩⟩

/-- C12. On the tree built from the keys `a/b.txt` and `a/c/d.txt`,
`printTree` from the root prints the one line `└── a/` and nothing for the
subtree of `a`: it looks `a` up under `/a`, where `treeAction` filed nothing,
while the children of `a` are under the key `a`. Rendered from the key `a`
itself, the subtree the first line should be followed by comes out, sorted,
with its connectors and indentation. -/
theorem printTree_skips_subtrees :
    printTree 4 exampleTree (ascii "/") 0 = some [connLast ++ ascii "a/"] ∧
      treeNextPath (ascii "/") (ascii "a/") = ascii "/a" ∧
      exampleTree.get (ascii "/a") = [] ∧
      exampleTree.get (ascii "a") = [ascii "b.txt", ascii "c/"] ∧
      printTree 4 exampleTree (ascii "a") 1 =
        some [indentUnit ++ connMid ++ ascii "b.txt", indentUnit ++ connLast ++ ascii "c/",
          indentUnit ++ indentUnit ++ connLast ++ ascii "d.txt"] := by
  refine ⟨by decide, by decide, by decide, by decide, by decide⟩

/-! ## Resumable download -/

/-- The single-file download on resume, with the local file present and of
size `L`. -/
theorem getSingleFile_resume (env : GetEnv) (localPath : GoString) (obj : ObjectInfo) (L : Int)
    (hfile : env.fileExists localPath = true) (hstat : env.statSize localPath = some L)
    (hmk : env.mkdirAllOk (env.dirOf localPath) = true) :
    getSingleFile env true localPath obj.Key obj =
      if L ≥ obj.Size then
        (none, (if env.dirOf localPath ≠ ascii "." then
          [GetEvent.mkdirAll (env.dirOf localPath)] else []) ++
          [GetEvent.alreadyComplete localPath])
      else if env.openAppendOk localPath = false then
        (some Error.openFailed, (if env.dirOf localPath ≠ ascii "." then
          [GetEvent.mkdirAll (env.dirOf localPath)] else []))
      else if env.getObjectOk obj.Key = false then
        (some Error.getObjectFailed, (if env.dirOf localPath ≠ ascii "." then
          [GetEvent.mkdirAll (env.dirOf localPath)] else []) ++ [GetEvent.openAppend localPath])
      else
        (if env.copyOk localPath = false then some Error.copyFailed else none,
          (if env.dirOf localPath ≠ ascii "." then
            [GetEvent.mkdirAll (env.dirOf localPath)] else []) ++
          [GetEvent.openAppend localPath, GetEvent.getRange obj.Key L (obj.Size - 1),
            GetEvent.progress obj.Size L, GetEvent.copy localPath]) := by
  unfold getSingleFile
  simp only [hfile, hstat, hmk, Bool.not_true, Bool.false_eq_true, and_false, if_false, and_self,
    if_true, Bool.not_eq_true']
  split_ifs <;> rfl

/-- The worker of the directory download on resume, with the local file
present and of size `L`, the directory made and the path within the bounds. -/
theorem getWorkerJob_resume (env : GetEnv) (flags : GetFlags) (dir pfx localPath : GoString)
    (obj : ObjectInfo) (L : Int)
    (hkey : strings.HasSuffix obj.Key (ascii "/") = false)
    (hpath : env.joinPath dir (strings.TrimPrefix obj.Key pfx) = localPath)
    (hres : flags.resume = true)
    (hlo : ¬ (flags.start ≠ [] ∧ strLess (strings.TrimPrefix obj.Key pfx) flags.start = true))
    (hhi : ¬ (flags.stop ≠ [] ∧ ¬ strLess (strings.TrimPrefix obj.Key pfx) flags.stop = true))
    (hfile : env.fileExists localPath = true) (hstat : env.statSize localPath = some L)
    (hmk : env.mkdirAllOk (env.dirOf localPath) = true) :
    getWorkerJob env flags dir pfx obj =
      GetEvent.mkdirAll (env.dirOf localPath) ::
      (if L ≥ obj.Size then [GetEvent.alreadyComplete localPath]
       else if env.openAppendOk localPath = false then [GetEvent.logError localPath]
       else if env.getObjectOk obj.Key = false then
        [GetEvent.openAppend localPath, GetEvent.logError obj.Key]
       else if env.copyOk localPath = false then
        [GetEvent.openAppend localPath, GetEvent.getRange obj.Key L (obj.Size - 1),
          GetEvent.copy localPath, GetEvent.logError localPath]
       else
        [GetEvent.openAppend localPath, GetEvent.getRange obj.Key L (obj.Size - 1),
          GetEvent.copy localPath]) := by
  unfold getWorkerJob
  simp only [hkey, hpath, Bool.false_eq_true, if_false, hmk, Bool.not_true, hres, hfile, and_self,
    if_true, hstat, Bool.not_eq_true']
  rw [if_neg hlo, if_neg hhi]

theorem localSizeAfter_append (remoteSize size : Int) (pre events : List GetEvent) :
    localSizeAfter remoteSize size (pre ++ events) =
      (events.foldl (GetEvent.apply remoteSize)
        (pre.foldl (GetEvent.apply remoteSize) (size, 0))).1 := by
  simp [localSizeAfter, List.foldl_append]

/-- C13. Resume decision, single and bulk download, with the resume flag set
and the local file present with size `L`, the remote size being `R` (the
directory of the file can be made and, for the bulk download, the path is
within the bounds). What the single download returns and does, and what the
worker of the bulk download does, is in every case exactly this:
* `L ≥ R`: nothing is opened or requested, no error is returned;
* `L < R` and the file does not open for appending: nothing is requested,
  the error is returned (logged by the worker);
* `L < R`, the file opens and `GetObject` fails: the error, nothing copied;
* `L < R`, the file opens and `GetObject` succeeds: the one request is the
  range `[L, R-1]`, the single download makes its progress bar with total `R`
  and current `L`, and the data is copied into the file opened for
  appending; a failing copy is the returned (logged) error.
When nothing fails the local file of `L` bytes has `R` bytes afterwards, for
a backend that sends exactly the range asked for; when `L ≥ R` it keeps its
`L` bytes. -/
theorem resume_decision (env : GetEnv) (flags : GetFlags) (dir pfx localPath : GoString)
    (obj : ObjectInfo) (L : Int)
    (hkey : strings.HasSuffix obj.Key (ascii "/") = false)
    (hpath : env.joinPath dir (strings.TrimPrefix obj.Key pfx) = localPath)
    (hres : flags.resume = true)
    (hlo : ¬ (flags.start ≠ [] ∧ strLess (strings.TrimPrefix obj.Key pfx) flags.start = true))
    (hhi : ¬ (flags.stop ≠ [] ∧ ¬ strLess (strings.TrimPrefix obj.Key pfx) flags.stop = true))
    (hfile : env.fileExists localPath = true) (hstat : env.statSize localPath = some L)
    (hmk : env.mkdirAllOk (env.dirOf localPath) = true) :
    getSingleFile env true localPath obj.Key obj =
      (if L ≥ obj.Size then
        (none, (if env.dirOf localPath ≠ ascii "." then
          [GetEvent.mkdirAll (env.dirOf localPath)] else []) ++
          [GetEvent.alreadyComplete localPath])
      else if env.openAppendOk localPath = false then
        (some Error.openFailed, (if env.dirOf localPath ≠ ascii "." then
          [GetEvent.mkdirAll (env.dirOf localPath)] else []))
      else if env.getObjectOk obj.Key = false then
        (some Error.getObjectFailed, (if env.dirOf localPath ≠ ascii "." then
          [GetEvent.mkdirAll (env.dirOf localPath)] else []) ++ [GetEvent.openAppend localPath])
      else
        (if env.copyOk localPath = false then some Error.copyFailed else none,
          (if env.dirOf localPath ≠ ascii "." then
            [GetEvent.mkdirAll (env.dirOf localPath)] else []) ++
          [GetEvent.openAppend localPath, GetEvent.getRange obj.Key L (obj.Size - 1),
            GetEvent.progress obj.Size L, GetEvent.copy localPath])) ∧
    getWorkerJob env flags dir pfx obj =
      GetEvent.mkdirAll (env.dirOf localPath) ::
      (if L ≥ obj.Size then [GetEvent.alreadyComplete localPath]
       else if env.openAppendOk localPath = false then [GetEvent.logError localPath]
       else if env.getObjectOk obj.Key = false then
        [GetEvent.openAppend localPath, GetEvent.logError obj.Key]
       else if env.copyOk localPath = false then
        [GetEvent.openAppend localPath, GetEvent.getRange obj.Key L (obj.Size - 1),
          GetEvent.copy localPath, GetEvent.logError localPath]
       else
        [GetEvent.openAppend localPath, GetEvent.getRange obj.Key L (obj.Size - 1),
          GetEvent.copy localPath]) ∧
    (L < obj.Size → env.openAppendOk localPath = true → env.getObjectOk obj.Key = true →
      env.copyOk localPath = true →
        (getSingleFile env true localPath obj.Key obj).1 = none ∧
        localSizeAfter obj.Size L (getSingleFile env true localPath obj.Key obj).2 = obj.Size ∧
        localSizeAfter obj.Size L (getWorkerJob env flags dir pfx obj) = obj.Size) ∧
    (L ≥ obj.Size →
        (getSingleFile env true localPath obj.Key obj).1 = none ∧
        localSizeAfter obj.Size L (getSingleFile env true localPath obj.Key obj).2 = L ∧
        localSizeAfter obj.Size L (getWorkerJob env flags dir pfx obj) = L) := by
  have h1 := getSingleFile_resume env localPath obj L hfile hstat hmk
  have h2 := getWorkerJob_resume env flags dir pfx localPath obj L hkey hpath hres hlo hhi hfile
    hstat hmk
  refine ⟨h1, h2, ?_, ?_⟩
  · intro h ho hg hc
    have hn : ¬ L ≥ obj.Size := by omega
    rw [h1, h2, if_neg hn, if_neg hn]
    simp only [ho, hg, hc, Bool.true_eq_false, if_false]
    refine ⟨trivial, ?_, ?_⟩
    · rw [localSizeAfter_append]
      by_cases hd : env.dirOf localPath = ascii "."
      · simp only [hd, ne_eq, not_true_eq_false, if_false, List.foldl, GetEvent.apply]
        omega
      · simp only [hd, ne_eq, not_false_eq_true, if_true, List.foldl, GetEvent.apply]
        omega
    · simp only [localSizeAfter, List.foldl, GetEvent.apply]
      omega
  · intro h
    rw [h1, h2, if_pos h, if_pos h]
    refine ⟨rfl, ?_, ?_⟩
    · rw [localSizeAfter_append]
      by_cases hd : env.dirOf localPath = ascii "."
      · simp only [hd, ne_eq, not_true_eq_false, if_false, List.foldl, GetEvent.apply]
      · simp only [hd, ne_eq, not_false_eq_true, if_true, List.foldl, GetEvent.apply]
    · simp only [localSizeAfter, List.foldl, GetEvent.apply]

/-- Witness of C13: a local file of 100 bytes against a remote object of 100
bytes asks for nothing and keeps its 100 bytes; one of 50 bytes asks once,
for the range `[50, 99]`, copies it into the file opened for appending, and
has 100 bytes afterwards. -/
theorem resume_decision_witness :
    (getSingleFile (examplePartialEnv 100) true (ascii "out/f") (ascii "a/f")
        (exampleSized (ascii "a/f") 100) =
        (none, [GetEvent.mkdirAll (ascii "out/f"), GetEvent.alreadyComplete (ascii "out/f")]) ∧
      getWorkerJob (examplePartialEnv 100) ⟨true, [], []⟩ (ascii "out") (ascii "a/")
        (exampleSized (ascii "a/f") 100) =
        [GetEvent.mkdirAll (ascii "out/f"), GetEvent.alreadyComplete (ascii "out/f")]) ∧
    (getSingleFile (examplePartialEnv 50) true (ascii "out/f") (ascii "a/f")
        (exampleSized (ascii "a/f") 100) =
        (none, [GetEvent.mkdirAll (ascii "out/f"), GetEvent.openAppend (ascii "out/f"),
          GetEvent.getRange (ascii "a/f") 50 99, GetEvent.progress 100 50,
          GetEvent.copy (ascii "out/f")]) ∧
      getWorkerJob (examplePartialEnv 50) ⟨true, [], []⟩ (ascii "out") (ascii "a/")
        (exampleSized (ascii "a/f") 100) =
        [GetEvent.mkdirAll (ascii "out/f"), GetEvent.openAppend (ascii "out/f"),
          GetEvent.getRange (ascii "a/f") 50 99, GetEvent.copy (ascii "out/f")]) ∧
    (localSizeAfter (exampleSized (ascii "a/f") 100).Size 50
        (getSingleFile (examplePartialEnv 50) true (ascii "out/f")
          (exampleSized (ascii "a/f") 100).Key (exampleSized (ascii "a/f") 100)).2 =
        (exampleSized (ascii "a/f") 100).Size ∧
      localSizeAfter (exampleSized (ascii "a/f") 100).Size 50
        (getWorkerJob (examplePartialEnv 50) ⟨true, [], []⟩ (ascii "out") (ascii "a/")
          (exampleSized (ascii "a/f") 100)) = (exampleSized (ascii "a/f") 100).Size) := by
  have h := (resume_decision (examplePartialEnv 50) ⟨true, [], []⟩ (ascii "out") (ascii "a/")
    (ascii "out/f") (exampleSized (ascii "a/f") 100) 50 (by decide) (by decide) rfl
    (by decide) (by decide) rfl rfl rfl).2.2.1 (by decide) rfl rfl rfl
  exact ⟨⟨by decide, by decide⟩, ⟨by decide, by decide⟩, ⟨h.2.1, h.2.2⟩⟩

/-! ## Sync: the upload decision -/

theorem needUpload_iff (remoteFiles : RemoteFiles) (relPath : GoString) (info : FileInfo) :
    needUpload remoteFiles relPath info = true ↔
      (remoteFiles relPath = none ∨
        ∃ o, remoteFiles relPath = some o ∧
          (info.Size ≠ o.Size ∨ o.LastModified < info.ModTime)) := by
  unfold needUpload
  cases h : remoteFiles relPath with
  | none => simp
  | some o =>
    simp only [false_or, Option.some.injEq, exists_eq_left', gt_iff_lt, reduceCtorEq]
    by_cases hs : info.Size = o.Size
    · by_cases ht : o.LastModified < info.ModTime <;> simp [hs, ht]
    · simp [hs]

/-- C14. Sync upload decision, for a local path that `os.Stat` reports as a
file: the worker sets `needUpload`, and so goes on to open the file for
upload, exactly when the remote map has no entry for the relative path, or the
sizes differ, or the local modification time is strictly after the remote
one; `PutObject` is called exactly when that holds and the file opens. Equal
size and a local time not after the remote one give no upload; equal size and
a strictly newer local file give one. -/
theorem sync_upload_decision (env : SyncEnv) (localPath objectPrefix : GoString)
    (remoteFiles : RemoteFiles) (relPath : GoString) (info : FileInfo)
    (hstat : env.stat (env.joinPath localPath relPath) = some info)
    (hfile : info.IsDir = false) :
    (SyncEvent.openFile (env.joinPath localPath relPath) ∈
        syncWorkerJob env localPath objectPrefix remoteFiles relPath ↔
      (remoteFiles relPath = none ∨
        ∃ o, remoteFiles relPath = some o ∧
          (info.Size ≠ o.Size ∨ o.LastModified < info.ModTime))) ∧
    (SyncEvent.putObject (objectPrefix ++ relPath) info.Size ∈
        syncWorkerJob env localPath objectPrefix remoteFiles relPath ↔
      (remoteFiles relPath = none ∨
        ∃ o, remoteFiles relPath = some o ∧
          (info.Size ≠ o.Size ∨ o.LastModified < info.ModTime)) ∧
      env.openOk (env.joinPath localPath relPath) = true) ∧
    (∀ o, remoteFiles relPath = some o → info.Size = o.Size →
      info.ModTime ≤ o.LastModified →
      syncWorkerJob env localPath objectPrefix remoteFiles relPath =
        [SyncEvent.markProcessed relPath]) ∧
    (∀ o, remoteFiles relPath = some o → info.Size = o.Size →
      o.LastModified < info.ModTime → env.openOk (env.joinPath localPath relPath) = true →
      SyncEvent.putObject (objectPrefix ++ relPath) info.Size ∈
        syncWorkerJob env localPath objectPrefix remoteFiles relPath) := by
  have hshape : syncWorkerJob env localPath objectPrefix remoteFiles relPath =
      SyncEvent.markProcessed relPath ::
      (if needUpload remoteFiles relPath info = true then
        if env.openOk (env.joinPath localPath relPath) = false then
          [SyncEvent.openFile (env.joinPath localPath relPath),
            SyncEvent.logError (env.joinPath localPath relPath)]
        else if env.putObjectOk (objectPrefix ++ relPath) = false then
          [SyncEvent.openFile (env.joinPath localPath relPath),
            SyncEvent.putObject (objectPrefix ++ relPath) info.Size,
            SyncEvent.logError (env.joinPath localPath relPath)]
        else
          [SyncEvent.openFile (env.joinPath localPath relPath),
            SyncEvent.putObject (objectPrefix ++ relPath) info.Size]
      else []) := by
    unfold syncWorkerJob
    simp only [hstat, hfile, Bool.false_eq_true, if_false, Bool.not_eq_true']
  have hopen : SyncEvent.openFile (env.joinPath localPath relPath) ∈
      syncWorkerJob env localPath objectPrefix remoteFiles relPath ↔
      needUpload remoteFiles relPath info = true := by
    rw [hshape]
    by_cases hn : needUpload remoteFiles relPath info = true <;>
    by_cases ho : env.openOk (env.joinPath localPath relPath) = false <;>
    by_cases hp : env.putObjectOk (objectPrefix ++ relPath) = false <;>
    simp [hn, ho, hp]
  have hput : SyncEvent.putObject (objectPrefix ++ relPath) info.Size ∈
      syncWorkerJob env localPath objectPrefix remoteFiles relPath ↔
      needUpload remoteFiles relPath info = true ∧
        env.openOk (env.joinPath localPath relPath) = true := by
    rw [hshape]
    by_cases hn : needUpload remoteFiles relPath info = true <;>
    by_cases ho : env.openOk (env.joinPath localPath relPath) = false <;>
    by_cases hp : env.putObjectOk (objectPrefix ++ relPath) = false <;>
    simp [hn, ho, hp]
  refine ⟨?_, ?_, ?_, ?_⟩
  · rw [hopen, needUpload_iff]
  · rw [hput, needUpload_iff]
  · intro o ho hs ht
    have hn : needUpload remoteFiles relPath info = false := by
      rw [← Bool.not_eq_true, needUpload_iff]
      rintro (h | ⟨o1, h1, h2⟩)
      · rw [ho] at h; cases h
      · rw [ho] at h1
        cases h1
        rcases h2 with h2 | h2
        · exact h2 hs
        · omega
    rw [hshape, hn]
    simp
  · intro o ho hs ht hop
    rw [hput, needUpload_iff]
    exact ⟨Or.inr ⟨o, ho, Or.inr ht⟩, hop⟩

/-- Witness of C14: a local file of 7 bytes against a remote entry of 7 bytes.
Modified at the remote time 10 it is left alone; modified at 11 it is put. -/
theorem sync_upload_decision_witness :
    syncWorkerJob (exampleSyncEnv 7 10) (ascii "loc") (ascii "a/") (exampleRemote 7 10)
        (ascii "f") = [SyncEvent.markProcessed (ascii "f")] ∧
      SyncEvent.putObject (ascii "a/f") 7 ∈
        syncWorkerJob (exampleSyncEnv 7 11) (ascii "loc") (ascii "a/") (exampleRemote 7 10)
          (ascii "f") :=
  ⟨(sync_upload_decision (exampleSyncEnv 7 10) (ascii "loc") (ascii "a/") (exampleRemote 7 10)
      (ascii "f") ⟨false, 7, 10⟩ rfl rfl).2.2.1 _ rfl rfl (by decide),
   (sync_upload_decision (exampleSyncEnv 7 11) (ascii "loc") (ascii "a/") (exampleRemote 7 10)
      (ascii "f") ⟨false, 7, 11⟩ rfl rfl).2.2.2 _ rfl rfl (by decide) rfl⟩

/-! ## Sync: the delete pass -/

theorem syncRemoteLoop_eq (objectPrefix : GoString) :
    ∀ (objs : List ObjectInfo) (mp0 : RemoteFiles), (∀ o ∈ objs, o.Err = false) →
      syncRemoteLoop objectPrefix objs mp0 =
        Except.ok (fun rel => (lastMatch objectPrefix objs rel).orElse (fun _ => mp0 rel)) := by
  intro objs
  induction objs with
  | nil => intro mp0 _; rfl
  | cons o rest ih =>
    intro mp0 herr
    have ho : o.Err = false := herr o (List.mem_cons_self _ _)
    have hrest : ∀ x ∈ rest, x.Err = false := fun x hx => herr x (List.mem_cons_of_mem _ hx)
    unfold syncRemoteLoop
    simp only [ho, Bool.false_eq_true, if_false]
    by_cases hm : strings.HasSuffix o.Key (ascii "/") = true
    · rw [if_pos hm, ih mp0 hrest]
      congr 1
      funext rel
      rw [lastMatch]
      cases lastMatch objectPrefix rest rel with
      | some x => rfl
      | none => simp [hm]
    · rw [if_neg hm, ih _ hrest]
      congr 1
      funext rel
      rw [lastMatch]
      cases lastMatch objectPrefix rest rel with
      | some x => rfl
      | none =>
        have hm2 : strings.HasSuffix o.Key (ascii "/") = false := by simpa using hm
        by_cases hr : strings.TrimPrefix o.Key objectPrefix = rel
        · simp [hm2, hr]
        · have hr2 : ¬ rel = strings.TrimPrefix o.Key objectPrefix := fun h => hr h.symm
          simp [hm2, hr, hr2]

theorem lastMatch_some (objectPrefix : GoString) (rel : GoString) :
    ∀ (objs : List ObjectInfo) (o : ObjectInfo), lastMatch objectPrefix objs rel = some o →
      o ∈ objs ∧ strings.HasSuffix o.Key (ascii "/") = false ∧
        strings.TrimPrefix o.Key objectPrefix = rel := by
  intro objs
  induction objs with
  | nil => intro o h; cases h
  | cons x rest ih =>
    intro o h
    rw [lastMatch] at h
    cases hl : lastMatch objectPrefix rest rel with
    | some y =>
      rw [hl] at h
      cases h
      obtain ⟨h1, h2⟩ := ih _ hl
      exact ⟨List.mem_cons_of_mem _ h1, h2⟩
    | none =>
      rw [hl] at h
      dsimp only at h
      split_ifs at h with hc
      cases h
      exact ⟨List.mem_cons_self _ _, hc⟩

theorem lastMatch_isSome (objectPrefix : GoString) (rel : GoString) :
    ∀ (objs : List ObjectInfo) (o : ObjectInfo), o ∈ objs →
      strings.HasSuffix o.Key (ascii "/") = false →
      strings.TrimPrefix o.Key objectPrefix = rel →
      ∃ x, lastMatch objectPrefix objs rel = some x := by
  intro objs
  induction objs with
  | nil => intro o h; cases h
  | cons y rest ih =>
    intro o ho hm hr
    rw [lastMatch]
    cases hl : lastMatch objectPrefix rest rel with
    | some z => exact ⟨z, rfl⟩
    | none =>
      rcases List.mem_cons.1 ho with h | ho
      · rw [← h]
        exact ⟨o, by simp [hm, hr]⟩
      · obtain ⟨x, hx⟩ := ih o ho hm hr
        rw [hl] at hx
        cases hx

theorem trimPrefix_inj (a b pfx : GoString) (ha : strings.HasPrefix a pfx = true)
    (hb : strings.HasPrefix b pfx = true)
    (h : strings.TrimPrefix a pfx = strings.TrimPrefix b pfx) : a = b := by
  unfold strings.TrimPrefix at h
  rw [if_pos ha, if_pos hb] at h
  unfold strings.HasPrefix at ha hb
  rw [List.isPrefixOf_iff_prefix] at ha hb
  obtain ⟨ta, rfl⟩ := ha
  obtain ⟨tb, rfl⟩ := hb
  rw [List.drop_left, List.drop_left] at h
  rw [h]

theorem removedKeys_append (l1 l2 : List SyncEvent) :
    removedKeys (l1 ++ l2) = removedKeys l1 ++ removedKeys l2 := by
  induction l1 with
  | nil => rfl
  | cons e rest ih =>
    cases e <;> simp [removedKeys, ih]

/-- The keys the delete pass removes, as a filter over the visiting order. -/
theorem removedKeys_deletePass (env : SyncEnv) (remoteFiles : RemoteFiles)
    (processedFiles : GoString → Bool) :
    ∀ order : List GoString,
      removedKeys (syncDeletePass env true remoteFiles order processedFiles) =
        order.filterMap (fun rel =>
          match remoteFiles rel with
          | none => none
          | some info => if processedFiles rel = false then some info.Key else none) := by
  intro order
  unfold syncDeletePass
  rw [if_pos rfl]
  induction order with
  | nil => rfl
  | cons rel rest ih =>
    rw [List.flatMap_cons, removedKeys_append, ih, List.filterMap_cons]
    cases hr : remoteFiles rel with
    | none => simp [removedKeys]
    | some info =>
      by_cases hp : processedFiles rel = false
      · by_cases hk : env.removeObjectOk info.Key = false <;> simp [hp, hk, removedKeys]
      · simp [hp, removedKeys]

/-- C15. Sync delete-extraneous, for a listing under the prefix without error
items: the remote map is built, and for every order in which its keys are
visited and every visited set, with the delete flag set `RemoveObject` is
called once each on exactly the listed keys that do not end in `/` and whose
prefix-stripped path is not in the visited set; without the flag nothing is
done; so no key that ends in `/` is ever removed. -/
theorem sync_delete_extraneous (env : SyncEnv) (objectPrefix : GoString)
    (objectCh : List ObjectInfo)
    (herr : ∀ o ∈ objectCh, o.Err = false)
    (hpfx : ∀ o ∈ objectCh, strings.HasPrefix o.Key objectPrefix = true) :
    ∃ remoteFiles, syncRemoteFiles objectPrefix objectCh = Except.ok remoteFiles ∧
      ∀ (order : List GoString) (processedFiles : GoString → Bool), order.Nodup →
        (∀ k, k ∈ order ↔ (remoteFiles k).isSome = true) →
        (removedKeys (syncDeletePass env true remoteFiles order processedFiles)).Nodup ∧
        (∀ key, key ∈ removedKeys (syncDeletePass env true remoteFiles order processedFiles) ↔
          ((∃ o ∈ objectCh, o.Key = key) ∧ strings.HasSuffix key (ascii "/") = false ∧
            processedFiles (strings.TrimPrefix key objectPrefix) = false)) ∧
        syncDeletePass env false remoteFiles order processedFiles = [] ∧
        (∀ key ∈ removedKeys (syncDeletePass env true remoteFiles order processedFiles),
          strings.HasSuffix key (ascii "/") = false) := by
  have hfun : (fun rel => (lastMatch objectPrefix objectCh rel).orElse
      (fun _ => (none : Option ObjectInfo))) = lastMatch objectPrefix objectCh := by
    funext rel
    cases lastMatch objectPrefix objectCh rel <;> rfl
  refine ⟨lastMatch objectPrefix objectCh, ?_, ?_⟩
  · unfold syncRemoteFiles
    rw [syncRemoteLoop_eq objectPrefix objectCh (fun _ => none) herr, hfun]
  intro order processedFiles hnd hkeys
  have hmem : ∀ key, key ∈ removedKeys (syncDeletePass env true
      (lastMatch objectPrefix objectCh) order processedFiles) ↔
      ((∃ o ∈ objectCh, o.Key = key) ∧ strings.HasSuffix key (ascii "/") = false ∧
        processedFiles (strings.TrimPrefix key objectPrefix) = false) := by
    intro key
    rw [removedKeys_deletePass, List.mem_filterMap]
    constructor
    · rintro ⟨rel, -, hrel⟩
      cases hl : lastMatch objectPrefix objectCh rel with
      | none => rw [hl] at hrel; cases hrel
      | some info =>
        rw [hl] at hrel
        dsimp only at hrel
        split_ifs at hrel with hp
        cases hrel
        obtain ⟨h1, h2, h3⟩ := lastMatch_some objectPrefix rel objectCh info hl
        exact ⟨⟨info, h1, rfl⟩, h2, by rw [h3]; exact hp⟩
    · rintro ⟨⟨o, ho, rfl⟩, hm, hp⟩
      obtain ⟨x, hx⟩ := lastMatch_isSome objectPrefix _ objectCh o ho hm rfl
      obtain ⟨h1, -, h3⟩ := lastMatch_some objectPrefix _ objectCh x hx
      have hxk : x.Key = o.Key := trimPrefix_inj _ _ objectPrefix (hpfx x h1) (hpfx o ho) h3
      refine ⟨strings.TrimPrefix o.Key objectPrefix, ?_, ?_⟩
      · rw [hkeys, hx]
        rfl
      · rw [hx]
        simp [hp, hxk]
  refine ⟨?_, hmem, rfl, fun key hk => ((hmem key).1 hk).2.1⟩
  rw [removedKeys_deletePass]
  apply List.Nodup.filterMap _ hnd
  intro a b key ha hb
  rw [Option.mem_def] at ha hb
  have hrel : ∀ rel, (match lastMatch objectPrefix objectCh rel with
      | none => none
      | some info => if processedFiles rel = false then some info.Key else none) = some key →
      rel = strings.TrimPrefix key objectPrefix := by
    intro rel h
    cases hl : lastMatch objectPrefix objectCh rel with
    | none => rw [hl] at h; cases h
    | some info =>
      rw [hl] at h
      dsimp only at h
      split_ifs at h
      cases h
      exact (lastMatch_some objectPrefix rel objectCh info hl).2.2.symm
  rw [hrel a ha, hrel b hb]

/-- Witness of C15: the listing `a/f`, `a/g`, `a/d/` under `a/`, with `f`
visited: the pass removes `a/g` and nothing else, whichever way the map is
walked. -/
theorem sync_delete_extraneous_witness :
    ∃ remoteFiles, syncRemoteFiles (ascii "a/") exampleRemoteListing = Except.ok remoteFiles ∧
      removedKeys (syncDeletePass (exampleSyncEnv 0 0) true remoteFiles [ascii "g", ascii "f"]
        (fun k => decide (k = ascii "f"))) = [ascii "a/g"] ∧
      (∀ key, key ∈ removedKeys (syncDeletePass (exampleSyncEnv 0 0) true remoteFiles
          [ascii "g", ascii "f"] (fun k => decide (k = ascii "f"))) ↔
        ((∃ o ∈ exampleRemoteListing, o.Key = key) ∧
          strings.HasSuffix key (ascii "/") = false ∧
          (fun k => decide (k = ascii "f")) (strings.TrimPrefix key (ascii "a/")) = false)) := by
  obtain ⟨remoteFiles, h1, h2⟩ := sync_delete_extraneous (exampleSyncEnv 0 0) (ascii "a/")
    exampleRemoteListing (by decide) (by decide)
  have hmp : remoteFiles = fun k =>
      if k = ascii "g" then some (exampleObject (ascii "a/g"))
      else if k = ascii "f" then some (exampleObject (ascii "a/f")) else none := by
    have h3 : syncRemoteFiles (ascii "a/") exampleRemoteListing = Except.ok (fun k =>
        if k = ascii "g" then some (exampleObject (ascii "a/g"))
        else if k = ascii "f" then some (exampleObject (ascii "a/f")) else none) := rfl
    rw [h3] at h1
    exact (Except.ok.inj h1).symm
  have hkeys : ∀ k, k ∈ [ascii "g", ascii "f"] ↔ (remoteFiles k).isSome = true := by
    intro k
    rw [hmp]
    by_cases hg : k = ascii "g"
    · subst hg
      decide
    · by_cases hf : k = ascii "f"
      · subst hf
        decide
      · simp [hg, hf]
  have h4 := h2 [ascii "g", ascii "f"] (fun k => decide (k = ascii "f")) (by decide) hkeys
  refine ⟨remoteFiles, h1, ?_, h4.2.1⟩
  rw [hmp]
  decide
/-! ## Move and copy -/

/-- The shape of `mvAction` once the client, the session and both paths are there. -/
theorem mvAction_eq (w : World) (m m1 : SessionManager) (session : Session)
    (faults : StoreFaults) (force : Bool)
    (source dest : GoString) (rest : List GoString) (store : Store)
    (sourceFormatted destFormatted : GoString)
    (hc : m.GetClient w = Except.ok m1) (hs : m.CurrentSession = Except.ok session)
    (hsrc : m.FormatPath source = Except.ok sourceFormatted)
    (hdst : m.FormatPath dest = Except.ok destFormatted) :
    mvAction w m faults force (source :: dest :: rest) store =
      if store.statOk faults (strings.TrimPrefix sourceFormatted (ascii "/")) = false then
        (some (Error.sourceMissing sourceFormatted), store, [])
      else if store.statOk faults (strings.TrimPrefix destFormatted (ascii "/")) = true ∧
          force = false then
        (some (Error.destExists destFormatted), store, [])
      else
        match store.copy faults (strings.TrimPrefix sourceFormatted (ascii "/"))
            (strings.TrimPrefix destFormatted (ascii "/")) with
        | none =>
          (some Error.copyObjectFailed, store,
            [StoreOp.copyObject (strings.TrimPrefix sourceFormatted (ascii "/"))
              (strings.TrimPrefix destFormatted (ascii "/"))])
        | some store1 =>
          match store1.remove faults (strings.TrimPrefix sourceFormatted (ascii "/")) with
          | none =>
            (some Error.removeFailed, store1,
              [StoreOp.copyObject (strings.TrimPrefix sourceFormatted (ascii "/"))
                (strings.TrimPrefix destFormatted (ascii "/")),
               StoreOp.removeObject (strings.TrimPrefix sourceFormatted (ascii "/"))])
          | some store2 =>
            (none, store2,
              [StoreOp.copyObject (strings.TrimPrefix sourceFormatted (ascii "/"))
                (strings.TrimPrefix destFormatted (ascii "/")),
               StoreOp.removeObject (strings.TrimPrefix sourceFormatted (ascii "/"))]) := by
  unfold mvAction
  rw [if_neg (by simp)]
  simp only [hc, hs, List.getD_cons_zero, List.getD_cons_succ, hsrc, hdst, Bool.not_eq_true']

/-- The shape of `cpAction` once the client, the session and both paths are there. -/
theorem cpAction_eq (w : World) (m m1 : SessionManager) (session : Session)
    (faults : StoreFaults) (force : Bool)
    (source dest : GoString) (rest : List GoString) (store : Store)
    (sourceFormatted destFormatted : GoString)
    (hc : m.GetClient w = Except.ok m1) (hs : m.CurrentSession = Except.ok session)
    (hsrc : m.FormatPath source = Except.ok sourceFormatted)
    (hdst : m.FormatPath dest = Except.ok destFormatted) :
    cpAction w m faults force (source :: dest :: rest) store =
      if store.statOk faults (strings.TrimPrefix sourceFormatted (ascii "/")) = false then
        (some (Error.sourceMissing sourceFormatted), store, [])
      else if store.statOk faults (strings.TrimPrefix destFormatted (ascii "/")) = true ∧
          force = false then
        (some (Error.destExists destFormatted), store, [])
      else
        match store.copy faults (strings.TrimPrefix sourceFormatted (ascii "/"))
            (strings.TrimPrefix destFormatted (ascii "/")) with
        | none =>
          (some Error.copyObjectFailed, store,
            [StoreOp.copyObject (strings.TrimPrefix sourceFormatted (ascii "/"))
              (strings.TrimPrefix destFormatted (ascii "/"))])
        | some store1 =>
          (none, store1,
            [StoreOp.copyObject (strings.TrimPrefix sourceFormatted (ascii "/"))
              (strings.TrimPrefix destFormatted (ascii "/"))]) := by
  unfold cpAction
  rw [if_neg (by simp)]
  simp only [hc, hs, List.getD_cons_zero, List.getD_cons_succ, hsrc, hdst, Bool.not_eq_true']

theorem formatPath_ok_session (m : SessionManager) (p q : GoString)
    (h : m.FormatPath p = Except.ok q) : ∃ session, m.CurrentSession = Except.ok session := by
  unfold SessionManager.FormatPath at h
  cases hs : m.CurrentSession with
  | error e => rw [hs] at h; cases h
  | ok session => exact ⟨session, rfl⟩

/-- The overwrite guard as far as it holds: when the source object does not
exist, or the destination object exists, `StatObject` on it does not fail and
the force flag is not set, `mv` and `cp` return an error, call neither
`CopyObject` nor `RemoveObject`, and leave the bucket as it was. -/
theorem move_copy_guard_of_stat (w : World) (m : SessionManager) (faults : StoreFaults)
    (force : Bool) (source dest : GoString) (rest : List GoString) (store : Store)
    (sourceFormatted destFormatted : GoString)
    (hsrc : m.FormatPath source = Except.ok sourceFormatted)
    (hdst : m.FormatPath dest = Except.ok destFormatted)
    (hguard : store (strings.TrimPrefix sourceFormatted (ascii "/")) = none ∨
      ((store (strings.TrimPrefix destFormatted (ascii "/"))).isSome = true ∧
        faults.statFails (strings.TrimPrefix destFormatted (ascii "/")) = false ∧
        force = false)) :
    ((mvAction w m faults force (source :: dest :: rest) store).1 ≠ none ∧
        (mvAction w m faults force (source :: dest :: rest) store).2.1 = store ∧
        (mvAction w m faults force (source :: dest :: rest) store).2.2 = []) ∧
      ((cpAction w m faults force (source :: dest :: rest) store).1 ≠ none ∧
        (cpAction w m faults force (source :: dest :: rest) store).2.1 = store ∧
        (cpAction w m faults force (source :: dest :: rest) store).2.2 = []) := by
  obtain ⟨session, hs⟩ := formatPath_ok_session m source sourceFormatted hsrc
  cases hc : m.GetClient w with
  | error e =>
    constructor
    · unfold mvAction
      rw [if_neg (by simp)]
      simp [hc]
    · unfold cpAction
      rw [if_neg (by simp)]
      simp [hc]
  | ok m1 =>
    rw [mvAction_eq w m m1 session faults force source dest rest store sourceFormatted
        destFormatted hc hs hsrc hdst,
      cpAction_eq w m m1 session faults force source dest rest store sourceFormatted
        destFormatted hc hs hsrc hdst]
    by_cases h0 : store.statOk faults (strings.TrimPrefix sourceFormatted (ascii "/")) = false
    · rw [if_pos h0, if_pos h0]
      exact ⟨⟨by simp, rfl, rfl⟩, ⟨by simp, rfl, rfl⟩⟩
    · rcases hguard with h | h
      · exact absurd (by simp [Store.statOk, h]) h0
      · have h1 : store.statOk faults (strings.TrimPrefix destFormatted (ascii "/")) = true ∧
            force = false := ⟨by simp [Store.statOk, h.1, h.2.1], h.2.2⟩
        rw [if_neg h0, if_neg h0, if_pos h1, if_pos h1]
        exact ⟨⟨by simp, rfl, rfl⟩, ⟨by simp, rfl, rfl⟩⟩

/-- C16. A bucket holding `a` and `b`, with `StatObject` on `b` returning an
error (access denied, say): `mv a b` and `cp a b` without the force flag take
the destination for absent, call `CopyObject`, and return success with the
content of `b` replaced by that of `a`, where the claim has them return an
error and leave the bucket unchanged. When `StatObject` answers for `b`, they
do return the error and call nothing. -/
theorem stat_error_defeats_overwrite_guard :
    exampleStore (ascii "b") = some (ascii "old") ∧
    ((mvAction (exampleWorld []) (exampleManager (ascii "/")) statFaultOnB false
        [ascii "a", ascii "b"] exampleStore).1 = none ∧
      (mvAction (exampleWorld []) (exampleManager (ascii "/")) statFaultOnB false
        [ascii "a", ascii "b"] exampleStore).2.2 =
        [StoreOp.copyObject (ascii "a") (ascii "b"), StoreOp.removeObject (ascii "a")] ∧
      (mvAction (exampleWorld []) (exampleManager (ascii "/")) statFaultOnB false
        [ascii "a", ascii "b"] exampleStore).2.1 (ascii "b") = some (ascii "xyz") ∧
      (mvAction (exampleWorld []) (exampleManager (ascii "/")) statFaultOnB false
        [ascii "a", ascii "b"] exampleStore).2.1 (ascii "a") = none) ∧
    ((cpAction (exampleWorld []) (exampleManager (ascii "/")) statFaultOnB false
        [ascii "a", ascii "b"] exampleStore).1 = none ∧
      (cpAction (exampleWorld []) (exampleManager (ascii "/")) statFaultOnB false
        [ascii "a", ascii "b"] exampleStore).2.2 =
        [StoreOp.copyObject (ascii "a") (ascii "b")] ∧
      (cpAction (exampleWorld []) (exampleManager (ascii "/")) statFaultOnB false
        [ascii "a", ascii "b"] exampleStore).2.1 (ascii "b") = some (ascii "xyz")) ∧
    ((mvAction (exampleWorld []) (exampleManager (ascii "/")) noFaults false
        [ascii "a", ascii "b"] exampleStore).1 = some (Error.destExists (ascii "/b")) ∧
      (mvAction (exampleWorld []) (exampleManager (ascii "/")) noFaults false
        [ascii "a", ascii "b"] exampleStore).2.2 = [] ∧
      (cpAction (exampleWorld []) (exampleManager (ascii "/")) noFaults false
        [ascii "a", ascii "b"] exampleStore).1 = some (Error.destExists (ascii "/b")) ∧
      (cpAction (exampleWorld []) (exampleManager (ascii "/")) noFaults false
        [ascii "a", ascii "b"] exampleStore).2.2 = []) := by
  refine ⟨by decide, ⟨by decide, by decide, by decide, by decide⟩,
    ⟨by decide, by decide, by decide⟩, ⟨by decide, by decide, by decide, by decide⟩⟩

theorem store_copy_some (store store1 : Store) (faults : StoreFaults) (src dst : GoString)
    (h : store.copy faults src dst = some store1) :
    src ≠ dst ∧ store src ≠ none ∧ faults.copyFails = false ∧
      store1 = fun k => if k = dst then store src else store k := by
  unfold Store.copy at h
  split_ifs at h with hc
  simp only [not_or] at hc
  simp only [Option.some.injEq] at h
  refine ⟨hc.2.1, ?_, by simpa using hc.1, h.symm⟩
  intro hn
  apply hc.2.2
  rw [hn]; rfl

theorem store_remove_some (store store2 : Store) (faults : StoreFaults) (key : GoString)
    (h : store.remove faults key = some store2) :
    faults.removeFails = false ∧ store2 = fun k => if k = key then none else store k := by
  unfold Store.remove at h
  split_ifs at h with hc
  simp only [Option.some.injEq] at h
  exact ⟨by simpa using hc, h.symm⟩

/-- C17. Move postcondition, for every bucket, every fault of the backend and
every pair of arguments (the two may resolve to the same key, with or without
the force flag): whenever `mv` returns success, the two keys differ, the
source object was there, `CopyObject` and `RemoveObject` were each called
once, the destination holds the content the source had, the source key is
gone and every other key is as before; whenever `mv` returns the error of
the failed removal, the copy was made and the content is under both keys; and
it does return that error whenever the copy succeeds and the removal fails. A
move of a key onto itself never returns success: the backend refuses the
copy, and `mv` returns an error with the bucket as it was. -/
theorem mv_postcondition (w : World) (m : SessionManager) (faults : StoreFaults) (force : Bool)
    (source dest : GoString) (rest : List GoString) (store : Store)
    (sourceFormatted destFormatted : GoString)
    (hsrc : m.FormatPath source = Except.ok sourceFormatted)
    (hdst : m.FormatPath dest = Except.ok destFormatted) :
    ((mvAction w m faults force (source :: dest :: rest) store).1 = none →
      strings.TrimPrefix sourceFormatted (ascii "/") ≠
        strings.TrimPrefix destFormatted (ascii "/") ∧
      store (strings.TrimPrefix sourceFormatted (ascii "/")) ≠ none ∧
      (mvAction w m faults force (source :: dest :: rest) store).2.2 =
        [StoreOp.copyObject (strings.TrimPrefix sourceFormatted (ascii "/"))
          (strings.TrimPrefix destFormatted (ascii "/")),
         StoreOp.removeObject (strings.TrimPrefix sourceFormatted (ascii "/"))] ∧
      (mvAction w m faults force (source :: dest :: rest) store).2.1 =
        fun k =>
          if k = strings.TrimPrefix sourceFormatted (ascii "/") then none
          else if k = strings.TrimPrefix destFormatted (ascii "/") then
            store (strings.TrimPrefix sourceFormatted (ascii "/"))
          else store k) ∧
    ((mvAction w m faults force (source :: dest :: rest) store).1 = some Error.removeFailed →
      store (strings.TrimPrefix sourceFormatted (ascii "/")) ≠ none ∧
      (mvAction w m faults force (source :: dest :: rest) store).2.2 =
        [StoreOp.copyObject (strings.TrimPrefix sourceFormatted (ascii "/"))
          (strings.TrimPrefix destFormatted (ascii "/")),
         StoreOp.removeObject (strings.TrimPrefix sourceFormatted (ascii "/"))] ∧
      (mvAction w m faults force (source :: dest :: rest) store).2.1 =
        fun k =>
          if k = strings.TrimPrefix destFormatted (ascii "/") then
            store (strings.TrimPrefix sourceFormatted (ascii "/"))
          else store k) ∧
    (strings.TrimPrefix sourceFormatted (ascii "/") =
        strings.TrimPrefix destFormatted (ascii "/") →
      (mvAction w m faults force (source :: dest :: rest) store).1 ≠ none ∧
      (mvAction w m faults force (source :: dest :: rest) store).2.1 = store) ∧
    (∀ m1 store1, m.GetClient w = Except.ok m1 →
      store.statOk faults (strings.TrimPrefix sourceFormatted (ascii "/")) = true →
      ¬ (store.statOk faults (strings.TrimPrefix destFormatted (ascii "/")) = true ∧
        force = false) →
      store.copy faults (strings.TrimPrefix sourceFormatted (ascii "/"))
        (strings.TrimPrefix destFormatted (ascii "/")) = some store1 →
      faults.removeFails = true →
      (mvAction w m faults force (source :: dest :: rest) store).1 = some Error.removeFailed) := by
  obtain ⟨session, hs⟩ := formatPath_ok_session m source sourceFormatted hsrc
  cases hc : m.GetClient w with
  | error e =>
    have hres : mvAction w m faults force (source :: dest :: rest) store = (some e, store, []) := by
      unfold mvAction
      rw [if_neg (by simp)]
      simp [hc]
    rw [hres]
    have he : e = Error.clientFailed := by
      unfold SessionManager.GetClient at hc
      split_ifs at hc with h1
      rw [hs] at hc
      simp only at hc
      split_ifs at hc with h2
      cases hc
      rfl
    subst he
    refine ⟨fun h => (by cases h), fun h => (by cases h), fun _ => ⟨by simp, rfl⟩, ?_⟩
    intro m1 store1 hc1
    cases hc1
  | ok m1 =>
    rw [mvAction_eq w m m1 session faults force source dest rest store sourceFormatted
        destFormatted hc hs hsrc hdst]
    generalize strings.TrimPrefix sourceFormatted (ascii "/") = src
    generalize strings.TrimPrefix destFormatted (ascii "/") = dst
    by_cases h0 : store.statOk faults src = false
    · rw [if_pos h0]
      refine ⟨fun h => (by cases h), fun h => (by cases h), fun _ => ⟨by simp, rfl⟩, ?_⟩
      intro _ _ _ hst
      rw [h0] at hst; cases hst
    · rw [if_neg h0]
      by_cases h1 : store.statOk faults dst = true ∧ force = false
      · rw [if_pos h1]
        refine ⟨fun h => (by cases h), fun h => (by cases h), fun _ => ⟨by simp, rfl⟩, ?_⟩
        intro _ _ _ _ hg
        exact absurd h1 hg
      · rw [if_neg h1]
        cases hcopy : store.copy faults src dst with
        | none =>
          refine ⟨fun h => (by cases h), fun h => (by cases h), fun _ => ⟨by simp, rfl⟩, ?_⟩
          intro _ _ _ _ _ hcp
          cases hcp
        | some store1 =>
          obtain ⟨hne, hsome, _, hst1⟩ := store_copy_some store store1 faults src dst hcopy
          dsimp only
          cases hrem : store1.remove faults src with
          | none =>
            dsimp only
            exact ⟨fun h => (by cases h), fun _ => ⟨hsome, rfl, hst1⟩, fun h => absurd h hne,
              fun _ _ _ _ _ _ _ => rfl⟩
          | some store2 =>
            obtain ⟨hrf, hst2⟩ := store_remove_some store1 store2 faults src hrem
            dsimp only
            refine ⟨fun _ => ⟨hne, hsome, rfl, ?_⟩, fun h => (by cases h), fun h => absurd h hne,
              ?_⟩
            · rw [hst2, hst1]
            · intro _ _ _ _ _ _ hx
              rw [hrf] at hx; cases hx

/-- Witness of C17, on a bucket holding `a` (content `xyz`) and `b`: `mv a c`
succeeds and leaves `xyz` under `c` and nothing under `a`; with the removal
failing it returns that error and leaves `xyz` under both; `mv -f a a` fails
at the copy and leaves `a` as it was. -/
theorem mv_postcondition_witness :
    ((mvAction (exampleWorld []) (exampleManager (ascii "/")) noFaults false
        [ascii "a", ascii "c"] exampleStore).1 = none ∧
      (mvAction (exampleWorld []) (exampleManager (ascii "/")) noFaults false
        [ascii "a", ascii "c"] exampleStore).2.1 (ascii "c") = some (ascii "xyz") ∧
      (mvAction (exampleWorld []) (exampleManager (ascii "/")) noFaults false
        [ascii "a", ascii "c"] exampleStore).2.1 (ascii "a") = none) ∧
    ((mvAction (exampleWorld []) (exampleManager (ascii "/")) removeFault false
        [ascii "a", ascii "c"] exampleStore).1 = some Error.removeFailed ∧
      (mvAction (exampleWorld []) (exampleManager (ascii "/")) removeFault false
        [ascii "a", ascii "c"] exampleStore).2.1 (ascii "c") = some (ascii "xyz") ∧
      (mvAction (exampleWorld []) (exampleManager (ascii "/")) removeFault false
        [ascii "a", ascii "c"] exampleStore).2.1 (ascii "a") = some (ascii "xyz")) ∧
    ((mvAction (exampleWorld []) (exampleManager (ascii "/")) noFaults true
        [ascii "a", ascii "a"] exampleStore).1 = some Error.copyObjectFailed ∧
      (mvAction (exampleWorld []) (exampleManager (ascii "/")) noFaults true
        [ascii "a", ascii "a"] exampleStore).2.1 = exampleStore) := by
  have h1 := (mv_postcondition (exampleWorld []) (exampleManager (ascii "/")) noFaults false
    (ascii "a") (ascii "c") [] exampleStore (ascii "/a") (ascii "/c") (by decide)
    (by decide)).1 (by decide)
  have h2 := (mv_postcondition (exampleWorld []) (exampleManager (ascii "/")) removeFault false
    (ascii "a") (ascii "c") [] exampleStore (ascii "/a") (ascii "/c") (by decide)
    (by decide)).2.1 (by decide)
  have h3 := (mv_postcondition (exampleWorld []) (exampleManager (ascii "/")) noFaults true
    (ascii "a") (ascii "a") [] exampleStore (ascii "/a") (ascii "/a") (by decide)
    (by decide)).2.2.1 rfl
  refine ⟨⟨by decide, ?_, ?_⟩, ⟨by decide, ?_, ?_⟩, ⟨by decide, h3.2⟩⟩
  · rw [h1.2.2.2]; decide
  · rw [h1.2.2.2]; decide
  · rw [h2.2.2]; decide
  · rw [h2.2.2]; decide

/-! ## Pattern deletion -/

theorem rmSelectLoop_eq (flags : RmFlags) (pattern : GoString) :
    ∀ (objs : List ObjectInfo) (acc : List GoString), (∀ o ∈ objs, o.Err = false) →
      rmSelectLoop flags pattern objs acc =
        Except.ok (acc ++ (objs.map (fun o => o.Key)).filter
          (fun key => wildcard.Match pattern key && rmKeeps flags key)) := by
  intro objs
  induction objs with
  | nil => intro acc _; simp [rmSelectLoop]
  | cons o rest ih =>
    intro acc herr
    have ho : o.Err = false := herr o (List.mem_cons_self _ _)
    have hrest : ∀ x ∈ rest, x.Err = false := fun x hx => herr x (List.mem_cons_of_mem _ hx)
    unfold rmSelectLoop
    simp only [ho, Bool.false_eq_true, if_false, List.map_cons, List.filter_cons]
    by_cases hm : wildcard.Match pattern o.Key = true
    · simp only [hm, if_true, Bool.true_and]
      obtain ⟨d, a, async⟩ := flags
      cases d <;> cases a <;>
        cases hsfx : strings.HasSuffix o.Key (ascii "/") <;>
        simp [ih _ hrest, rmKeeps, hsfx]
    · have hm2 : wildcard.Match pattern o.Key = false := by simpa using hm
      simp only [hm2, Bool.false_eq_true, if_false, Bool.false_and]
      exact ih acc hrest

theorem rmRemoved_deleteSync (env : RmEnv) :
    ∀ keys : List GoString, rmRemoved (rmDeleteSync env keys) = keys := by
  intro keys
  induction keys with
  | nil => rfl
  | cons k rest ih =>
    unfold rmDeleteSync
    cases env.removeOk k <;> simp [rmRemoved, ih]

/-- C18. Pattern-deletion selection, for a listing without error items: the
keys `rm` selects are the listing's keys, in order, that match the pattern
and that end in `/` under `-d`, are any under `-a` alone, and do not end in
`/` under neither flag; the synchronous deletion calls `RemoveObject` on
exactly these keys in that order and returns success whatever fails; and with
an empty selection `rm` fails and removes nothing. -/
theorem rm_pattern_selection (w : World) (env : RmEnv) (flags : RmFlags) (session : Session)
    (objectName formattedPath : GoString)
    (herr : ∀ o ∈ w.ListObjects session.BucketName
      (objectName.takeWhile (fun c => decide (c ≠ wildcard.star))) true, o.Err = false) :
    rmSelectLoop flags objectName (w.ListObjects session.BucketName
        (objectName.takeWhile (fun c => decide (c ≠ wildcard.star))) true) [] =
      Except.ok (((w.ListObjects session.BucketName
        (objectName.takeWhile (fun c => decide (c ≠ wildcard.star))) true).map
          (fun o => o.Key)).filter
        (fun key => wildcard.Match objectName key && rmKeeps flags key)) ∧
    (((w.ListObjects session.BucketName
        (objectName.takeWhile (fun c => decide (c ≠ wildcard.star))) true).map
          (fun o => o.Key)).filter
        (fun key => wildcard.Match objectName key && rmKeeps flags key) = [] →
      rmWildcard w env flags session objectName formattedPath =
        (some (Error.noMatch formattedPath), [])) ∧
    (((w.ListObjects session.BucketName
        (objectName.takeWhile (fun c => decide (c ≠ wildcard.star))) true).map
          (fun o => o.Key)).filter
        (fun key => wildcard.Match objectName key && rmKeeps flags key) ≠ [] →
      flags.async = false →
      (rmWildcard w env flags session objectName formattedPath).1 = none ∧
      rmRemoved (rmWildcard w env flags session objectName formattedPath).2 =
        ((w.ListObjects session.BucketName
          (objectName.takeWhile (fun c => decide (c ≠ wildcard.star))) true).map
            (fun o => o.Key)).filter
          (fun key => wildcard.Match objectName key && rmKeeps flags key)) := by
  have hsel := rmSelectLoop_eq flags objectName _ [] herr
  rw [List.nil_append] at hsel
  refine ⟨hsel, ?_, ?_⟩
  · intro hnil
    unfold rmWildcard
    simp only [hsel, hnil, List.length_nil, if_true]
  · intro hne hasync
    unfold rmWildcard
    simp only [hsel]
    rw [if_neg (by simpa [List.length_eq_zero] using hne), hasync]
    simp only [Bool.false_eq_true, if_false]
    exact ⟨trivial, rmRemoved_deleteSync env _⟩

/-- Witness of C18: the pattern `a/*` over the listing `a/b.txt`, `a/c/d.txt`,
`a/c/e`, `a/`. Without flags the three files are removed, in listing order,
even when every removal fails; with `-d` only the marker `a/` is. -/
theorem rm_pattern_selection_witness :
    rmRemoved (rmWildcard (exampleWorld (exampleListing.map (fun o => o.Key))) failingRmEnv
        ⟨false, false, false⟩ (exampleSession (ascii "/")) (ascii "a/*") (ascii "/a/*")).2 =
        [ascii "a/b.txt", ascii "a/c/d.txt", ascii "a/c/e"] ∧
      (rmWildcard (exampleWorld (exampleListing.map (fun o => o.Key))) failingRmEnv
        ⟨false, false, false⟩ (exampleSession (ascii "/")) (ascii "a/*") (ascii "/a/*")).1 = none ∧
      rmRemoved (rmWildcard (exampleWorld (exampleListing.map (fun o => o.Key))) exampleRmEnv
        ⟨true, false, false⟩ (exampleSession (ascii "/")) (ascii "a/*") (ascii "/a/*")).2 =
        [ascii "a/"] := by
  have h1 := (rm_pattern_selection (exampleWorld (exampleListing.map (fun o => o.Key)))
    failingRmEnv ⟨false, false, false⟩ (exampleSession (ascii "/")) (ascii "a/*") (ascii "/a/*")
    (by decide)).2.2 (by decide) rfl
  have h2 := (rm_pattern_selection (exampleWorld (exampleListing.map (fun o => o.Key)))
    exampleRmEnv ⟨true, false, false⟩ (exampleSession (ascii "/")) (ascii "a/*") (ascii "/a/*")
    (by decide)).2.2 (by decide) rfl
  refine ⟨?_, h1.1, ?_⟩
  · rw [h1.2]; decide
  · rw [h2.2]; decide

/-! ## The bounds of the directory download -/

/-- The worker of the directory download, for a key that does not end in `/`:
the directory is made, the bounds are checked, then the download step runs. -/
theorem getWorkerJob_eq (env : GetEnv) (flags : GetFlags) (localPath pfx : GoString)
    (obj : ObjectInfo) (hkey : strings.HasSuffix obj.Key (ascii "/") = false) :
    getWorkerJob env flags localPath pfx obj =
      if env.mkdirAllOk
          (env.dirOf (env.joinPath localPath (strings.TrimPrefix obj.Key pfx))) = false then
        [GetEvent.mkdirAll (env.dirOf (env.joinPath localPath (strings.TrimPrefix obj.Key pfx))),
          GetEvent.logError
            (env.dirOf (env.joinPath localPath (strings.TrimPrefix obj.Key pfx)))]
      else
        GetEvent.mkdirAll (env.dirOf (env.joinPath localPath (strings.TrimPrefix obj.Key pfx))) ::
        (if flags.start ≠ [] ∧ strLess (strings.TrimPrefix obj.Key pfx) flags.start = true then []
         else if flags.stop ≠ [] ∧ ¬ strLess (strings.TrimPrefix obj.Key pfx) flags.stop = true
          then []
         else getWorkerDownload env flags (env.joinPath localPath (strings.TrimPrefix obj.Key pfx))
          obj) := by
  unfold getWorkerJob getWorkerDownload
  simp only [hkey, Bool.false_eq_true, if_false, Bool.not_eq_true']

theorem inBounds_iff (flags : GetFlags) (r : GoString) :
    inBounds flags r ↔
      ¬ (flags.start ≠ [] ∧ strLess r flags.start = true) ∧
      ¬ (flags.stop ≠ [] ∧ ¬ strLess r flags.stop = true) := by
  unfold inBounds
  by_cases h1 : flags.start = [] <;> by_cases h2 : flags.stop = [] <;>
    cases strLess r flags.start <;> cases strLess r flags.stop <;> simp [h1, h2]

theorem getWorkerDownload_fresh (env : GetEnv) (flags : GetFlags) (filePath : GoString)
    (obj : ObjectInfo) (hfresh : ¬ (flags.resume = true ∧ env.fileExists filePath = true))
    (hcreate : env.createOk filePath = true) (hget : env.getObjectOk obj.Key = true) :
    GetEvent.getWhole obj.Key ∈ getWorkerDownload env flags filePath obj := by
  unfold getWorkerDownload
  rw [if_neg hfresh]
  simp only [hcreate, hget, Bool.not_true, Bool.false_eq_true, if_false]
  split_ifs <;> simp

/-- Go's `<` on strings, as modelled, is the lexicographic order on bytes. -/
theorem strLess_iff_lex : ∀ a b : List Nat, strLess a b = true ↔ List.Lex (· < ·) a b := by
  intro a
  induction a with
  | nil =>
    intro b
    cases b with
    | nil =>
      simp only [strLess, Bool.false_eq_true, false_iff]
      intro h
      cases h
    | cons y t =>
      simp only [strLess, true_iff]
      exact List.Lex.nil
  | cons x s ih =>
    intro b
    cases b with
    | nil =>
      simp only [strLess, Bool.false_eq_true, false_iff]
      intro h
      cases h
    | cons y t =>
      unfold strLess
      by_cases h1 : x < y
      · simp only [h1, if_true, true_iff]
        exact List.Lex.rel h1
      · by_cases h2 : y < x
        · simp only [h1, h2, if_true, if_false, Bool.false_eq_true, false_iff]
          intro h
          cases h with
          | rel h => exact h1 h
          | cons h => exact lt_irrefl _ h2
        · simp only [h1, h2, if_false]
          have hxy : x = y := by omega
          subst hxy
          rw [ih t]
          constructor
          · intro h; exact List.Lex.cons h
          · intro h
            cases h with
            | rel h => exact absurd h h1
            | cons h => exact h

/-- C19. Bounds of the directory download, for an object whose key does not
end in `/` and `r` its prefix-stripped path: outside the bounds the worker
requests nothing and opens no file, so every request implies that `r` is
within the bounds; within them, once the directory is made, the worker goes
on to the download step; and for a file to be downloaded afresh that can be
created and read, the object is requested exactly when
(`start` is empty or `r >= start`) and (`end` is empty or `r < end`), the
comparison being the lexicographic order on bytes. -/
theorem download_bounds (env : GetEnv) (flags : GetFlags) (localPath pfx : GoString)
    (obj : ObjectInfo) (hkey : strings.HasSuffix obj.Key (ascii "/") = false) :
    (¬ inBounds flags (strings.TrimPrefix obj.Key pfx) →
        (getWorkerJob env flags localPath pfx obj).filter GetEvent.isRequest = [] ∧
        (getWorkerJob env flags localPath pfx obj).filter GetEvent.isFileOpen = []) ∧
      ((∃ e ∈ getWorkerJob env flags localPath pfx obj, e.isRequest = true) →
        inBounds flags (strings.TrimPrefix obj.Key pfx)) ∧
      (inBounds flags (strings.TrimPrefix obj.Key pfx) →
        env.mkdirAllOk
          (env.dirOf (env.joinPath localPath (strings.TrimPrefix obj.Key pfx))) = true →
        getWorkerJob env flags localPath pfx obj =
          GetEvent.mkdirAll
            (env.dirOf (env.joinPath localPath (strings.TrimPrefix obj.Key pfx))) ::
          getWorkerDownload env flags
            (env.joinPath localPath (strings.TrimPrefix obj.Key pfx)) obj) ∧
      (env.mkdirAllOk
          (env.dirOf (env.joinPath localPath (strings.TrimPrefix obj.Key pfx))) = true →
        ¬ (flags.resume = true ∧
          env.fileExists (env.joinPath localPath (strings.TrimPrefix obj.Key pfx)) = true) →
        env.createOk (env.joinPath localPath (strings.TrimPrefix obj.Key pfx)) = true →
        env.getObjectOk obj.Key = true →
        (GetEvent.getWhole obj.Key ∈ getWorkerJob env flags localPath pfx obj ↔
          inBounds flags (strings.TrimPrefix obj.Key pfx))) ∧
      (∀ a b : GoString, strLess a b = true ↔ List.Lex (· < ·) a b) := by
  have hout : ¬ inBounds flags (strings.TrimPrefix obj.Key pfx) →
      (getWorkerJob env flags localPath pfx obj).filter GetEvent.isRequest = [] ∧
      (getWorkerJob env flags localPath pfx obj).filter GetEvent.isFileOpen = [] := by
    intro hb
    rw [inBounds_iff, not_and_or, not_not, not_not] at hb
    rw [getWorkerJob_eq env flags localPath pfx obj hkey]
    by_cases hm : env.mkdirAllOk
        (env.dirOf (env.joinPath localPath (strings.TrimPrefix obj.Key pfx))) = false
    · rw [if_pos hm]
      simp [GetEvent.isRequest, GetEvent.isFileOpen]
    · rw [if_neg hm]
      rcases hb with hb | hb
      · rw [if_pos hb]
        simp [GetEvent.isRequest, GetEvent.isFileOpen]
      · by_cases hlo : flags.start ≠ [] ∧
            strLess (strings.TrimPrefix obj.Key pfx) flags.start = true
        · rw [if_pos hlo]
          simp [GetEvent.isRequest, GetEvent.isFileOpen]
        · rw [if_neg hlo, if_pos hb]
          simp [GetEvent.isRequest, GetEvent.isFileOpen]
  have hin : inBounds flags (strings.TrimPrefix obj.Key pfx) →
      env.mkdirAllOk
        (env.dirOf (env.joinPath localPath (strings.TrimPrefix obj.Key pfx))) = true →
      getWorkerJob env flags localPath pfx obj =
        GetEvent.mkdirAll
          (env.dirOf (env.joinPath localPath (strings.TrimPrefix obj.Key pfx))) ::
        getWorkerDownload env flags
          (env.joinPath localPath (strings.TrimPrefix obj.Key pfx)) obj := by
    intro hb hm
    rw [inBounds_iff] at hb
    rw [getWorkerJob_eq env flags localPath pfx obj hkey, if_neg (by rw [hm]; decide),
      if_neg hb.1, if_neg hb.2]
  have honly : (∃ e ∈ getWorkerJob env flags localPath pfx obj, e.isRequest = true) →
      inBounds flags (strings.TrimPrefix obj.Key pfx) := by
    rintro ⟨e, he, hr⟩
    by_contra hb
    have hf := (hout hb).1
    have : e ∈ (getWorkerJob env flags localPath pfx obj).filter GetEvent.isRequest :=
      List.mem_filter.2 ⟨he, hr⟩
    rw [hf] at this
    cases this
  refine ⟨hout, honly, hin, ?_, strLess_iff_lex⟩
  intro hm hfresh hcreate hget
  constructor
  · intro hmem
    exact honly ⟨_, hmem, rfl⟩
  · intro hb
    rw [hin hb hm]
    exact List.mem_cons_of_mem _ (getWorkerDownload_fresh env flags _ obj hfresh hcreate hget)

/-- Witness of C19: with `--start b --end d` under the prefix `a/`, the object
`a/c` is requested and the objects `a/a` and `a/d` are not. -/
theorem download_bounds_witness :
    GetEvent.getWhole (ascii "a/c") ∈ getWorkerJob exampleGetEnv ⟨false, ascii "b", ascii "d"⟩
        (ascii "out") (ascii "a/") (exampleObject (ascii "a/c")) ∧
      (getWorkerJob exampleGetEnv ⟨false, ascii "b", ascii "d"⟩ (ascii "out") (ascii "a/")
        (exampleObject (ascii "a/a"))).filter GetEvent.isRequest = [] ∧
      (getWorkerJob exampleGetEnv ⟨false, ascii "b", ascii "d"⟩ (ascii "out") (ascii "a/")
        (exampleObject (ascii "a/d"))).filter GetEvent.isRequest = [] :=
  ⟨((download_bounds exampleGetEnv ⟨false, ascii "b", ascii "d"⟩ (ascii "out") (ascii "a/")
      (exampleObject (ascii "a/c")) (by decide)).2.2.2.1 rfl (by decide) rfl rfl).2
      ⟨Or.inr (by decide), Or.inr (by decide)⟩,
   ((download_bounds exampleGetEnv ⟨false, ascii "b", ascii "d"⟩ (ascii "out") (ascii "a/")
      (exampleObject (ascii "a/a")) (by decide)).1
      (fun h => by rcases h.1 with h1 | h1 <;> revert h1 <;> decide)).1,
   ((download_bounds exampleGetEnv ⟨false, ascii "b", ascii "d"⟩ (ascii "out") (ascii "a/")
      (exampleObject (ascii "a/d")) (by decide)).1
      (fun h => by rcases h.2 with h1 | h1 <;> revert h1 <;> decide)).1⟩

/-! ## Best-effort batches -/

theorem rmCollectLoop_eq :
    ∀ (objs : List ObjectInfo) (acc : List GoString), (∀ o ∈ objs, o.Err = false) →
      rmCollectLoop objs acc = Except.ok (acc ++ objs.map (fun o => o.Key)) := by
  intro objs
  induction objs with
  | nil => intro acc _; simp [rmCollectLoop]
  | cons o rest ih =>
    intro acc herr
    have ho : o.Err = false := herr o (List.mem_cons_self _ _)
    have hrest : ∀ x ∈ rest, x.Err = false := fun x hx => herr x (List.mem_cons_of_mem _ hx)
    unfold rmCollectLoop
    simp only [ho, Bool.false_eq_true, if_false]
    rw [ih _ hrest]
    simp

/-- The synchronous deletion of a directory given with its trailing `/`. -/
theorem rmPlain_directory (w : World) (env : RmEnv) (flags : RmFlags) (session : Session)
    (objectName formattedPath : GoString)
    (hdir : strings.HasSuffix objectName (ascii "/") = true)
    (hflag : flags.d = true ∨ flags.a = true) (hsync : flags.async = false)
    (herr : ∀ o ∈ w.ListObjects session.BucketName objectName true, o.Err = false) :
    rmPlain w env flags session objectName formattedPath =
      (none, rmDeleteSync env
        ((w.ListObjects session.BucketName objectName true).map (fun o => o.Key))) := by
  have hcol := rmCollectLoop_eq _ [] herr
  rw [List.nil_append] at hcol
  have hnot : ¬ (flags.a = false ∧ flags.d = false) := by
    rintro ⟨ha, hd⟩
    rcases hflag with h | h
    · rw [hd] at h; cases h
    · rw [ha] at h; cases h
  unfold rmPlain
  simp only [hdir, Bool.not_true, Bool.false_eq_true, if_false, Bool.not_eq_true', hnot,
    if_true, hflag, hcol, hsync]
  split_ifs with hlen
  · rw [List.length_eq_zero] at hlen
    rw [hlen]
    rfl
  · rfl

theorem putWalk_all_next (env : PutEnv) (all : Bool) (objectName : GoString) :
    ∀ entries : List WalkEntry,
      (∀ e ∈ entries, e.err = false ∧ (all = true ∨ e.hidden = false)) →
      putWalk env all objectName entries =
        (none, entries.flatMap (fun e => (putWalkFn env all objectName e).2)) := by
  intro entries
  unfold putWalk
  induction entries with
  | nil => intro _; rfl
  | cons e rest ih =>
    intro h
    have he := h e (List.mem_cons_self _ _)
    have hrest := ih (fun x hx => h x (List.mem_cons_of_mem _ hx))
    have hnext : (putWalkFn env all objectName e).1 = WalkReturn.next := by
      unfold putWalkFn
      have hh : ¬ ((!all) = true ∧ e.hidden = true) := by
        rintro ⟨h1, h2⟩
        rcases he.2 with h3 | h3
        · rw [h3] at h1; cases h1
        · rw [h3] at h2; cases h2
      rw [he.1]
      simp only [Bool.false_eq_true, if_false, hh]
      split_ifs <;> rfl
    rw [putWalkFrom, List.any_nil, if_neg (by decide)]
    cases hfn : putWalkFn env all objectName e with
    | mk ret evs =>
      rw [hfn] at hnext
      dsimp only at hnext
      subst hnext
      dsimp only
      rw [hrest, List.flatMap_cons, hfn]

theorem putAttempt_mem (env : PutEnv) (all : Bool) (objectName : GoString) (e : WalkEntry)
    (he : e.err = false ∧ (all = true ∨ e.hidden = false)) :
    putAttempt objectName e ∈ (putWalkFn env all objectName e).2 := by
  unfold putWalkFn putAttempt
  have hh : ¬ ((!all) = true ∧ e.hidden = true) := by
    rintro ⟨h1, h2⟩
    rcases he.2 with h3 | h3
    · rw [h3] at h1; cases h1
    · rw [h3] at h2; cases h2
  rw [he.1]
  simp only [Bool.false_eq_true, if_false, hh]
  split_ifs <;> simp

theorem getWorkerJob_attempt (env : GetEnv) (flags : GetFlags) (localPath pfx : GoString)
    (obj : ObjectInfo) (hkey : strings.HasSuffix obj.Key (ascii "/") = false) :
    GetEvent.mkdirAll (env.dirOf (env.joinPath localPath (strings.TrimPrefix obj.Key pfx))) ∈
      getWorkerJob env flags localPath pfx obj := by
  rw [getWorkerJob_eq env flags localPath pfx obj hkey]
  split_ifs <;> simp

/-- The batches as far as they are best-effort, whatever fails on single
items other than the walk's own report for an entry. The synchronous
deletion loop calls `RemoveObject` on every selected key in order, and the
deletion of a directory returns success; the directory download, once its
local root is made, returns success and every listed file object has its
worker run (its directory is made first); the directory upload, once the
remote root is created, returns success over every list of walked entries and
every entry has its marker put or its file opened. -/
theorem best_effort_batches (w : World) (rmEnv : RmEnv) (getEnv : GetEnv) (putEnv : PutEnv)
    (rmFlags : RmFlags) (getFlags : GetFlags) (session : Session)
    (dirName formattedPath localPath pfx remoteDir : GoString) (all : Bool)
    (objects : List ObjectInfo) (entries : List WalkEntry)
    (hdir : strings.HasSuffix dirName (ascii "/") = true)
    (hflag : rmFlags.d = true ∨ rmFlags.a = true) (hsync : rmFlags.async = false)
    (herr : ∀ o ∈ w.ListObjects session.BucketName dirName true, o.Err = false)
    (hroot : getEnv.mkdirAllOk localPath = true)
    (hwalk : ∀ e ∈ entries, e.err = false ∧ (all = true ∨ e.hidden = false))
    (hmarker : putEnv.putObjectOk
      (if !strings.HasSuffix remoteDir (ascii "/") then remoteDir ++ ascii "/" else remoteDir)
        = true) :
    (∀ keys : List GoString, rmRemoved (rmDeleteSync rmEnv keys) = keys) ∧
      ((rmPlain w rmEnv rmFlags session dirName formattedPath).1 = none ∧
        rmRemoved (rmPlain w rmEnv rmFlags session dirName formattedPath).2 =
          (w.ListObjects session.BucketName dirName true).map (fun o => o.Key)) ∧
      ((getDirectory getEnv getFlags localPath pfx objects).1 = none ∧
        ∀ obj ∈ objects, obj.Err = false → strings.HasSuffix obj.Key (ascii "/") = false →
          GetEvent.mkdirAll
            (getEnv.dirOf (getEnv.joinPath localPath (strings.TrimPrefix obj.Key pfx))) ∈
            (getDirectory getEnv getFlags localPath pfx objects).2) ∧
      ((putDirectory putEnv all remoteDir entries).1 = none ∧
        ∀ e ∈ entries,
          putAttempt
            (if !strings.HasSuffix remoteDir (ascii "/") then remoteDir ++ ascii "/"
             else remoteDir) e ∈ (putDirectory putEnv all remoteDir entries).2) := by
  refine ⟨rmRemoved_deleteSync rmEnv, ?_, ?_, ?_⟩
  · rw [rmPlain_directory w rmEnv rmFlags session dirName formattedPath hdir hflag hsync herr]
    exact ⟨rfl, rmRemoved_deleteSync rmEnv _⟩
  · unfold getDirectory
    rw [hroot]
    refine ⟨rfl, ?_⟩
    intro obj hobj he hkey
    apply List.mem_cons_of_mem
    rw [List.mem_flatMap]
    refine ⟨obj, hobj, ?_⟩
    rw [he]
    exact getWorkerJob_attempt getEnv getFlags localPath pfx obj hkey
  · unfold putDirectory
    dsimp only
    rw [hmarker, putWalk_all_next putEnv all _ entries hwalk]
    refine ⟨rfl, ?_⟩
    intro e he
    apply List.mem_cons_of_mem
    rw [List.mem_flatMap]
    exact ⟨e, he, putAttempt_mem putEnv all _ e (hwalk e he)⟩

/-- An instance with every per-item operation failing: `rm -a a/` still
calls `RemoveObject` on all four keys and succeeds; the directory download
still makes the directory of `a/c/e`, listed last, and succeeds; the
directory upload still opens `loc/x`, walked last, and succeeds. -/
theorem best_effort_batches_witness :
    ((rmPlain (exampleWorld (exampleListing.map (fun o => o.Key))) failingRmEnv
          ⟨false, true, false⟩ (exampleSession (ascii "/")) (ascii "a/") (ascii "/a/")).1 = none ∧
        rmRemoved (rmPlain (exampleWorld (exampleListing.map (fun o => o.Key))) failingRmEnv
          ⟨false, true, false⟩ (exampleSession (ascii "/")) (ascii "a/") (ascii "/a/")).2 =
          [ascii "a/b.txt", ascii "a/c/d.txt", ascii "a/c/e", ascii "a/"]) ∧
      ((getDirectory failingGetEnv ⟨false, [], []⟩ (ascii "out") (ascii "a/") exampleListing).1
          = none ∧
        GetEvent.mkdirAll (ascii "out/c/e") ∈
          (getDirectory failingGetEnv ⟨false, [], []⟩ (ascii "out") (ascii "a/")
            exampleListing).2) ∧
      ((putDirectory failingPutEnv false (ascii "r") exampleWalk).1 = none ∧
        PutEvent.openFile (ascii "loc/x") ∈
          (putDirectory failingPutEnv false (ascii "r") exampleWalk).2) := by
  have h := best_effort_batches (exampleWorld (exampleListing.map (fun o => o.Key)))
    failingRmEnv failingGetEnv failingPutEnv ⟨false, true, false⟩ ⟨false, [], []⟩
    (exampleSession (ascii "/")) (ascii "a/") (ascii "/a/") (ascii "out") (ascii "a/")
    (ascii "r") false exampleListing exampleWalk (by decide) (Or.inr rfl) rfl (by decide) rfl
    (by decide) (by decide)
  refine ⟨⟨h.2.1.1, ?_⟩, ⟨h.2.2.1.1, ?_⟩, ⟨h.2.2.2.1, ?_⟩⟩
  · rw [h.2.1.2]; decide
  · exact h.2.2.1.2 (exampleObject (ascii "a/c/e")) (by decide) rfl (by decide)
  · exact h.2.2.2.2 ⟨ascii "loc/x", ascii "x", ⟨false, 5, 0⟩, false, false⟩ (by decide)

/-! ## Further facts on the walk and on sorting -/

/-- An error that `filepath.Walk` reports for an entry is returned by the
callback and ends the directory upload, whatever else fails: the entries
after it are not reached. -/
theorem putDirectory_walk_error :
    (putDirectory failingPutEnv false (ascii "r") brokenWalk).1 = some Error.walkFailed ∧
      PutEvent.openFile (ascii "loc/x") ∉
        (putDirectory failingPutEnv false (ascii "r") brokenWalk).2 := by
  refine ⟨by decide, by decide⟩

/-- C20. The upload of the directory `loc`, which holds the directory `s`
and, after it in walking order, the file `x`, every call of the backend and
every opening of a file succeeding: when `filepath.Walk` cannot read `s` and
reports the error for that entry, the callback returns it, the walk stops,
`put` returns an error, and nothing is attempted for `x`, where the claim has
an operation attempted for every item and the command return success. With
`s` readable, `s`, `s/y` and `x` are all uploaded and `put` returns success.
The other failures do not stop a batch: with no file opening and no object
put, the upload still attempts every entry and returns success; with no file
created, the download still makes the directory of every listed file and
returns success; with every removal failing, the deletion of `a/` still
calls `RemoveObject` on every key and returns success. -/
theorem put_walk_error_aborts_batch :
    putDirectory workingPutEnv false (ascii "r") brokenWalk =
      (some Error.walkFailed,
        [PutEvent.putObject (ascii "r/") 0, PutEvent.putObject (ascii "r/") 0]) ∧
    putDirectory workingPutEnv false (ascii "r") exampleWalk =
      (none,
        [PutEvent.putObject (ascii "r/") 0, PutEvent.putObject (ascii "r/") 0,
         PutEvent.putObject (ascii "r/s/") 0,
         PutEvent.openFile (ascii "loc/s/y"), PutEvent.putObject (ascii "r/s/y") 3,
         PutEvent.openFile (ascii "loc/x"), PutEvent.putObject (ascii "r/x") 5]) ∧
    putDirectory failingPutEnv false (ascii "r") exampleWalk =
      (none,
        [PutEvent.putObject (ascii "r/") 0, PutEvent.putObject (ascii "r/") 0,
         PutEvent.putObject (ascii "r/s/") 0, PutEvent.logError (ascii "r/s/"),
         PutEvent.openFile (ascii "loc/s/y"), PutEvent.logError (ascii "loc/s/y"),
         PutEvent.openFile (ascii "loc/x"), PutEvent.logError (ascii "loc/x")]) ∧
    getDirectory failingGetEnv ⟨false, [], []⟩ (ascii "out") (ascii "a/") exampleListing =
      (none,
        [GetEvent.mkdirAll (ascii "out"),
         GetEvent.mkdirAll (ascii "out/b.txt"), GetEvent.logError (ascii "out/b.txt"),
         GetEvent.mkdirAll (ascii "out/c/d.txt"), GetEvent.logError (ascii "out/c/d.txt"),
         GetEvent.mkdirAll (ascii "out/c/e"), GetEvent.logError (ascii "out/c/e")]) ∧
    rmPlain (exampleWorld (exampleListing.map (fun o => o.Key))) failingRmEnv
        ⟨false, true, false⟩ (exampleSession (ascii "/")) (ascii "a/") (ascii "/a/") =
      (none,
        [RmEvent.removeObject (ascii "a/b.txt"), RmEvent.logError (ascii "a/b.txt"),
         RmEvent.removeObject (ascii "a/c/d.txt"), RmEvent.logError (ascii "a/c/d.txt"),
         RmEvent.removeObject (ascii "a/c/e"), RmEvent.logError (ascii "a/c/e"),
         RmEvent.removeObject (ascii "a/"), RmEvent.logError (ascii "a/")]) := by
  refine ⟨by decide, by decide, by decide, by decide, by decide⟩

theorem strLess_iff_lt (a b : GoString) : strLess a b = true ↔ a < b :=
  strLess_iff_lex a b

theorem strLe_iff (a b : GoString) : strLess b a = false ↔ a ≤ b := by
  rw [← Bool.not_eq_true, strLess_iff_lt, not_lt]

/-- The function `sort.Strings`, as modelled, rearranges its argument. -/
theorem sortStrings_perm (items : List GoString) : (sortStrings items).Perm items :=
  List.perm_insertionSort _ items

/-- The function `sort.Strings`, as modelled, returns an ascending list. -/
theorem sortStrings_sorted (items : List GoString) :
    (sortStrings items).Sorted (fun a b => strLess b a = false) := by
  haveI : IsTotal GoString (fun a b => strLess b a = false) :=
    ⟨fun a b => by
      rw [strLe_iff, strLe_iff]
      exact le_total a b⟩
  haveI : IsTrans GoString (fun a b => strLess b a = false) :=
    ⟨fun a b c => by
      rw [strLe_iff, strLe_iff, strLe_iff]
      exact le_trans⟩
  exact List.sorted_insertionSort _ items

/-! ## The worker pool -/

/-- C21. For every value `w` of the flag `-w` of get, upload and sync, the
number of worker goroutines started is `max(1, min(10, w))`; it lies between
1 and 10, and it is `w` exactly when `w` lies between 1 and 10. -/
theorem worker_count_clamp (w : Int) :
    ((workersStarted w : Nat) : Int) = max 1 (min 10 w) ∧
    1 ≤ workersStarted w ∧ workersStarted w ≤ 10 ∧
    (((workersStarted w : Nat) : Int) = w ↔ 1 ≤ w ∧ w ≤ 10) := by
  unfold workersStarted workerIndices clampWorkers
  rw [List.length_range]
  split_ifs <;> omega

theorem poolHeld_set_busy {J : Type} (job : J) :
    ∀ (ws : List (Worker J)) (i : Nat), ws.get? i = some Worker.waiting →
      (poolHeld (ws.set i (Worker.busy job))).Perm (job :: poolHeld ws) := by
  intro ws
  induction ws with
  | nil => intro i h; simp at h
  | cons w tl ih =>
    intro i h
    cases i with
    | zero =>
      simp only [List.get?_cons_zero, Option.some.injEq] at h
      subst h
      simp [poolHeld]
    | succ i =>
      simp only [List.get?_cons_succ] at h
      have := ih i h
      cases w with
      | waiting => simpa [poolHeld] using this
      | done => simpa [poolHeld] using this
      | busy j =>
        simp only [List.set_cons_succ, poolHeld]
        exact (List.Perm.cons j this).trans (List.Perm.swap job j _)

theorem poolHeld_set_waiting {J : Type} (job : J) :
    ∀ (ws : List (Worker J)) (i : Nat), ws.get? i = some (Worker.busy job) →
      (poolHeld ws).Perm (job :: poolHeld (ws.set i Worker.waiting)) := by
  intro ws
  induction ws with
  | nil => intro i h; simp at h
  | cons w tl ih =>
    intro i h
    cases i with
    | zero =>
      simp only [List.get?_cons_zero, Option.some.injEq] at h
      subst h
      simp [poolHeld]
    | succ i =>
      simp only [List.get?_cons_succ] at h
      have := ih i h
      cases w with
      | waiting => simpa [poolHeld] using this
      | done => simpa [poolHeld] using this
      | busy j =>
        simp only [List.set_cons_succ, poolHeld]
        exact (List.Perm.cons j this).trans (List.Perm.swap job j _)

theorem poolHeld_set_done {J : Type} :
    ∀ (ws : List (Worker J)) (i : Nat), ws.get? i = some Worker.waiting →
      poolHeld (ws.set i Worker.done) = poolHeld ws := by
  intro ws
  induction ws with
  | nil => intro i h; simp at h
  | cons w tl ih =>
    intro i h
    cases i with
    | zero =>
      simp only [List.get?_cons_zero, Option.some.injEq] at h
      subst h
      simp [poolHeld]
    | succ i =>
      simp only [List.get?_cons_succ] at h
      have := ih i h
      cases w <;> simp [poolHeld, this]

theorem poolHeld_all_done {J : Type} :
    ∀ (ws : List (Worker J)), (∀ w ∈ ws, w = Worker.done) → poolHeld ws = [] := by
  intro ws
  induction ws with
  | nil => intro _; rfl
  | cons w tl ih =>
    intro h
    have hw := h w (List.mem_cons_self _ _)
    subst hw
    simpa [poolHeld] using ih (fun x hx => h x (List.mem_cons_of_mem _ hx))

theorem poolStart_inv {J : Type} (n : Nat) (jobs : List J) : poolInv n jobs (poolStart n jobs) := by
  refine ⟨rfl, ?_, by simp [poolStart], by simp [poolStart], ?_, by simp [poolStart]⟩
  · have : poolHeld ((List.range n).map (fun _ => (Worker.waiting : Worker J))) = [] := by
      induction (List.range n) with
      | nil => rfl
      | cons a l ih => simpa [poolHeld] using ih
    show List.Perm [] (poolHeld ((List.range n).map (fun _ => (Worker.waiting : Worker J))) ++ [])
    rw [this]
    exact List.Perm.refl _
  · intro w hw hd
    simp only [poolStart, List.mem_map] at hw
    obtain ⟨_, _, rfl⟩ := hw
    cases hd

theorem poolStep_inv {J : Type} (n : Nat) (jobs : List J) (s s1 : Pool J) (a : PoolAction)
    (hinv : poolInv n jobs s) (h : poolStep s a = some s1) : poolInv n jobs s1 := by
  obtain ⟨hsp, hperm, hlen, hcl, hdone, hwait⟩ := hinv
  have hnodone : ∀ (i : Nat) (x : Worker J), s.workers.get? i = some x → x ≠ Worker.done →
      s.waited = false := by
    intro i x hi hx
    cases hw : s.waited with
    | false => rfl
    | true => exact absurd ((hwait hw).2 x (List.get?_mem hi)) hx
  cases a with
  | send i =>
    simp only [poolStep] at h
    split at h
    · rename_i job rest hp hwk
      split_ifs at h with hc
      simp only [Option.some.injEq] at h
      subst h
      have hc1 : s.closed = false := by
        cases hx : s.closed with
        | false => rfl
        | true => exact absurd (Or.inl hx) hc
      refine ⟨?_, ?_, by simpa using hlen, ?_, ?_, ?_⟩
      · simp only [List.append_assoc, List.singleton_append]
        rw [← hp]; exact hsp
      · have h1 := poolHeld_set_busy job s.workers i hwk
        have h2 : (s.sent ++ [job]).Perm (job :: s.sent) := List.perm_append_singleton _ _
        refine h2.trans ?_
        refine (List.Perm.cons job hperm).trans ?_
        exact (List.Perm.append_right s.processed h1).symm
      · intro hx; simp only at hx; rw [hc1] at hx; cases hx
      · intro w hw hd
        simp only at hw
        rcases List.mem_or_eq_of_mem_set hw with hm | he
        · exact hdone w hm hd
        · rw [he] at hd; cases hd
      · intro hx
        simp only at hx
        rw [hnodone i _ hwk (by simp)] at hx; cases hx
    · cases h
  | finish i =>
    simp only [poolStep] at h
    split at h
    · rename_i job hwk
      simp only [Option.some.injEq] at h
      subst h
      refine ⟨hsp, ?_, by simpa using hlen, hcl, ?_, ?_⟩
      · have h1 := poolHeld_set_waiting job s.workers i hwk
        refine hperm.trans ?_
        refine (List.Perm.append_right s.processed h1).trans ?_
        simp only [List.cons_append]
        have hmid : (poolHeld (s.workers.set i Worker.waiting) ++ job :: s.processed).Perm
            (job :: (poolHeld (s.workers.set i Worker.waiting) ++ s.processed)) :=
          List.perm_middle
        refine hmid.symm.trans ?_
        exact List.Perm.append_left _ (List.perm_append_singleton job s.processed).symm
      · intro w hw hd
        simp only at hw
        rcases List.mem_or_eq_of_mem_set hw with hm | he
        · exact hdone w hm hd
        · rw [he] at hd; cases hd
      · intro hx
        simp only at hx
        rw [hnodone i _ hwk (by simp)] at hx; cases hx
    · cases h
  | close =>
    simp only [poolStep] at h
    split_ifs at h with hc
    simp only [Option.some.injEq] at h
    subst h
    obtain ⟨hp, hnc, hnf⟩ := hc
    refine ⟨hsp, hperm, hlen, ?_, ?_, ?_⟩
    · intro _
      exact ⟨List.isEmpty_iff.1 hp, by simpa using hnf⟩
    · intro w hw hd; rfl
    · intro hx
      exact ⟨rfl, (hwait hx).2⟩
  | exit i =>
    simp only [poolStep] at h
    split at h
    · rename_i hwk
      split_ifs at h with hc
      simp only [Option.some.injEq] at h
      subst h
      refine ⟨hsp, ?_, by simpa using hlen, hcl, ?_, ?_⟩
      · simp only
        rw [poolHeld_set_done s.workers i hwk]; exact hperm
      · intro w hw hd; exact hc
      · intro hx
        simp only at hx
        rw [hnodone i _ hwk (by simp)] at hx; cases hx
    · cases h
  | wait =>
    simp only [poolStep] at h
    split_ifs at h with hc
    simp only [Option.some.injEq] at h
    subst h
    obtain ⟨hc1, hnw, hall⟩ := hc
    refine ⟨hsp, hperm, hlen, hcl, hdone, ?_⟩
    intro _
    refine ⟨hc1, ?_⟩
    intro w hw
    have := List.all_eq_true.1 hall w hw
    cases w <;> simp_all [Worker.isDone]
  | abort =>
    simp only [poolStep] at h
    split_ifs at h with hc
    simp only [Option.some.injEq] at h
    subst h
    obtain ⟨hnc, hnf⟩ := hc
    refine ⟨hsp, hperm, hlen, ?_, hdone, ?_⟩
    · intro hx; exact absurd hx hnc
    · intro hx; exact absurd (hwait hx).1 hnc

theorem poolRun_inv {J : Type} (n : Nat) (jobs : List J) (acts : List PoolAction) :
    ∀ (s s1 : Pool J), poolInv n jobs s → poolRun s acts = some s1 → poolInv n jobs s1 := by
  induction acts with
  | nil =>
    intro s s1 hinv h
    simp only [poolRun, Option.some.injEq] at h
    subst h; exact hinv
  | cons a rest ih =>
    intro s s1 hinv h
    simp only [poolRun] at h
    cases hs : poolStep s a with
    | none => rw [hs] at h; cases h
    | some s2 =>
      rw [hs] at h
      exact ih s2 s1 (poolStep_inv n jobs s s2 a hinv hs) h

theorem poolLive_set_busy {J : Type} (job : J) :
    ∀ (ws : List (Worker J)) (i : Nat), ws.get? i = some Worker.waiting →
      poolLive (ws.set i (Worker.busy job)) = poolLive ws := by
  intro ws
  induction ws with
  | nil => intro i h; simp at h
  | cons w tl ih =>
    intro i h
    cases i with
    | zero =>
      simp only [List.get?_cons_zero, Option.some.injEq] at h
      subst h
      simp [poolLive]
    | succ i =>
      simp only [List.get?_cons_succ] at h
      have := ih i h
      cases w <;> simp [poolLive, this]

theorem poolLive_set_waiting {J : Type} (job : J) :
    ∀ (ws : List (Worker J)) (i : Nat), ws.get? i = some (Worker.busy job) →
      poolLive (ws.set i Worker.waiting) = poolLive ws := by
  intro ws
  induction ws with
  | nil => intro i h; simp at h
  | cons w tl ih =>
    intro i h
    cases i with
    | zero =>
      simp only [List.get?_cons_zero, Option.some.injEq] at h
      subst h
      simp [poolLive]
    | succ i =>
      simp only [List.get?_cons_succ] at h
      have := ih i h
      cases w <;> simp [poolLive, this]

theorem poolLive_set_done {J : Type} :
    ∀ (ws : List (Worker J)) (i : Nat), ws.get? i = some Worker.waiting →
      poolLive (ws.set i Worker.done) + 1 = poolLive ws := by
  intro ws
  induction ws with
  | nil => intro i h; simp at h
  | cons w tl ih =>
    intro i h
    cases i with
    | zero =>
      simp only [List.get?_cons_zero, Option.some.injEq] at h
      subst h
      simp [poolLive]
    | succ i =>
      simp only [List.get?_cons_succ] at h
      have := ih i h
      cases w <;> simp [poolLive] <;> omega

/-- Every step of the pool lowers the bound: no schedule runs for more than
`2 * jobs + workers + 3` steps. -/
theorem poolStep_measure {J : Type} (s s1 : Pool J) (a : PoolAction)
    (h : poolStep s a = some s1) : poolMeasure s1 < poolMeasure s := by
  cases a with
  | send i =>
    simp only [poolStep] at h
    split at h
    · rename_i job rest hp hwk
      split_ifs at h with hc
      simp only [Option.some.injEq] at h
      subst h
      have h1 := (poolHeld_set_busy job s.workers i hwk).length_eq
      have h2 := poolLive_set_busy job s.workers i hwk
      simp only [poolMeasure, h1, h2, hp, List.length_cons]
      omega
    · cases h
  | finish i =>
    simp only [poolStep] at h
    split at h
    · rename_i job hwk
      simp only [Option.some.injEq] at h
      subst h
      have h1 := (poolHeld_set_waiting job s.workers i hwk).length_eq
      have h2 := poolLive_set_waiting job s.workers i hwk
      simp only [poolMeasure, h1, h2, List.length_cons]
      omega
    · cases h
  | close =>
    simp only [poolStep] at h
    split_ifs at h with hc
    simp only [Option.some.injEq] at h
    subst h
    obtain ⟨_, hnc, _⟩ := hc
    simp only [poolMeasure, hnc, if_true, if_false]
    simp only [Bool.false_eq_true, if_false]
    omega
  | exit i =>
    simp only [poolStep] at h
    split at h
    · rename_i hwk
      split_ifs at h with hc
      simp only [Option.some.injEq] at h
      subst h
      have h1 := poolHeld_set_done s.workers i hwk
      have h2 := poolLive_set_done s.workers i hwk
      simp only [poolMeasure, h1]
      omega
    · cases h
  | wait =>
    simp only [poolStep] at h
    split_ifs at h with hc
    simp only [Option.some.injEq] at h
    subst h
    obtain ⟨_, hnw, _⟩ := hc
    simp only [poolMeasure, hnw, if_true, if_false]
    simp only [Bool.false_eq_true, if_false]
    omega
  | abort =>
    simp only [poolStep] at h
    split_ifs at h with hc
    simp only [Option.some.injEq] at h
    subst h
    obtain ⟨_, hnf⟩ := hc
    simp only [poolMeasure, hnf, if_true, if_false]
    simp only [Bool.false_eq_true, if_false]
    omega

/-- A pool with at least one worker never deadlocks: as long as the command
has neither failed nor seen its wait return, some step other than the abort
can happen, and the command has not failed after it. -/
theorem poolStep_progress {J : Type} (n : Nat) (jobs : List J) (s : Pool J)
    (hinv : poolInv n jobs s) (hn : 1 ≤ n) (hw : s.waited = false) (hf : s.failed = false) :
    ∃ a s1, poolStep s a = some s1 ∧ s1.failed = false := by
  obtain ⟨hsp, hperm, hlen, hcl, hdone, hwait⟩ := hinv
  by_cases hb : ∃ i job, s.workers.get? i = some (Worker.busy job)
  · obtain ⟨i, job, hi⟩ := hb
    exact ⟨PoolAction.finish i,
      { s with workers := s.workers.set i Worker.waiting, processed := s.processed ++ [job] },
      by simp only [poolStep, hi], hf⟩
  · have hnb : ∀ w ∈ s.workers, ∀ job, w ≠ Worker.busy job := by
      intro w hw1 job he
      obtain ⟨i, hi⟩ := List.get?_of_mem hw1
      exact hb ⟨i, job, by rw [hi, he]⟩
    cases hc : s.closed with
    | true =>
      by_cases hx : ∃ i, s.workers.get? i = some Worker.waiting
      · obtain ⟨i, hi⟩ := hx
        exact ⟨PoolAction.exit i, { s with workers := s.workers.set i Worker.done },
          by simp only [poolStep, hi, hc, if_true], hf⟩
      · have hall : s.workers.all Worker.isDone = true := by
          rw [List.all_eq_true]
          intro w hw1
          cases w with
          | done => rfl
          | busy job => exact absurd rfl (hnb _ hw1 job)
          | waiting =>
            obtain ⟨i, hi⟩ := List.get?_of_mem hw1
            exact absurd ⟨i, hi⟩ hx
        refine ⟨PoolAction.wait, { s with waited := true }, ?_, hf⟩
        simp only [poolStep, hc, hw, hall]
        simp
    | false =>
      cases hp : s.pending with
      | nil =>
        refine ⟨PoolAction.close, { s with closed := true }, ?_, hf⟩
        simp only [poolStep, hp, hc, hf]
        simp
      | cons job rest =>
        have h0 : 0 < s.workers.length := by omega
        obtain ⟨w, hw0⟩ : ∃ w, s.workers.get? 0 = some w :=
          ⟨s.workers.get ⟨0, h0⟩, List.get?_eq_get h0⟩
        have hmem := List.get?_mem hw0
        have hwait0 : w = Worker.waiting := by
          cases w with
          | waiting => rfl
          | busy j => exact absurd rfl (hnb _ hmem j)
          | done =>
            have := hdone _ hmem rfl
            rw [hc] at this; cases this
        subst hwait0
        refine ⟨PoolAction.send 0,
          { s with pending := rest, sent := s.sent ++ [job],
                   workers := s.workers.set 0 (Worker.busy job) }, ?_, hf⟩
        simp only [poolStep, hp, hw0, hc, hf]
        simp

/-- From every state a pool with at least one worker can reach, unless the
command has failed, the schedule can be continued until the wait returns. -/
theorem poolRun_completes {J : Type} (n : Nat) (jobs : List J) (hn : 1 ≤ n) :
    ∀ (k : Nat) (s : Pool J), poolMeasure s ≤ k → poolInv n jobs s → s.failed = false →
      ∃ acts s1, poolRun s acts = some s1 ∧ s1.waited = true := by
  intro k
  induction k with
  | zero =>
    intro s hk hinv hf
    have : s.waited = true := by
      cases hw : s.waited with
      | true => rfl
      | false =>
        simp only [poolMeasure, hw, hf] at hk
        simp at hk
    exact ⟨[], s, rfl, this⟩
  | succ k ih =>
    intro s hk hinv hf
    cases hw : s.waited with
    | true => exact ⟨[], s, rfl, hw⟩
    | false =>
      obtain ⟨a, s1, hstep, hf1⟩ := poolStep_progress n jobs s hinv hn hw hf
      have hm := poolStep_measure s s1 a hstep
      obtain ⟨acts, s2, hrun, hw2⟩ :=
        ih s1 (by omega) (poolStep_inv n jobs s s1 a hinv hstep) hf1
      exact ⟨a :: acts, s2, by simp only [poolRun, hstep, hrun], hw2⟩

/-- With at least one worker, the command can always run to the point where
its wait returns. -/
theorem pool_completes {J : Type} (n : Nat) (jobs : List J) (hn : 1 ≤ n) :
    ∃ acts s, poolRun (poolStart n jobs) acts = some s ∧ s.waited = true :=
  poolRun_completes n jobs hn _ _ (Nat.le_refl _) (poolStart_inv n jobs) rfl

/-- Conservation as far as it holds. In every run of the worker pool, under
every schedule and for every number of workers: the jobs sent so far are, counted with multiplicity, the
jobs the workers hold and the jobs they have processed (none lost, none
processed twice), and once the wait has returned (the completion message
follows it) every job has been sent, every worker has returned, and the jobs
processed are exactly the jobs of the command. -/
theorem pool_conserves_jobs {J : Type} (workers : Nat) (jobs : List J)
    (acts : List PoolAction) (s : Pool J)
    (h : poolRun (poolStart workers jobs) acts = some s) :
    s.sent ++ s.pending = jobs ∧
    (s.sent : Multiset J) = (poolHeld s.workers : Multiset J) + (s.processed : Multiset J) ∧
    (s.waited = true →
      (∀ w ∈ s.workers, w = Worker.done) ∧ s.pending = [] ∧ s.failed = false ∧
      (s.processed : Multiset J) = (jobs : Multiset J)) := by
  obtain ⟨hsp, hperm, _, hcl, _, hwait⟩ :=
    poolRun_inv workers jobs acts _ s (poolStart_inv workers jobs) h
  refine ⟨hsp, ?_, ?_⟩
  · rw [Multiset.coe_add, Multiset.coe_eq_coe]
    exact hperm
  · intro hw
    obtain ⟨hc, hall⟩ := hwait hw
    obtain ⟨hp, hf⟩ := hcl hc
    refine ⟨hall, hp, hf, ?_⟩
    rw [Multiset.coe_eq_coe]
    rw [poolHeld_all_done _ hall, List.nil_append] at hperm
    rw [hp, List.append_nil] at hsp
    rw [← hsp]
    exact hperm.symm

theorem pool_conserves_jobs_witness :
    poolRun (poolStart 2 [ascii "x", ascii "y", ascii "z"])
        [PoolAction.send 0, PoolAction.send 1, PoolAction.finish 1, PoolAction.send 1,
         PoolAction.close, PoolAction.finish 0, PoolAction.exit 0, PoolAction.finish 1,
         PoolAction.exit 1, PoolAction.wait] =
      some ⟨[], [ascii "x", ascii "y", ascii "z"], [Worker.done, Worker.done],
        [ascii "y", ascii "x", ascii "z"], true, true, false⟩ ∧
    (([ascii "y", ascii "x", ascii "z"] : List GoString) : Multiset GoString) =
      (([ascii "x", ascii "y", ascii "z"] : List GoString) : Multiset GoString) :=
  ⟨by decide,
   ((pool_conserves_jobs 2 [ascii "x", ascii "y", ascii "z"]
      [PoolAction.send 0, PoolAction.send 1, PoolAction.finish 1, PoolAction.send 1,
       PoolAction.close, PoolAction.finish 0, PoolAction.exit 0, PoolAction.finish 1,
       PoolAction.exit 1, PoolAction.wait]
      ⟨[], [ascii "x", ascii "y", ascii "z"], [Worker.done, Worker.done],
        [ascii "y", ascii "x", ascii "z"], true, true, false⟩ (by decide)).2.2 rfl).2.2.2⟩

/-- Once the command has returned the error of the walk, the channel is never
closed and the wait never returns, whatever the workers still do. -/
theorem poolRun_failed {J : Type} (acts : List PoolAction) :
    ∀ (s s1 : Pool J), s.failed = true → s.closed = false → s.waited = false →
      poolRun s acts = some s1 → s1.failed = true ∧ s1.closed = false ∧ s1.waited = false := by
  induction acts with
  | nil =>
    intro s s1 hf hc hw h
    simp only [poolRun, Option.some.injEq] at h
    subst h; exact ⟨hf, hc, hw⟩
  | cons a rest ih =>
    intro s s1 hf hc hw h
    simp only [poolRun] at h
    cases hs : poolStep s a with
    | none => rw [hs] at h; cases h
    | some s2 =>
      rw [hs] at h
      have h2 : s2.failed = true ∧ s2.closed = false ∧ s2.waited = false := by
        cases a with
        | send i =>
          simp only [poolStep] at hs
          split at hs
          · split_ifs at hs with hx
            exact absurd (Or.inr hf) hx
          · cases hs
        | finish i =>
          simp only [poolStep] at hs
          split at hs
          · simp only [Option.some.injEq] at hs
            subst hs; exact ⟨hf, hc, hw⟩
          · cases hs
        | close =>
          simp only [poolStep] at hs
          split_ifs at hs with hx
          exact absurd hf hx.2.2
        | exit i =>
          simp only [poolStep] at hs
          split at hs
          · split_ifs at hs with hx
            rw [hc] at hx; cases hx
          · cases hs
        | wait =>
          simp only [poolStep] at hs
          split_ifs at hs with hx
          rw [hc] at hx; exact absurd hx.1 (by decide)
        | abort =>
          simp only [poolStep] at hs
          split_ifs at hs with hx
          exact absurd hf hx.2
      exact ih s2 s1 h2.1 h2.2.1 h2.2.2 h

/-- C23. The sync of the directory `/w/cfg` with one worker, the walk sending
`a.txt` and then meeting a directory it cannot read: the walk returns its
error with the job `a.txt` sent; the worker receives the job, and
`syncAction` returns the error at once, without closing the channel and
without waiting. At that moment the job sent is in the hands of the worker
and not processed, and from then on no wait ever returns: the command ends
(and `main` leaves the process) with a worker unfinished, where the claim has
every job sent processed and every worker finished first. -/
theorem sync_walk_error_abandons_job :
    syncWalk brokenSyncWalk = (some Error.walkFailed, [ascii "a.txt"]) ∧
    poolRun (poolStart 1 [ascii "a.txt"]) [PoolAction.send 0, PoolAction.abort] =
      some ⟨[], [ascii "a.txt"], [Worker.busy (ascii "a.txt")], [], false, false, true⟩ ∧
    (∀ (acts : List PoolAction) (s : Pool GoString),
      poolRun ⟨[], [ascii "a.txt"], [Worker.busy (ascii "a.txt")], [], false, false, true⟩ acts =
        some s → s.failed = true ∧ s.closed = false ∧ s.waited = false) := by
  refine ⟨by decide, by decide, ?_⟩
  intro acts s h
  exact poolRun_failed acts _ s rfl rfl rfl h

/-! ## The progress bar -/

theorem roundHalfEven_error (x : ℚ) : |(roundHalfEven x : ℚ) - x| ≤ 1 / 2 := by
  have h1 := Int.floor_le x
  have h2 := Int.lt_floor_add_one x
  unfold roundHalfEven
  simp only
  split_ifs with ha hb hc
  · rw [abs_le]; constructor <;> linarith
  · rw [abs_le]; push_cast; constructor <;> linarith
  · rw [abs_le]; constructor <;> linarith
  · rw [abs_le]; push_cast; constructor <;> linarith

theorem F64.roundAbs_error (a : ℚ) (h1 : (2 : ℚ) ^ (-1022 : ℤ) ≤ a) :
    |F64.roundAbs a - a| ≤ a * F64.unitRoundoff := by
  have hpos : (0 : ℚ) < a := lt_of_lt_of_le (by positivity) h1
  have hlog : (-1022 : ℤ) ≤ Int.log 2 a :=
    (Int.zpow_le_iff_le_log (by norm_num) hpos).1 (by exact_mod_cast h1)
  have hle : (2 : ℚ) ^ (Int.log 2 a) ≤ a := by
    have := Int.zpow_log_le_self (b := 2) (r := a) (by norm_num) hpos
    exact_mod_cast this
  unfold F64.roundAbs
  simp only [max_eq_left hlog]
  generalize Int.log 2 a = e at hle
  have hulp : (0 : ℚ) < 2 ^ (e - 52) := by positivity
  generalize hu : (2 : ℚ) ^ (e - 52) = ulp at hulp
  have h := roundHalfEven_error (a / ulp)
  generalize (roundHalfEven (a / ulp) : ℚ) = m at h
  have : m * ulp - a = (m - a / ulp) * ulp := by field_simp
  rw [this, abs_mul, abs_of_pos hulp]
  calc |m - a / ulp| * ulp ≤ 1 / 2 * ulp := mul_le_mul_of_nonneg_right h hulp.le
    _ = 2 ^ e * F64.unitRoundoff := by
        rw [← hu, zpow_sub₀ (by norm_num : (2 : ℚ) ≠ 0), F64.unitRoundoff]
        norm_num
        ring
    _ ≤ a * F64.unitRoundoff := by
        apply mul_le_mul_of_nonneg_right hle
        unfold F64.unitRoundoff; positivity

/-- The rounding of a value in the normal range changes it by a factor within
one unit round-off of 1. -/
theorem F64.round_spec (q : ℚ) (h1 : (2 : ℚ) ^ (-1022 : ℤ) ≤ |q|) (h2 : |q| ≤ 2 ^ (1000 : ℤ)) :
    ∃ k : ℚ, F64.round q = F64.fin (q * k) ∧
      1 - F64.unitRoundoff ≤ k ∧ k ≤ 1 + F64.unitRoundoff := by
  have hpos : (0 : ℚ) < |q| := lt_of_lt_of_le (by positivity) h1
  have hq0 : q ≠ 0 := abs_pos.1 hpos
  have herr := F64.roundAbs_error |q| h1
  generalize hv : F64.roundAbs |q| = v at herr
  have hno : ¬ (2 : ℚ) ^ (1024 : ℤ) ≤ v := by
    intro h
    have hv2 : v ≤ |q| * (1 + F64.unitRoundoff) := by
      have := (abs_le.1 herr).2
      linarith
    have : |q| * (1 + F64.unitRoundoff) ≤ 2 ^ (1000 : ℤ) * 2 := by
      apply mul_le_mul h2 _ (by unfold F64.unitRoundoff; positivity) (by positivity)
      unfold F64.unitRoundoff; norm_num
    have h3 : (2 : ℚ) ^ (1000 : ℤ) * 2 < 2 ^ (1024 : ℤ) := by norm_num
    linarith
  refine ⟨(if q < 0 then -v else v) / q, ?_, ?_, ?_⟩
  · unfold F64.round
    rw [if_neg hq0]
    simp only [hv]
    rw [if_neg hno]
    congr 1
    field_simp
    split_ifs <;> ring
  · by_cases hneg : q < 0
    · rw [if_pos hneg]
      have habs : |q| = -q := abs_of_neg hneg
      rw [habs] at herr
      have := (abs_le.1 herr).1
      rw [le_div_iff_of_neg hneg]
      linarith
    · rw [if_neg hneg]
      have hqp : 0 < q := lt_of_le_of_ne (not_lt.1 hneg) (Ne.symm hq0)
      have habs : |q| = q := abs_of_pos hqp
      rw [habs] at herr
      have := (abs_le.1 herr).1
      rw [le_div_iff₀ hqp]
      linarith
  · by_cases hneg : q < 0
    · rw [if_pos hneg]
      have habs : |q| = -q := abs_of_neg hneg
      rw [habs] at herr
      have := (abs_le.1 herr).2
      rw [div_le_iff_of_neg hneg]
      linarith
    · rw [if_neg hneg]
      have hqp : 0 < q := lt_of_le_of_ne (not_lt.1 hneg) (Ne.symm hq0)
      have habs : |q| = q := abs_of_pos hqp
      rw [habs] at herr
      have := (abs_le.1 herr).2
      rw [div_le_iff₀ hqp]
      linarith


theorem float_tiny_le : (2 : ℚ) ^ (-1022 : ℤ) ≤ 1 / 2 ^ 70 := by
  have h : (2 : ℚ) ^ (-1022 : ℤ) ≤ 2 ^ (-70 : ℤ) := zpow_le_zpow_right₀ (by norm_num) (by norm_num)
  have h2 : (2 : ℚ) ^ (-70 : ℤ) = 1 / 2 ^ 70 := by norm_num
  rw [← h2]; exact h

theorem float_huge_ge : (2 : ℚ) ^ 80 ≤ 2 ^ (1000 : ℤ) := by
  have h : (2 : ℚ) ^ (80 : ℤ) ≤ 2 ^ (1000 : ℤ) := zpow_le_zpow_right₀ (by norm_num) (by norm_num)
  have h2 : (2 : ℚ) ^ (80 : ℤ) = 2 ^ 80 := by norm_num
  rw [← h2]; exact h

theorem F64.round_of_bounds (q : ℚ) (h1 : 1 / 2 ^ 70 ≤ |q|) (h2 : |q| ≤ 2 ^ 80) :
    ∃ k : ℚ, F64.round q = F64.fin (q * k) ∧
      1 - F64.unitRoundoff ≤ k ∧ k ≤ 1 + F64.unitRoundoff :=
  F64.round_spec q (le_trans float_tiny_le h1) (le_trans h2 float_huge_ge)

theorem F64.factor_crude (k : ℚ) (h1 : 1 - F64.unitRoundoff ≤ k) (h2 : k ≤ 1 + F64.unitRoundoff) : 1 / 2 ≤ k ∧ k ≤ 2 := by
  unfold F64.unitRoundoff at h1 h2
  constructor
  · have : (1 : ℚ) / 2 ≤ 1 - 1 / 2 ^ 53 := by norm_num
    linarith
  · have : (1 : ℚ) + 1 / 2 ^ 53 ≤ 2 := by norm_num
    linarith

theorem F64.factor_total (k1 k2 k3 k4 : ℚ)
    (h1 : 1 - F64.unitRoundoff ≤ k1 ∧ k1 ≤ 1 + F64.unitRoundoff) (h2 : 1 - F64.unitRoundoff ≤ k2 ∧ k2 ≤ 1 + F64.unitRoundoff)
    (h3 : 1 - F64.unitRoundoff ≤ k3 ∧ k3 ≤ 1 + F64.unitRoundoff) (h4 : 1 - F64.unitRoundoff ≤ k4 ∧ k4 ≤ 1 + F64.unitRoundoff) :
    |k1 * k3 * k4 / k2 - 1| ≤ 1 / 2 ^ 50 := by
  have hu0 : (0 : ℚ) < 1 - F64.unitRoundoff := by unfold F64.unitRoundoff; norm_num
  have hk1 : 0 < k1 := lt_of_lt_of_le hu0 h1.1
  have hk2 : 0 < k2 := lt_of_lt_of_le hu0 h2.1
  have hk3 : 0 < k3 := lt_of_lt_of_le hu0 h3.1
  have hk4 : 0 < k4 := lt_of_lt_of_le hu0 h4.1
  have hup : k1 * k3 * k4 ≤ (1 + F64.unitRoundoff) * (1 + F64.unitRoundoff) * (1 + F64.unitRoundoff) :=
    mul_le_mul (mul_le_mul h1.2 h3.2 hk3.le (by linarith)) h4.2 hk4.le
      (mul_nonneg (by linarith) (by linarith))
  have hlo : (1 - F64.unitRoundoff) * (1 - F64.unitRoundoff) * (1 - F64.unitRoundoff) ≤ k1 * k3 * k4 :=
    mul_le_mul (mul_le_mul h1.1 h3.1 hu0.le hk1.le) h4.1 hu0.le (mul_nonneg hk1.le hk3.le)
  have hA : (1 + F64.unitRoundoff) * (1 + F64.unitRoundoff) * (1 + F64.unitRoundoff) ≤ (1 + 1 / 2 ^ 50) * (1 - F64.unitRoundoff) := by
    unfold F64.unitRoundoff; norm_num
  have hB : (1 - 1 / 2 ^ 50) * (1 + F64.unitRoundoff) ≤ (1 - F64.unitRoundoff) * (1 - F64.unitRoundoff) * (1 - F64.unitRoundoff) := by
    unfold F64.unitRoundoff; norm_num
  rw [abs_le]
  constructor
  · rw [le_sub_iff_add_le, le_div_iff₀ hk2]
    have : (-(1 / 2 ^ 50) + 1) * k2 ≤ (1 - 1 / 2 ^ 50) * (1 + F64.unitRoundoff) := by
      have h50 : (0 : ℚ) ≤ 1 - 1 / 2 ^ 50 := by norm_num
      have : -(1 / 2 ^ 50) + 1 = (1 : ℚ) - 1 / 2 ^ 50 := by ring
      rw [this]
      exact mul_le_mul_of_nonneg_left h2.2 h50
    linarith
  · rw [sub_le_iff_le_add, div_le_iff₀ hk2]
    have : (1 + 1 / 2 ^ 50) * (1 - F64.unitRoundoff) ≤ (1 / 2 ^ 50 + 1) * k2 := by
      have h50 : (0 : ℚ) ≤ 1 + 1 / 2 ^ 50 := by norm_num
      have : 1 / 2 ^ 50 + 1 = (1 : ℚ) + 1 / 2 ^ 50 := by ring
      rw [this]
      exact mul_le_mul_of_nonneg_left h2.1 h50
    linarith


theorem F64.round_zero : F64.round 0 = F64.fin 0 := by
  unfold F64.round
  rw [if_pos rfl]

theorem F64.div_fin_fin (a b : ℚ) (hb : b ≠ 0) :
    F64.div (F64.fin a) (F64.fin b) = F64.round (a / b) := by
  simp only [F64.div, if_neg hb]

theorem F64.div_fin_zero (a : ℚ) (ha : 0 < a) :
    F64.div (F64.fin a) (F64.fin 0) = F64.inf false := by
  simp only [F64.div, if_true, if_neg (ne_of_gt ha), not_lt.2 ha.le, decide_False]

theorem F64.mul_fin_fin (a b : ℚ) : F64.mul (F64.fin a) (F64.fin b) = F64.round (a * b) := rfl

theorem F64.gt_fin_fin (a b : ℚ) : F64.gt (F64.fin a) (F64.fin b) = decide (b < a) := rfl

theorem Draw_percent_eq (other : Int) (p : ProgressBar) :
    (p.Draw other).percent =
      if F64.gt (F64.mul (F64.div (F64.ofInt p.Current) (F64.ofInt p.Total)) (F64.fin 100))
          (F64.fin 100) = true then F64.fin 100
      else F64.mul (F64.div (F64.ofInt p.Current) (F64.ofInt p.Total)) (F64.fin 100) := rfl

/-- The bar `Draw` prints has `Width` cells, whatever the byte counts. -/
theorem Draw_bar_length (other : Int) (p : ProgressBar) :
    (p.Draw other).bar.length = p.Width.toNat := by
  simp only [ProgressBar.Draw, List.length_map, List.length_range]

/-- `Draw` on a bar whose counter is at least 1: the bar has `Width` cells; an
empty total gives 100; any other total gives at most 100 and, up to the
rounding of the four `float64` operations, `min(100, current/total*100)`. -/
theorem Draw_spec (other : Int) (p : ProgressBar)
    (hc : 1 ≤ p.Current) (hc2 : p.Current < 2 ^ 63)
    (ht : -2 ^ 63 ≤ p.Total) (ht2 : p.Total < 2 ^ 63) :
    (p.Draw other).bar.length = p.Width.toNat ∧
    (p.Total = 0 → (p.Draw other).percent = F64.fin 100) ∧
    (p.Total ≠ 0 → ∃ v : ℚ, (p.Draw other).percent = F64.fin v ∧ v ≤ 100 ∧
      |v - min 100 ((p.Current : ℚ) / p.Total * 100)| ≤
        |(p.Current : ℚ) / p.Total * 100| / 2 ^ 50) := by
  have hcq1 : (1 : ℚ) ≤ (p.Current : ℚ) := by exact_mod_cast hc
  have hcq2 : (p.Current : ℚ) ≤ 2 ^ 63 := by exact_mod_cast hc2.le
  have hcpos : (0 : ℚ) < (p.Current : ℚ) := by linarith
  obtain ⟨k1, hr1, hk1⟩ := F64.round_of_bounds (p.Current : ℚ)
    (by rw [abs_of_pos hcpos]; exact le_trans (by norm_num) hcq1)
    (by rw [abs_of_pos hcpos]; exact le_trans hcq2 (by norm_num))
  have hk1c := F64.factor_crude k1 hk1.1 hk1.2
  have hapos : 0 < (p.Current : ℚ) * k1 := mul_pos hcpos (by linarith [hk1c.1])
  have ho1 : F64.ofInt p.Current = F64.fin ((p.Current : ℚ) * k1) := hr1
  refine ⟨Draw_bar_length other p, ?_, ?_⟩
  · intro h0
    have ho2 : F64.ofInt p.Total = F64.fin 0 := by
      unfold F64.ofInt
      rw [h0, Int.cast_zero, F64.round_zero]
    rw [Draw_percent_eq, ho1, ho2, F64.div_fin_zero _ hapos]
    have hm : F64.mul (F64.inf false) (F64.fin 100) = F64.inf false := by
      simp only [F64.mul]
      norm_num
    rw [hm]
    rfl
  · intro h0
    have htq0 : (p.Total : ℚ) ≠ 0 := by exact_mod_cast h0
    have htabs1 : (1 : ℚ) ≤ |(p.Total : ℚ)| := by
      have : (1 : ℤ) ≤ |p.Total| := Int.one_le_abs h0
      exact_mod_cast this
    have htabs2 : |(p.Total : ℚ)| ≤ 2 ^ 63 := by
      have : |p.Total| ≤ (2 : ℤ) ^ 63 := abs_le.2 ⟨by linarith, ht2.le⟩
      exact_mod_cast this
    obtain ⟨k2, hr2, hk2⟩ := F64.round_of_bounds (p.Total : ℚ)
      (le_trans (by norm_num) htabs1) (le_trans htabs2 (by norm_num))
    have ho2 : F64.ofInt p.Total = F64.fin ((p.Total : ℚ) * k2) := hr2
    have hk2c := F64.factor_crude k2 hk2.1 hk2.2
    have hk2pos : 0 < k2 := by linarith [hk2c.1]
    have hbne : (p.Total : ℚ) * k2 ≠ 0 := mul_ne_zero htq0 (ne_of_gt hk2pos)
    have hbabs : |(p.Total : ℚ) * k2| = |(p.Total : ℚ)| * k2 := by
      rw [abs_mul, abs_of_pos hk2pos]
    generalize hT : |(p.Total : ℚ)| = T at htabs1 htabs2 hbabs
    generalize hC : (p.Current : ℚ) = c at *
    generalize ht' : (p.Total : ℚ) = t at *
    have hbpos : 0 < T * k2 := mul_pos (by linarith) hk2pos
    have hb1 : 1 / 2 ≤ T * k2 := by nlinarith [hk2c.1]
    have hb2 : T * k2 ≤ 2 ^ 64 := by nlinarith [hk2c.2]
    have ha1 : 1 / 2 ≤ c * k1 := by nlinarith [hk1c.1]
    have ha2 : c * k1 ≤ 2 ^ 64 := by nlinarith [hk1c.2]
    have hqabs : |c * k1 / (t * k2)| = c * k1 / (T * k2) := by
      rw [abs_div, abs_of_pos hapos, hbabs]
    have hq1lo : 1 / 2 ^ 66 ≤ c * k1 / (T * k2) := by
      rw [le_div_iff₀ hbpos]
      calc 1 / 2 ^ 66 * (T * k2) ≤ 1 / 2 ^ 66 * 2 ^ 64 :=
            mul_le_mul_of_nonneg_left hb2 (by positivity)
        _ ≤ 1 / 2 := by norm_num
        _ ≤ _ := ha1
    have hq1hi : c * k1 / (T * k2) ≤ 2 ^ 65 := by
      rw [div_le_iff₀ hbpos]
      calc c * k1 ≤ 2 ^ 64 := ha2
        _ ≤ 2 ^ 65 * (1 / 2) := by norm_num
        _ ≤ _ := mul_le_mul_of_nonneg_left hb1 (by positivity)
    have hq1pos : 0 < c * k1 / (T * k2) := div_pos hapos hbpos
    obtain ⟨k3, hr3, hk3⟩ := F64.round_of_bounds (c * k1 / (t * k2))
      (by rw [hqabs]; exact le_trans (by norm_num) hq1lo)
      (by rw [hqabs]; exact le_trans hq1hi (by norm_num))
    have hk3c := F64.factor_crude k3 hk3.1 hk3.2
    have hk3pos : 0 < k3 := by linarith [hk3c.1]
    have hmabs : |c * k1 / (t * k2) * k3 * 100| = c * k1 / (T * k2) * k3 * 100 := by
      rw [abs_mul, abs_mul, hqabs, abs_of_pos hk3pos, abs_of_pos (by norm_num : (0 : ℚ) < 100)]
    generalize hQ : c * k1 / (T * k2) = Q at hq1lo hq1hi hq1pos hmabs
    have hQ3lo : 1 / 2 ^ 66 * (1 / 2) ≤ Q * k3 :=
      mul_le_mul hq1lo hk3c.1 (by norm_num) hq1pos.le
    have hQ3hi : Q * k3 ≤ 2 ^ 65 * 2 := mul_le_mul hq1hi hk3c.2 hk3pos.le (by positivity)
    obtain ⟨k4, hr4, hk4⟩ := F64.round_of_bounds (c * k1 / (t * k2) * k3 * 100)
      (by
        rw [hmabs]
        calc (1 : ℚ) / 2 ^ 70 ≤ 1 / 2 ^ 66 * (1 / 2) * 100 := by norm_num
          _ ≤ Q * k3 * 100 := mul_le_mul_of_nonneg_right hQ3lo (by norm_num))
      (by
        rw [hmabs]
        calc Q * k3 * 100 ≤ 2 ^ 65 * 2 * 100 := mul_le_mul_of_nonneg_right hQ3hi (by norm_num)
          _ ≤ 2 ^ 80 := by norm_num)
    have hperc : (p.Draw other).percent =
        F64.fin (if 100 < c * k1 / (t * k2) * k3 * 100 * k4 then 100
          else c * k1 / (t * k2) * k3 * 100 * k4) := by
      rw [Draw_percent_eq, ho1, ho2, F64.div_fin_fin _ _ hbne, hr3, F64.mul_fin_fin, hr4,
        F64.gt_fin_fin]
      by_cases h : 100 < c * k1 / (t * k2) * k3 * 100 * k4
      · simp only [h, decide_True, if_true]
      · simp only [h, decide_False, if_false, Bool.false_eq_true]
    have hx : c * k1 / (t * k2) * k3 * 100 * k4 = c / t * 100 * (k1 * k3 * k4 / k2) := by
      field_simp
      ring
    have hK := F64.factor_total k1 k2 k3 k4 hk1 hk2 hk3 hk4
    rw [hx] at hperc
    generalize c / t * 100 = x at hperc ⊢
    generalize k1 * k3 * k4 / k2 = K at hperc hK
    refine ⟨_, hperc, ?_, ?_⟩
    · split_ifs with h
      · exact le_refl _
      · exact not_lt.1 h
    · have hmin : (if 100 < x * K then (100 : ℚ) else x * K) = min 100 (x * K) := by
        rw [min_def]
        split_ifs with h1 h2 h2
        · rfl
        · exact absurd h1.le h2
        · exact le_antisymm (not_lt.1 h1) h2
        · rfl
      rw [hmin]
      have h1 := abs_min_sub_min_le_max 100 (x * K) 100 x
      have h2 : |x * K - x| ≤ |x| / 2 ^ 50 := by
        have : x * K - x = x * (K - 1) := by ring
        rw [this, abs_mul, div_eq_mul_one_div]
        exact mul_le_mul_of_nonneg_left hK (abs_nonneg x)
      have h3 : |(100 : ℚ) - 100| ⊔ |x * K - x| = |x * K - x| := by
        simp
      rw [h3] at h1
      exact le_trans h1 h2


theorem roundHalfEven_of_lt (x : ℚ) (f : ℤ) (h1 : (f : ℚ) ≤ x) (h2 : x - f < 1 / 2) :
    roundHalfEven x = f := by
  have hf : ⌊x⌋ = f := Int.floor_eq_iff.2 ⟨h1, by linarith⟩
  unfold roundHalfEven
  simp only [hf, if_pos h2]

theorem F64.roundAbs_of_log (a : ℚ) (e m : ℤ) (h1 : (2 : ℚ) ^ e ≤ a) (h2 : a < (2 : ℚ) ^ (e + 1))
    (hn : -1022 ≤ e) (hm : roundHalfEven (a / 2 ^ (e - 52)) = m) :
    F64.roundAbs a = (m : ℚ) * 2 ^ (e - 52) := by
  have hpos : (0 : ℚ) < a := lt_of_lt_of_le (by positivity) h1
  have hlog : Int.log 2 a = e := by
    apply le_antisymm
    · have := (Int.lt_zpow_iff_log_lt (b := 2) (by norm_num) hpos).1 (by exact_mod_cast h2)
      omega
    · exact (Int.zpow_le_iff_le_log (b := 2) (by norm_num) hpos).1 (by exact_mod_cast h1)
  unfold F64.roundAbs
  simp only [hlog, max_eq_left hn, hm]

theorem F64.round_of_pos (q v : ℚ) (hq : 0 < q) (hv : F64.roundAbs q = v)
    (hlt : v < (2 : ℚ) ^ (1024 : ℤ)) : F64.round q = F64.fin v := by
  unfold F64.round
  rw [if_neg (ne_of_gt hq)]
  simp only [abs_of_pos hq, hv, if_neg (not_le.2 hlt), if_neg (not_lt.2 hq.le)]

theorem float_big : (2 : ℚ) ^ 80 < 2 ^ (1024 : ℤ) := by
  have h : (2 : ℚ) ^ (80 : ℤ) < 2 ^ (1024 : ℤ) := zpow_lt_zpow_right₀ (by norm_num) (by norm_num)
  have h2 : (2 : ℚ) ^ (80 : ℤ) = 2 ^ 80 := by norm_num
  rw [← h2]; exact h

theorem F64.round_58 : F64.round 58 = F64.fin 58 := by
  apply F64.round_of_pos 58 58 (by norm_num) _ (lt_trans (by norm_num) float_big)
  rw [F64.roundAbs_of_log 58 5 (58 * 2 ^ 47) (by norm_num) (by norm_num) (by norm_num)
    (roundHalfEven_of_lt _ _ (by norm_num) (by norm_num))]
  norm_num

theorem F64.round_100 : F64.round 100 = F64.fin 100 := by
  apply F64.round_of_pos 100 100 (by norm_num) _ (lt_trans (by norm_num) float_big)
  rw [F64.roundAbs_of_log 100 6 (100 * 2 ^ 46) (by norm_num) (by norm_num) (by norm_num)
    (roundHalfEven_of_lt _ _ (by norm_num) (by norm_num))]
  norm_num

theorem F64.round_50 : F64.round 50 = F64.fin 50 := by
  apply F64.round_of_pos 50 50 (by norm_num) _ (lt_trans (by norm_num) float_big)
  rw [F64.roundAbs_of_log 50 5 (50 * 2 ^ 47) (by norm_num) (by norm_num) (by norm_num)
    (roundHalfEven_of_lt _ _ (by norm_num) (by norm_num))]
  norm_num

theorem F64.round_58_100 : F64.round (58 / 100) = F64.fin (5224175567749775 / 2 ^ 53) := by
  apply F64.round_of_pos _ _ (by norm_num) _ (lt_trans (by norm_num) float_big)
  rw [F64.roundAbs_of_log (58 / 100) (-1) 5224175567749775 (by norm_num) (by norm_num) (by norm_num)
    (roundHalfEven_of_lt _ _ (by norm_num) (by norm_num))]
  norm_num

theorem F64.round_bar : F64.round (50 * (5224175567749775 / 2 ^ 53)) =
    F64.fin (8162774324609023 / 2 ^ 48) := by
  apply F64.round_of_pos _ _ (by norm_num) _ (lt_trans (by norm_num) float_big)
  rw [F64.roundAbs_of_log _ 4 8162774324609023 (by norm_num) (by norm_num) (by norm_num)
    (roundHalfEven_of_lt _ _ (by norm_num) (by norm_num))]
  norm_num

theorem F64.round_percent : F64.round (5224175567749775 / 2 ^ 53 * 100) =
    F64.fin (8162774324609023 / 2 ^ 47) := by
  apply F64.round_of_pos _ _ (by norm_num) _ (lt_trans (by norm_num) float_big)
  rw [F64.roundAbs_of_log _ 5 8162774324609023 (by norm_num) (by norm_num) (by norm_num)
    (roundHalfEven_of_lt _ _ (by norm_num) (by norm_num))]
  norm_num

/-- The bar of 58 bytes out of 100, 50 cells wide: the quotient rounds to
just below 0.58, its product with 50 to just below 29, and 28 cells are
full; the percentage is the `float64` just below 58. -/
theorem Draw_example (other : Int) :
    ProgressBar.Draw other ⟨100, 58, 50⟩ =
      ⟨List.replicate 28 BarCell.full ++ BarCell.head :: List.replicate 21 BarCell.blank,
        F64.fin (8162774324609023 / 2 ^ 47)⟩ := by
  have h58 : F64.ofInt 58 = F64.fin 58 := by
    unfold F64.ofInt; rw [Int.cast_ofNat]; exact F64.round_58
  have h100 : F64.ofInt 100 = F64.fin 100 := by
    unfold F64.ofInt; rw [Int.cast_ofNat]; exact F64.round_100
  have h50 : F64.ofInt 50 = F64.fin 50 := by
    unfold F64.ofInt; rw [Int.cast_ofNat]; exact F64.round_50
  have hdiv : F64.div (F64.fin 58) (F64.fin 100) = F64.fin (5224175567749775 / 2 ^ 53) := by
    rw [F64.div_fin_fin _ _ (by norm_num), F64.round_58_100]
  have hcompleted : F64.toInt other (F64.fin (8162774324609023 / 2 ^ 48)) = 28 := by
    have hf : ⌊(8162774324609023 / 2 ^ 48 : ℚ)⌋ = 28 :=
      Int.floor_eq_iff.2 ⟨by norm_num, by norm_num⟩
    simp only [F64.toInt]
    rw [if_pos (by norm_num), hf]
    norm_num
  unfold ProgressBar.Draw
  simp only [h58, h100, h50, hdiv, F64.mul_fin_fin, F64.round_bar, F64.round_percent, hcompleted,
    F64.gt_fin_fin]
  refine congrArg₂ Drawn.mk ?_ ?_
  · decide
  · norm_num

/-- On a bar with an empty total and a counter at zero, `Draw` would divide
zero by zero and report not-a-number; `Read` never draws such a bar, since it
advances the counter by a positive number first. -/
theorem Draw_zero_zero (other width : Int) :
    (ProgressBar.Draw other ⟨0, 0, width⟩).percent = F64.nan := by
  have h0 : F64.ofInt 0 = F64.fin 0 := by
    unfold F64.ofInt
    rw [Int.cast_zero, F64.round_zero]
  rw [Draw_percent_eq]
  simp only [h0]
  rfl

/-- C22. Progress percentage. `Read` draws the bar exactly when the wrapped
reader returned `n > 0` bytes, after advancing the counter by `n`; so `Draw`
runs on a counter of at least 1. For every such bar (the counter non-negative
before, the counts within `int64`): the bar drawn has `Width` cells; with an
empty total the division by zero does not fail and the percentage reported is
100; with any other total the percentage reported is at most 100 and is
`min(100, current/total*100)` up to the rounding of `float64`, the relative
error being at most `2 ^ (-50)`. -/
theorem progress_percentage (other : Int) (p : ProgressBar) (n : Int)
    (hcur : 0 ≤ p.Current) (hsum : p.Current + n < 2 ^ 63)
    (ht : -2 ^ 63 ≤ p.Total) (ht2 : p.Total < 2 ^ 63) :
    ProgressReader.Read other p n =
      (if n > 0 then
        ({ p with Current := p.Current + n },
          some (ProgressBar.Draw other { p with Current := p.Current + n }))
       else (p, none)) ∧
    (0 < n →
      (((ProgressBar.Draw other { p with Current := p.Current + n }).bar.length : Nat) : Int) =
        max p.Width 0 ∧
      (p.Total = 0 →
        (ProgressBar.Draw other { p with Current := p.Current + n }).percent = F64.fin 100) ∧
      (p.Total ≠ 0 →
        ∃ v : ℚ,
          (ProgressBar.Draw other { p with Current := p.Current + n }).percent = F64.fin v ∧
          v ≤ 100 ∧
          |v - min 100 (((p.Current + n : Int) : ℚ) / p.Total * 100)| ≤
            |((p.Current + n : Int) : ℚ) / p.Total * 100| / 2 ^ 50)) := by
  constructor
  · unfold ProgressReader.Read ProgressBar.Update
    rfl
  · intro hn
    have h := Draw_spec other { p with Current := p.Current + n } (by simp only; omega) hsum ht ht2
    refine ⟨?_, h.2.1, h.2.2⟩
    rw [h.1, Int.toNat_eq_max]

/-- Witness of C22: a read of 58 bytes on a fresh bar of 100 bytes, 50 cells
wide: the bar is drawn with 28 full cells and the percentage just below 58. -/
theorem progress_percentage_witness :
    ProgressReader.Read 0 ⟨100, 0, 50⟩ 58 =
      (⟨100, 58, 50⟩,
        some ⟨List.replicate 28 BarCell.full ++ BarCell.head :: List.replicate 21 BarCell.blank,
          F64.fin (8162774324609023 / 2 ^ 47)⟩) ∧
    ∃ v : ℚ,
      (ProgressBar.Draw 0 ⟨100, 58, 50⟩).percent = F64.fin v ∧ v ≤ 100 ∧
        |v - min 100 (((58 : Int) : ℚ) / (100 : Int) * 100)| ≤
          |((58 : Int) : ℚ) / (100 : Int) * 100| / 2 ^ 50 := by
  have h := progress_percentage 0 ⟨100, 0, 50⟩ 58 (by decide) (by decide) (by decide) (by decide)
  refine ⟨?_, (h.2 (by decide)).2.2 (by decide)⟩
  rw [h.1, if_pos (by decide)]
  have h58 : ({ Total := 100, Current := 0 + 58, Width := 50 } : ProgressBar) = ⟨100, 58, 50⟩ := rfl
  rw [h58, Draw_example]

/-! ## The output of ls -/

/-- With `-d` and no file at the level, `ls` prints the directories, up to the
limit, and nothing else. -/
theorem lsOutput_d_no_files (limit : Int) (directories : List GoString) :
    lsOutput true limit directories [] = (lsTake limit 0 directories).map LsLine.dir := by
  simp [lsOutput]

/-- With `-d` and a file at the level, `ls` prints nothing at all. -/
theorem lsOutput_d_files (limit : Int) (directories : List GoString) (file : ObjectInfo)
    (files : List ObjectInfo) : lsOutput true limit directories (file :: files) = [] := by
  simp [lsOutput]

/-- C24. A level holding the directory `a/` and the file `b`, listed with
`-d`: the level is collected as the directory `a/` and the file `b`, and `ls`
prints nothing, where the claim has it print `a/`. The directories are printed
only under `!d || len(files) == 0`. -/
theorem ls_d_hides_directories :
    lsCollect [] ((exampleWorld [ascii "a/x", ascii "b"]).ListObjects (ascii "b") [] false) =
      Except.ok ⟨[ascii "a/"], [⟨ascii "b", 0, 0, false⟩]⟩ ∧
    lsAction (exampleWorld [ascii "a/x", ascii "b"]) (fun _ files => files)
      (exampleManager (ascii "/")) true false 0 [] = Except.ok [] ∧
    lsAction (exampleWorld [ascii "a/x"]) (fun _ files => files)
      (exampleManager (ascii "/")) true false 0 [] = Except.ok [LsLine.dir (ascii "a/")] := by
  refine ⟨by decide, by decide, by decide⟩

/-! ## The authentication string -/

theorem split_length (s : GoString) (sep : Nat) :
    (strings.Split s sep).length = s.count sep + 1 := by
  induction s with
  | nil => rfl
  | cons c s ih =>
    simp only [strings.Split]
    by_cases h : c = sep
    · subst h
      simp [ih]
    · rw [if_neg h]
      have hne := split_ne_nil s sep
      cases hs : strings.Split s sep with
      | nil => exact absurd hs hne
      | cons p ps =>
        rw [hs] at ih
        simp only [List.length_cons] at ih ⊢
        rw [List.count_cons_of_ne (Ne.symm h)]
        exact ih

/-- `ParseAuthString` succeeds exactly when its input has three colons, that
is, splits on `:` into four parts. -/
theorem ParseAuthString_ok_iff (authStr : GoString) :
    (∃ session, ParseAuthString authStr = Except.ok session) ↔ authStr.count colon = 3 := by
  unfold ParseAuthString
  simp only [split_length]
  by_cases h : authStr.count colon = 3
  · simp [h]
  · have : ¬ (authStr.count colon + 1 = 4) := by omega
    simp [h, this]

/-- The string `authAction` prints has at least four colons: one in the
scheme and three separators. -/
theorem authString_colons (endpoint accessKey secretKey bucketName : GoString) :
    4 ≤ (authString endpoint accessKey secretKey bucketName).count colon := by
  have hscheme : ∀ e : GoString,
      strings.HasPrefix e (ascii "http://") = true ∨ strings.HasPrefix e (ascii "https://") = true →
      1 ≤ e.count colon := by
    intro e he
    rcases he with h | h
    · obtain ⟨t, rfl⟩ := List.isPrefixOf_iff_prefix.1 h
      rw [List.count_append]
      have : (ascii "http://").count colon = 1 := by decide
      omega
    · obtain ⟨t, rfl⟩ := List.isPrefixOf_iff_prefix.1 h
      rw [List.count_append]
      have : (ascii "https://").count colon = 1 := by decide
      omega
  have hsep : (ascii ":").count colon = 1 := by decide
  unfold authString
  simp only [List.count_append, hsep]
  split_ifs with h
  · rw [List.count_append]
    have : (ascii "https://").count colon = 1 := by decide
    omega
  · have he : 1 ≤ endpoint.count colon := by
      apply hscheme
      by_contra hc
      apply h
      simp only [not_or, Bool.not_eq_true] at hc
      simp [hc.1, hc.2]
    omega

/-- C25. The string `authAction` prints is never accepted by
`ParseAuthString`: it carries the endpoint with its scheme, whose colon makes
the split on `:` give at least five parts, where four are required. -/
theorem auth_string_never_parses (endpoint accessKey secretKey bucketName : GoString) :
    ParseAuthString (authString endpoint accessKey secretKey bucketName) =
      Except.error Error.invalidAuthString := by
  have h := authString_colons endpoint accessKey secretKey bucketName
  unfold ParseAuthString
  simp only [split_length]
  rw [if_pos (by omega)]

/-! ## Relative joins -/

/-- C26. In a bucket holding `a/b/c`, `cd /a/` succeeds and commits the
current path `/a/`; the relative input `b` is then joined to `/a//b`, with a
doubled separator, where the claim has none: `FormatPath` adds its `/`
whether or not the current path ends in one. -/
theorem trailing_slash_join_doubles_separator :
    (cdAction (exampleWorld [ascii "a/b/c"]) (exampleManager (ascii "/")) [ascii "/a/"]).1 = none ∧
    (cdAction (exampleWorld [ascii "a/b/c"]) (exampleManager (ascii "/"))
      [ascii "/a/"]).2.CurrentSession = Except.ok (exampleSession (ascii "/a/")) ∧
    (cdAction (exampleWorld [ascii "a/b/c"]) (exampleManager (ascii "/"))
      [ascii "/a/"]).2.FormatPath (ascii "b") = Except.ok (ascii "/a//b") := by
  refine ⟨by decide, by decide, by decide⟩

theorem no_double_slash_cons (b : GoString)
    (hb : ¬ [slash, slash] <:+: b) (hbs : strings.HasPrefix b (ascii "/") = false) :
    ¬ [slash, slash] <:+: slash :: b := by
  intro h
  rcases List.infix_cons_iff.1 h with hp | hi
  · rw [List.cons_prefix_cons] at hp
    obtain ⟨t, ht⟩ := hp.2
    have : strings.HasPrefix b (ascii "/") = true :=
      (hasPrefix_slash_iff b).2 ⟨t, by rw [← ht]; rfl⟩
    rw [this] at hbs; cases hbs
  · exact hb hi

theorem no_double_slash_join (b : GoString)
    (hb : ¬ [slash, slash] <:+: b) (hbs : strings.HasPrefix b (ascii "/") = false) :
    ∀ a : GoString, ¬ [slash, slash] <:+: a → a.getLast? ≠ some slash →
      ¬ [slash, slash] <:+: a ++ slash :: b := by
  intro a
  induction a with
  | nil => intro _ _; exact no_double_slash_cons b hb hbs
  | cons x a ih =>
    intro ha hlast h
    rw [List.cons_append] at h
    rcases List.infix_cons_iff.1 h with hp | hi
    · rw [List.cons_prefix_cons] at hp
      obtain ⟨hx, hp2⟩ := hp
      cases a with
      | nil =>
        apply hlast
        rw [← hx]; rfl
      | cons y a2 =>
        rw [List.cons_append, List.cons_prefix_cons] at hp2
        apply ha
        rw [← hx, ← hp2.1]
        exact (List.prefix_append [slash, slash] a2).isInfix
    · refine ih (fun h2 => ha (List.infix_cons h2)) ?_ hi
      cases a with
      | nil => simp
      | cons y a2 =>
        intro h2
        apply hlast
        rw [List.getLast?_cons_cons]; exact h2

/-- Outside the trailing-separator case the join is as claimed: for a current
path without `//` that is the root or does not end in `/`, and a non-empty
relative input without `//`, the result of `FormatPath` has no `//`. -/
theorem formatPath_no_double_slash (m : SessionManager) (session : Session) (input : GoString)
    (hs : m.CurrentSession = Except.ok session)
    (hcur : ¬ [slash, slash] <:+: session.CurrentPath)
    (hend : session.CurrentPath = ascii "/" ∨ session.CurrentPath.getLast? ≠ some slash)
    (hne : input ≠ []) (hrel : strings.HasPrefix input (ascii "/") = false)
    (hin : ¬ [slash, slash] <:+: input) :
    ∃ r, m.FormatPath input = Except.ok r ∧ ¬ [slash, slash] <:+: r := by
  rw [formatPath_of_session m session input hs, if_neg hne, hrel]
  simp only [Bool.false_eq_true, if_false]
  have hsl : ascii "/" = [slash] := by decide
  by_cases hroot : session.CurrentPath = ascii "/"
  · rw [if_pos hroot]
    refine ⟨_, rfl, ?_⟩
    rw [hsl]
    exact no_double_slash_cons input hin hrel
  · rw [if_neg hroot]
    refine ⟨_, rfl, ?_⟩
    rcases hend with h | h
    · exact absurd h hroot
    · rw [hsl, List.append_assoc]
      exact no_double_slash_join input hin hrel _ hcur h

/-! ## The listing prefix of a pattern deletion -/

/-- A text that matches a pattern begins with the part of the pattern before
its first `*`, provided that part holds no `?`. -/
theorem match_hasPrefix_of_literal :
    ∀ (pattern text : GoString),
      wildcard.qmark ∉ pattern.takeWhile (fun c => decide (c ≠ wildcard.star)) →
      wildcard.Match pattern text = true →
      strings.HasPrefix text (pattern.takeWhile (fun c => decide (c ≠ wildcard.star))) = true := by
  intro pattern text hq hm
  rw [wildcard.match_iff_globMatches] at hm
  induction pattern generalizing text with
  | nil => simp [strings.HasPrefix]
  | cons c p ih =>
    by_cases hs : c = wildcard.star
    · simp [List.takeWhile, hs, strings.HasPrefix]
    · have htw : (c :: p).takeWhile (fun c => decide (c ≠ wildcard.star)) =
          c :: p.takeWhile (fun c => decide (c ≠ wildcard.star)) := by
        simp [List.takeWhile, hs]
      rw [htw] at hq ⊢
      have hcq : c ≠ wildcard.qmark := by
        intro h
        exact hq (by rw [h]; exact List.mem_cons_self _ _)
      simp only [wildcard.GlobMatches, if_neg hs, if_neg hcq] at hm
      obtain ⟨r, rfl, hr⟩ := hm
      have := ih r (fun h => hq (List.mem_cons_of_mem _ h)) hr
      simpa [strings.HasPrefix] using this

/-- C27. The key `abcd` matches the pattern `a?c*`, yet `rm a?c*` on a bucket
holding `abcd` lists under the prefix `a?c`, receives nothing, and fails with
nothing deleted: the part of the pattern before the first `*` is used as a
literal prefix although it holds a `?`. -/
theorem rm_prefix_loses_match :
    wildcard.Match (ascii "a?c*") (ascii "abcd") = true ∧
    strings.HasPrefix (ascii "abcd")
      ((ascii "a?c*").takeWhile (fun c => decide (c ≠ wildcard.star))) = false ∧
    rmAction (exampleWorld [ascii "abcd"]) exampleRmEnv (exampleManager (ascii "/"))
      ⟨false, false, false⟩ [ascii "a?c*"] = (some (Error.noMatch (ascii "/a?c*")), []) := by
  refine ⟨by decide, by decide, by decide⟩

/-! ## The walk of sync -/

/-- Every relative path the walk of sync sends is that of an entry that is a
regular file, is not dot-named and has no error. -/
theorem syncWalkFrom_jobs (entries : List WalkEntry) :
    ∀ (skipped : List GoString) (job : GoString), job ∈ (syncWalkFrom skipped entries).2 →
      ∃ e ∈ entries, e.relPath = job ∧ e.info.IsDir = false ∧ e.hidden = false ∧ e.err = false := by
  induction entries with
  | nil => intro skipped job h; simp [syncWalkFrom] at h
  | cons entry rest ih =>
    intro skipped job h
    rw [syncWalkFrom] at h
    split_ifs at h with hs
    · obtain ⟨e, he, hr⟩ := ih skipped job h
      exact ⟨e, List.mem_cons_of_mem _ he, hr⟩
    · obtain ⟨path, relPath, info, hidden, err⟩ := entry
      cases err <;> cases hidden <;> cases hd : info.IsDir <;>
        simp only [syncWalkFn, hd, Bool.false_eq_true, if_false, if_true, Bool.not_false,
          Bool.not_true, List.nil_append, List.mem_cons, List.singleton_append,
          List.not_mem_nil] at h
      · rcases h with rfl | h
        · exact ⟨_, List.mem_cons_self _ _, rfl, hd, rfl, rfl⟩
        · obtain ⟨e, he, hr⟩ := ih _ job h
          exact ⟨e, List.mem_cons_of_mem _ he, hr⟩
      all_goals
        obtain ⟨e, he, hr⟩ := ih _ job h
        exact ⟨e, List.mem_cons_of_mem _ he, hr⟩

/-- A walk whose root is a dot-named directory sends nothing: the callback
returns `SkipDir` for the root, and every other entry lies below it. -/
theorem syncWalk_dot_root (root : WalkEntry) (rest : List WalkEntry)
    (herr : root.err = false) (hdot : root.hidden = true) (hdir : root.info.IsDir = true)
    (hbelow : ∀ e ∈ rest, strings.HasPrefix e.path (root.path ++ ascii "/") = true) :
    syncWalk (root :: rest) = (none, []) := by
  have hrest : ∀ (l : List WalkEntry),
      (∀ e ∈ l, strings.HasPrefix e.path (root.path ++ ascii "/") = true) →
      syncWalkFrom [root.path] l = (none, []) := by
    intro l
    induction l with
    | nil => intro _; rfl
    | cons e l ih =>
      intro h
      rw [syncWalkFrom]
      have he := h e (List.mem_cons_self _ _)
      rw [if_pos (by simp [he])]
      exact ih (fun x hx => h x (List.mem_cons_of_mem _ hx))
  unfold syncWalk
  rw [syncWalkFrom, List.any_nil, if_neg (by decide)]
  simp only [syncWalkFn, herr, hdot, hdir, Bool.false_eq_true, if_false, if_true]
  rw [hrest rest hbelow]
  rfl

/-- C28. The directory `/w/.cfg`, holding the file `a.txt`, synced to `r/`
with the delete flag, the remote side holding `r/a.txt`: the walk sends no
job (the dot-name test is applied to the root itself, which is skipped with
all it holds) and the delete pass removes `r/a.txt`, where the claim has
`a.txt` dispatched and its remote counterpart kept. The same tree under the
name `/w/cfg` has `a.txt` dispatched and nothing removed. -/
theorem sync_skips_dot_named_root :
    syncWalk dotRootWalk = (none, []) ∧
    syncTransfer (exampleSyncEnv 1 0) true (ascii "/w/.cfg") (ascii "r/") dotRootRemote
      [ascii "a.txt"] dotRootWalk = (none, [SyncEvent.removeObject (ascii "r/a.txt")]) ∧
    syncWalk plainRootWalk = (none, [ascii "a.txt"]) ∧
    syncTransfer (exampleSyncEnv 1 0) true (ascii "/w/cfg") (ascii "r/") dotRootRemote
      [ascii "a.txt"] plainRootWalk = (none, [SyncEvent.markProcessed (ascii "a.txt")]) := by
  refine ⟨by decide, by decide, by decide, by decide⟩

/-! ## rm without `-d` and `-a` -/

theorem rmTargets_deleteSync (env : RmEnv) :
    ∀ keys : List GoString, rmTargets (rmDeleteSync env keys) = keys := by
  intro keys
  induction keys with
  | nil => rfl
  | cons k rest ih =>
    unfold rmDeleteSync
    cases env.removeOk k <;> simp [rmTargets, ih]

theorem rmSelectLoop_files (flags : RmFlags) (pattern : GoString)
    (hd : flags.d = false) (ha : flags.a = false) :
    ∀ (objs : List ObjectInfo) (acc keys : List GoString),
      (∀ k ∈ acc, strings.HasSuffix k (ascii "/") = false) →
      rmSelectLoop flags pattern objs acc = Except.ok keys →
      ∀ k ∈ keys, strings.HasSuffix k (ascii "/") = false := by
  intro objs
  induction objs with
  | nil =>
    intro acc keys hacc h
    simp only [rmSelectLoop, Except.ok.injEq] at h
    subst h; exact hacc
  | cons o rest ih =>
    intro acc keys hacc h
    unfold rmSelectLoop at h
    cases he : o.Err with
    | true => simp [he] at h
    | false =>
      simp only [he, Bool.false_eq_true, if_false, hd, ha, false_and, Bool.not_false,
        true_and] at h
      by_cases hm : wildcard.Match pattern o.Key = true
      · simp only [hm, if_true] at h
        cases hs : strings.HasSuffix o.Key (ascii "/") with
        | true =>
          simp only [hs, if_true] at h
          exact ih acc keys hacc h
        | false =>
          simp only [hs, Bool.false_eq_true, if_false] at h
          refine ih (acc ++ [o.Key]) keys ?_ h
          intro k hk
          rcases List.mem_append.1 hk with hk | hk
          · exact hacc k hk
          · rw [List.mem_singleton.1 hk]; exact hs
      · simp only [hm, if_false] at h
        exact ih acc keys hacc h

/-- C29. With neither `-d` nor `-a`, whatever the bucket holds and whatever
fails: `rm` never has `RemoveObject` called on a key that ends in `/`, at
once or in the background; without a wildcard it has it called on nothing
but the named object key; and when `StatObject` fails for that key (the path
names no object, whether or not it is a directory prefix) `rm` returns an
error and removes nothing. -/
theorem rm_spares_directories (w : World) (env : RmEnv) (m : SessionManager) (flags : RmFlags)
    (args : List GoString) (hd : flags.d = false) (ha : flags.a = false) :
    (∀ key ∈ rmTargets (rmAction w env m flags args).2,
      strings.HasSuffix key (ascii "/") = false) ∧
    (∀ formattedPath, m.FormatPath (args.headD []) = Except.ok formattedPath →
      strings.Contains (objectKey formattedPath) wildcard.star = false →
      (∀ key ∈ rmTargets (rmAction w env m flags args).2, key = objectKey formattedPath) ∧
      (env.statOk (objectKey formattedPath) = false →
        (rmAction w env m flags args).1 ≠ none ∧
        rmTargets (rmAction w env m flags args).2 = [])) := by
  obtain ⟨d, a, async⟩ := flags
  simp only at hd ha
  subst hd ha
  have hplain : ∀ (session : Session) (objectName formattedPath : GoString),
      (∀ key ∈ rmTargets (rmPlain w env ⟨false, false, async⟩ session objectName
          formattedPath).2,
        strings.HasSuffix key (ascii "/") = false ∧ key = objectName) ∧
      (env.statOk objectName = false →
        (rmPlain w env ⟨false, false, async⟩ session objectName formattedPath).1 ≠ none ∧
        rmTargets (rmPlain w env ⟨false, false, async⟩ session objectName
          formattedPath).2 = []) := by
    intro session objectName formattedPath
    unfold rmPlain
    cases hsfx : strings.HasSuffix objectName (ascii "/") <;>
      cases hst : env.statOk objectName <;>
      cases hls : (w.ListObjects session.BucketName (objectName ++ ascii "/") false).isEmpty <;>
      cases hrm : env.removeOk objectName <;>
      simp [hsfx, hst, hls, hrm, rmTargets]
  have hwild : ∀ (session : Session) (objectName formattedPath : GoString),
      ∀ key ∈ rmTargets (rmWildcard w env ⟨false, false, async⟩ session objectName
          formattedPath).2,
        strings.HasSuffix key (ascii "/") = false := by
    intro session objectName formattedPath
    unfold rmWildcard
    simp only
    cases hsel : rmSelectLoop ⟨false, false, async⟩ objectName
        (w.ListObjects session.BucketName
          (List.takeWhile (fun c => decide (c ≠ wildcard.star)) objectName) true) [] with
    | error e => simp [rmTargets]
    | ok keys =>
      have hk := rmSelectLoop_files ⟨false, false, async⟩ objectName rfl rfl _ [] keys
        (fun k hk => (List.not_mem_nil k hk).elim) hsel
      simp only
      split_ifs
      · simp [rmTargets]
      · simpa [rmTargets] using hk
      · rw [rmTargets_deleteSync]; exact hk
  constructor
  · intro key hkey
    unfold rmAction at hkey
    split_ifs at hkey with h1
    · simp [rmTargets] at hkey
    · cases hc : m.GetClient w with
      | error e => simp only [hc, rmTargets, List.not_mem_nil] at hkey
      | ok m1 =>
        cases hs : m.CurrentSession with
        | error e => simp only [hc, hs, rmTargets, List.not_mem_nil] at hkey
        | ok session =>
          cases hf : m.FormatPath (args.headD []) with
          | error e => simp only [hc, hs, hf, rmTargets, List.not_mem_nil] at hkey
          | ok formattedPath =>
            simp only [hc, hs, hf] at hkey
            split_ifs at hkey with hw
            · exact hwild _ _ _ key hkey
            · exact ((hplain _ _ _).1 key hkey).1
  · intro formattedPath hf hnw
    unfold rmAction
    split_ifs with h1
    · simp [rmTargets]
    · cases hc : m.GetClient w with
      | error e => simp [rmTargets]
      | ok m1 =>
        cases hs : m.CurrentSession with
        | error e => simp [rmTargets]
        | ok session =>
          simp only [hf]
          have hnw1 : strings.Contains (strings.TrimPrefix formattedPath (ascii "/"))
              wildcard.star = false := hnw
          rw [if_neg (by rw [hnw1]; decide)]
          have hp := hplain session (strings.TrimPrefix formattedPath (ascii "/")) formattedPath
          exact ⟨fun key hkey => (hp.1 key hkey).2, hp.2⟩

theorem rm_spares_directories_witness :
    rmTargets (rmAction (exampleWorld [ascii "a/", ascii "a/x", ascii "b"]) exampleRmEnv
      (exampleManager (ascii "/")) ⟨false, false, false⟩ [ascii "*"]).2 =
      [ascii "a/x", ascii "b"] ∧
    (rmAction (exampleWorld [ascii "a/", ascii "a/x", ascii "b"]) failingStatEnv
      (exampleManager (ascii "/")) ⟨false, false, false⟩ [ascii "a"]) =
      (some (Error.needDirFlag (ascii "/a")), []) ∧
    (∀ key ∈ rmTargets (rmAction (exampleWorld [ascii "a/", ascii "a/x", ascii "b"]) exampleRmEnv
        (exampleManager (ascii "/")) ⟨false, false, false⟩ [ascii "*"]).2,
      strings.HasSuffix key (ascii "/") = false) :=
  ⟨by decide, by decide,
   (rm_spares_directories (exampleWorld [ascii "a/", ascii "a/x", ascii "b"]) exampleRmEnv
      (exampleManager (ascii "/")) ⟨false, false, false⟩ [ascii "*"] rfl rfl).1⟩

/-! ## The recursion of printTree -/

/-- C30. For the listing of the single key `/x`, `treeAction` files the child
`/` under the root; `printTree` called on the root then calls itself on the
path `/` again (the next path of the child `/` of `/` is `/`, not a longer
path), so it returns for no bound on the depth of the recursion. -/
theorem printTree_never_returns :
    slashTree.get (ascii "/") = [ascii "/", ascii "x"] ∧
    treeNextPath (ascii "/") (ascii "/") = ascii "/" ∧
    ∀ fuel depth : Nat, printTree fuel slashTree (ascii "/") depth = none := by
  refine ⟨by decide, by decide, ?_⟩
  intro fuel
  induction fuel with
  | zero => intro depth; rfl
  | succ n ih =>
    intro depth
    have hitems : sortStrings (slashTree.get (ascii "/")) = [ascii "/", ascii "x"] := by decide
    have hnext : treeNextPath (ascii "/") (ascii "/") = ascii "/" := by decide
    have hsfx : strings.HasSuffix (ascii "/") (ascii "/") = true := by decide
    rw [printTree]
    simp only [hitems]
    have hr : List.range [ascii "/", ascii "x"].length = [0, 1] := by decide
    rw [hr]
    simp only [List.mapM_cons, List.getD_cons_zero, hsfx, if_true, hnext, ih]
    rfl

end Minx
